import Mathlib

/-!
# A verification development for the shell's command-execution engine

The C sources `src/parse.c`, `src/shell.c` and `src/commands.c` are embedded
shallowly.  A C string is represented by the list of the characters that stand
before its terminating NUL, so reading `*ptr` at the end of the list is reading
the NUL.  A pointer into a string is represented by the rest of the string from
that position on.
-/

namespace Shell

/-! ## Characters -/

/-- The single-quote character (code 39). -/
def SQ : Char := Char.ofNat 39

/-- The double-quote character (code 34). -/
def DQ : Char := Char.ofNat 34

/-- The test `c == ' ' || c == '\t'` of `parse_command` and `split_by_pipes`. -/
def is_blank (c : Char) : Bool := c == ' ' || c == '\t'

/-- The test `c == '<' || c == '>'` of `parse_command`. -/
def is_redir (c : Char) : Bool := c == '<' || c == '>'

/-- The loop test `*ptr != ' ' && *ptr != '\t' && *ptr != '<' && *ptr != '>'`
of `parse_command`, for a character that is not the NUL. -/
def is_word_char (c : Char) : Bool :=
  c != ' ' && c != '\t' && c != '<' && c != '>'

/-! ## `parse_command` (src/parse.c, lines 62-174) -/

/-- The variables of `parse_command` that its scanning loop reads and writes:
the cursor `ptr` (the unread rest of `cmd_copy`), the filled part
`tokens[0 .. position)` of the token array, and the two redirection targets
(`none` is the NULL pointer). -/
structure ParseState where
  ptr : List Char
  tokens : List (List Char)
  input_file : Option (List Char)
  output_file : Option (List Char)
deriving DecidableEq, Repr

/-- Lines 145-167: the guarded block that stores a token.  `tok` is what
`strndup(start, ptr - start)` copies and `ptr` is the cursor after the token
was scanned.  The token is stored only if the cursor is on a blank, on a
redirect operator or on the NUL; a blank is then stepped over, a redirect
operator is left for the next iteration. -/
def add_token (st : ParseState) (tok : List Char) (ptr : List Char) : ParseState :=
  match ptr with
  | [] => { st with ptr := [], tokens := st.tokens ++ [tok] }
  | d :: rest =>
    if is_redir d then { st with ptr := d :: rest, tokens := st.tokens ++ [tok] }
    else if is_blank d then { st with ptr := rest, tokens := st.tokens ++ [tok] }
    else { st with ptr := d :: rest }

/-- Lines 113-138: the scan of a quoted argument whose opening quote `q` was
just stepped over; `rest` is the text after the opening quote.  The cursor
runs to the next `q` or to the NUL; a closing quote is overwritten with NUL
and stepped over.  In both cases `strndup` copies the text up to the first
NUL, which is the text before the closing quote (or the whole rest). -/
def scan_quoted (st : ParseState) (q : Char) (rest : List Char) : ParseState :=
  let tok := rest.takeWhile (fun c => c != q)
  match rest.dropWhile (fun c => c != q) with
  | [] => add_token st tok []
  | _ :: after => add_token st tok after

/-- One pass through the body of the loop `while (*ptr)` (lines 80-168), for
a cursor that is not on the NUL.  On the `break` of line 86 the cursor rests
on the NUL. -/
def parse_iter (st : ParseState) : ParseState :=
  match st.ptr.dropWhile is_blank with
  | [] => { st with ptr := [] }
  | c :: rest =>
    if is_redir c then
      let start := rest.dropWhile is_blank
      let filename := start.takeWhile is_word_char
      let ptr := start.dropWhile is_word_char
      if c = '<' then { st with ptr := ptr, input_file := some filename }
      else { st with ptr := ptr, output_file := some filename }
    else if c = SQ then scan_quoted st SQ rest
    else if c = DQ then scan_quoted st DQ rest
    else add_token st ((c :: rest).takeWhile is_word_char) ((c :: rest).dropWhile is_word_char)

/-- The loop `while (*ptr)` of lines 79-169, with a bound on the number of
passes. -/
def parse_loop : Nat → ParseState → ParseState
  | 0, st => st
  | fuel + 1, st =>
    match st.ptr with
    | [] => st
    | _ :: _ => parse_loop fuel (parse_iter st)

/-- The result of `parse_command`: the NULL-terminated token array (without
its terminator) and the two out-parameters. -/
structure Parsed where
  argv : List (List Char)
  input_file : Option (List Char)
  output_file : Option (List Char)
deriving DecidableEq, Repr

/-- The state of `parse_command` on entry to its loop (lines 64-77). -/
def parse_init (command : List Char) : ParseState :=
  { ptr := command, tokens := [], input_file := none, output_file := none }

/-- `parse_command(command, &input_file, &output_file)`.  Every pass of the
loop consumes at least one character, so `command.length` passes are enough
(see `parse_loop_fuel`). -/
def parse_command (command : List Char) : Parsed :=
  let st := parse_loop (command.length + 1) (parse_init command)
  { argv := st.tokens, input_file := st.input_file, output_file := st.output_file }

/-- The loop of `parse_command` run to its end from the state `st`. -/
def parse_run (st : ParseState) : ParseState := parse_loop (st.ptr.length + 1) st

/-! ### The words of the command-line grammar -/

/-- A word as the grammar of a stage writes it: a bareword, a text in double
quotes, or a text in single quotes. -/
inductive Word where
  | bare (w : List Char)
  | dquoted (text : List Char)
  | squoted (text : List Char)
deriving DecidableEq, Repr

/-- The characters of a word as typed, quotes included. -/
def Word.source : Word → List Char
  | .bare w => w
  | .dquoted text => DQ :: text ++ [DQ]
  | .squoted text => SQ :: text ++ [SQ]

/-- The argument a word stands for: the bareword itself, or the quoted text
without its quotes. -/
def Word.value : Word → List Char
  | .bare w => w
  | .dquoted text => text
  | .squoted text => text

/-- Well-formed words: a bareword is not empty, holds no space, tab, `<` or
`>` and does not start with a quote character; a text in double quotes holds
no double quote; a text in single quotes holds no single quote. -/
def Word.wf : Word → Prop
  | .bare w => w ≠ [] ∧ (∀ c ∈ w, is_word_char c = true) ∧ w.head? ≠ some SQ ∧ w.head? ≠ some DQ
  | .dquoted text => DQ ∉ text
  | .squoted text => SQ ∉ text

instance Word.decidable_wf (w : Word) : Decidable w.wf := by
  cases w <;> unfold Word.wf <;> infer_instance

/-- The words written one after the other with a single space in between. -/
def join_words : List Word → List Char
  | [] => []
  | [w] => w.source
  | w :: w' :: ws => w.source ++ ' ' :: join_words (w' :: ws)

/-! ### The lexemes of a stage without quotes -/

/-- A lexeme of a stage without quotes: a maximal run of characters other
than space, tab, `<`, `>`, or a redirect operator. -/
inductive Lexeme where
  | word (w : List Char)
  | redir (c : Char)
deriving DecidableEq, Repr

/-- What a run contributes when it ends: nothing if it is empty. -/
def flush_run (cur : List Char) : List Lexeme :=
  if cur = [] then [] else [Lexeme.word cur]

/-- The lexemes of `s`, read character by character; `cur` is the run read
so far.  A run ends at a space, a tab, a redirect operator or the end of the
string, so every run is maximal. -/
def lex_from : List Char → List Char → List Lexeme
  | cur, [] => flush_run cur
  | cur, c :: cs =>
    if is_word_char c then lex_from (cur ++ [c]) cs
    else flush_run cur ++ ((if is_redir c then [Lexeme.redir c] else []) ++ lex_from [] cs)

/-- The maximal runs and redirect operators of `s`, from left to right. -/
def lexemes (s : List Char) : List Lexeme := lex_from [] s

/-- The runs that do not directly follow a redirect operator (blanks in
between are no lexemes, so they are ignored). -/
def drop_targets : List Lexeme → List (List Char)
  | [] => []
  | Lexeme.word w :: rest => w :: drop_targets rest
  | Lexeme.redir _ :: Lexeme.word _ :: rest => drop_targets rest
  | Lexeme.redir _ :: rest => drop_targets rest

/-! ## `split_by_pipes` (src/parse.c, lines 12-59) -/

/-- Membership in the delimiter set `"|"` of the `strtok` calls. -/
def is_pipe (c : Char) : Bool := c == '|'

/-- A character that is not in the delimiter set `"|"`. -/
def not_pipe (c : Char) : Bool := c != '|'

/-- One call of `strtok` with the delimiter set `"|"`, on the position `s`
(the argument of the first call, the saved pointer for the later calls):
leading delimiters are skipped; at the NUL the call returns NULL (`none`);
otherwise the token runs to the next delimiter, which is overwritten with
NUL, or to the end of the string.  The result is the token and the saved
pointer for the next call. -/
def strtok_pipe (s : List Char) : Option (List Char × List Char) :=
  match s.dropWhile is_pipe with
  | [] => none
  | c :: rest =>
    let token := (c :: rest).takeWhile not_pipe
    match (c :: rest).dropWhile not_pipe with
    | [] => some (token, [])
    | _ :: after => some (token, after)

/-- The test `*token == ' '` of the loop of line 30. -/
def is_space (c : Char) : Bool := c == ' '

/-- The loop `while (end > token && (*end == ' ' || *end == '\t')) *end-- = 0`
of line 35, on the offset `end - token`: the offset on which the loop stops. -/
def trim_end_at (token : List Char) : Nat → Nat
  | 0 => 0
  | e + 1 => if is_blank (token.getD (e + 1) ' ') then trim_end_at token e else e + 1

/-- Lines 29-39: what `strdup(token)` copies after the two trimming loops.
The first loop steps over leading spaces; the second cuts trailing spaces and
tabs but never moves `end` down to `token`.  For an empty `token`, `end` is
`token - 1`, the second loop does nothing and the copy is empty. -/
def trim_stage (token : List Char) : List Char :=
  let token := token.dropWhile is_space
  match token with
  | [] => []
  | _ :: _ => token.take (trim_end_at token (token.length - 1) + 1)

/-- The variables of the loop of `split_by_pipes`: the filled part
`tokens[0 .. position)` of the array and `position`. -/
structure SplitState where
  tokens : List (List Char)
  position : Nat
deriving DecidableEq, Repr

/-- The loop `while (token != NULL)` of lines 26-55, with a bound on the
number of passes; `s` is the position the next `strtok` call starts from. -/
def split_loop : Nat → List Char → SplitState → SplitState
  | 0, _, st => st
  | fuel + 1, s, st =>
    match strtok_pipe s with
    | none => st
    | some (token, save) =>
      split_loop fuel save
        { tokens := st.tokens ++ [trim_stage token], position := st.position + 1 }

/-- The result of `split_by_pipes`: the array of stages (whose entry at index
`num_commands` is the NULL terminator) and `*num_commands`. -/
structure Stages where
  tokens : List (List Char)
  num_commands : Nat
deriving DecidableEq, Repr

/-- `split_by_pipes(command, &num_commands)`.  Every `strtok` call that
returns a token consumes at least one character, so `command.length` passes
are enough (see `split_loop_fuel`). -/
def split_by_pipes (command : List Char) : Stages :=
  let st := split_loop (command.length + 1) command { tokens := [], position := 0 }
  { tokens := st.tokens, num_commands := st.position }

/-- The entry `commands[i]` of the array `split_by_pipes` returns, for
`i` up to `num_commands`; `none` is the NULL pointer. -/
def Stages.entry (r : Stages) (i : Nat) : Option (List Char) := r.tokens[i]?

/-- The loop of `split_by_pipes` run to its end, the next `strtok` call
starting from `s`. -/
def split_run (s : List Char) (st : SplitState) : SplitState :=
  split_loop (s.length + 1) s st

/-- The maximal non-empty runs of characters other than `|` of a line, from
left to right: the pieces between the pipe characters, the empty ones left
out. -/
def pipe_runs (line : List Char) : List (List Char) :=
  (line.splitOn '|').filter (fun r => !r.isEmpty)

/-- A stage differs from a run only by blanks removed at the two ends. -/
def trimmed_of (run stage : List Char) : Prop :=
  ∃ a b : List Char, run = a ++ stage ++ b
    ∧ (∀ c ∈ a, is_blank c = true) ∧ (∀ c ∈ b, is_blank c = true)

/-! ## The shell process (src/shell.c, src/commands.c)

The model follows one process through a call.  What the operating system
answers at each call site is given by an oracle `Sys`; what the process does
is recorded as a list of `Event`s; the globals of `shell.c` and the working
directory and environment of the process are carried in `ShellState`.
Diagnostics written to the standard error stream are not recorded. -/

/-- A background job (`job_t` of shell.h), without its `next` pointer. -/
structure Job where
  job_id : Int
  pid : Int
  command : List Char
deriving DecidableEq, Repr

/-- The globals `job_list` (head first), `next_job_id`, `foreground_pid` and
`sigchld_flag` of shell.c, with the working directory and the environment
variables of the process (latest binding first). -/
structure ShellState where
  job_list : List Job
  next_job_id : Int
  foreground_pid : Int
  sigchld_flag : Int
  cwd : List Char
  environ : List (List Char × List Char)
deriving DecidableEq, Repr

/-- The state at program start: `job_list = NULL`, `next_job_id =
INITIAL_JOB_ID`, `foreground_pid = 0`, `sigchld_flag = 0`. -/
def ShellState.initial (cwd : List Char) (environ : List (List Char × List Char)) :
    ShellState :=
  { job_list := [], next_job_id := 1, foreground_pid := 0, sigchld_flag := 0,
    cwd := cwd, environ := environ }

/-- What the macros `WIFEXITED`, `WIFSIGNALED` and `WIFSTOPPED` tell about the
content of an `int status`.  The three tests exclude one another; `other` is
a content for which all three are false. -/
inductive WStatus where
  | exited
  | signaled
  | stopped
  | other
deriving DecidableEq, Repr

/-- The answer of one `waitpid` call: failure with `errno == EINTR`, failure
with another `errno`, or success with the status it stored. -/
inductive WaitAnswer where
  | eintr
  | error
  | reported (status : WStatus)
deriving DecidableEq, Repr

/-- The nine built-in commands. -/
inductive Builtin where
  | cd | clear | echo | quit | help
  | start_monitor | stop_monitor | status_monitor | searchconfig
deriving DecidableEq, Repr

/-- What a process does that another process or the user can observe. -/
inductive Event where
  | open_read (path : List Char) (result : Int)
  | open_write (path : List Char) (result : Int)
  | dup (fd result : Int)
  | dup2 (oldfd newfd result : Int)
  | close (fd : Int)
  | pipe (result : Option (Int × Int))
  | fork (result : Int)
  | signals_default
  | waitpid (pid : Int) (untraced : Bool) (answer : WaitAnswer)
  | exec (search_path : Bool) (args : List (List Char)) (ok : Bool)
  | exit (code : Int)
  | body (b : Builtin) (args : List (List Char))
  | print (text : List Char)
  | print_job (job_id pid : Int)
  | set_foreground_pid (pid : Int)
deriving DecidableEq, Repr

/-- How a call ends in the process that is followed: it returns a status to
its caller; or the process is a forked child that ends in `exit` or in a
successful `exec`; or the shell itself calls `exit`; or the behaviour is
undefined (a NULL pointer is handed to `strcmp`); or a blocking call never
comes back. -/
inductive Outcome where
  | ret (status : Int)
  | child_end
  | shell_exit (code : Int)
  | fault
  | blocked
deriving DecidableEq, Repr

/-- The answers of the operating system at the call sites of one command
execution.  Descriptors and pids are the raw return values (`-1` is failure). -/
structure Sys where
  open_in : Int
  dup_in : Int
  dup2_in : Int
  open_out : Int
  dup_out : Int
  dup2_out : Int
  dup2_restore_in : Int
  dup2_restore_out : Int
  fork : Int
  exec_ok : Bool
  malloc_job : Bool
  strdup_job : Bool
  status0 : WStatus
  waits : List WaitAnswer
  malloc_pids : Bool
  pipe_at : Nat → Option (Int × Int)
  fork_at : Nat → Int
  dup2_pipe_in : Int
  dup2_pipe_out : Int
  getcwd_before : Bool
  chdir : List Char → List Char → Option (List Char)
  getcwd_after : Bool
  monitor_fork : Int
  monitor_open_null : Bool
  monitor_pid_file : Bool
  monitor_pid_read : Bool
  monitor_kill : Bool
  monitor_pipe_open : Bool
  monitor_loop : Outcome

/-- The result of following a call: how it ended, what was done, and the
state of the process afterwards. -/
structure Run where
  outcome : Outcome
  trace : List Event
  shell : ShellState
deriving DecidableEq, Repr

/-! ### The job registry (src/shell.c, lines 260-278) -/

/-- The value an `int` holds after the result `x` of an arithmetic operation
was stored in it: `x` reduced modulo 2^32 into the range -2^31 .. 2^31 - 1.
This is what the compiled program does; the C standard leaves the overflow
of a signed `int` undefined. -/
def wrap_int (x : Int) : Int := (x + 2147483648) % 4294967296 - 2147483648

/-- `add_job(pid, command)`: `-1` without a new job when an allocation fails
(`next_job_id` is already incremented when `strdup` fails), otherwise the new
job is linked at the head and its id is returned.  `next_job_id` is an `int`:
the increment of line 267 takes it from 2^31 - 1 to -2^31. -/
def add_job (sys : Sys) (pid : Int) (command : List Char) (sh : ShellState) :
    Int × ShellState :=
  if !sys.malloc_job then (-1, sh)
  else
    let job_id := sh.next_job_id
    let sh1 := { sh with next_job_id := wrap_int (sh.next_job_id + 1) }
    if !sys.strdup_job then (-1, sh1)
    else (job_id, { sh1 with job_list := { job_id := job_id, pid := pid, command := command }
                                          :: sh1.job_list })

/-! ### The bodies of the built-ins (src/commands.c, lines 30-452) -/

/-- `getenv(name)`. -/
def getenv (sh : ShellState) (name : List Char) : Option (List Char) :=
  (sh.environ.find? (fun b => b.1 = name)).map (fun b => b.2)

/-- `setenv(name, value, 1)`. -/
def setenv (sh : ShellState) (name value : List Char) : ShellState :=
  { sh with environ := (name, value) :: sh.environ.filter (fun b => b.1 ≠ name) }

/-- `cmd_cd` (lines 371-413). -/
def cmd_cd (sys : Sys) (sh : ShellState) (args : List (List Char)) : Run :=
  let target_dir : List Char :=
    match args[1]? with
    | none => "..".toList
    | some a => if a = "..".toList then "..".toList else a
  if !sys.getcwd_before then { outcome := .ret 1, trace := [.body .cd args], shell := sh }
  else
    let current_dir := sh.cwd
    match sys.chdir sh.cwd target_dir with
    | none => { outcome := .ret 1, trace := [.body .cd args], shell := sh }
    | some dir =>
      let sh1 := setenv { sh with cwd := dir } "OLDPWD".toList current_dir
      if !sys.getcwd_after then { outcome := .ret 1, trace := [.body .cd args], shell := sh1 }
      else { outcome := .ret 1, trace := [.body .cd args],
             shell := setenv sh1 "PWD".toList sh1.cwd }

/-- What `cmd_echo` prints for one argument (lines 430-442). -/
def echo_arg (sh : ShellState) (arg : List Char) : List Char :=
  match arg with
  | '$' :: name =>
    match getenv sh name with
    | some value => value ++ [' ']
    | none => '$' :: name ++ [' ']
  | _ => arg ++ [' ']

/-- The text `cmd_echo` writes to the standard output (lines 422-444). -/
def echo_output (sh : ShellState) (args : List (List Char)) : List Char :=
  match args.tail with
  | [] => ['\n']
  | rest => (rest.map (echo_arg sh)).flatten ++ ['\n']

/-- `cmd_echo` (lines 421-446). -/
def cmd_echo (sh : ShellState) (args : List (List Char)) : Run :=
  { outcome := .ret 1, trace := [.body .echo args, .print (echo_output sh args)], shell := sh }

/-- `cmd_quit` (lines 448-452). -/
def cmd_quit (sh : ShellState) : Run :=
  { outcome := .ret 0, trace := [.body .quit []], shell := sh }

/-- `cmd_clr` (lines 415-419). -/
def cmd_clr (sh : ShellState) : Run :=
  { outcome := .ret 1, trace := [.body .clear []], shell := sh }

/-- `cmd_help` (lines 329-369). -/
def cmd_help (sh : ShellState) : Run :=
  { outcome := .ret 1, trace := [.body .help []], shell := sh }

/-- `cmd_searchconfig` (lines 30-46): both paths return 1; the directory walk
and what it prints are not followed. -/
def cmd_searchconfig (sh : ShellState) (args : List (List Char)) : Run :=
  match args[1]? with
  | none => { outcome := .ret 1, trace := [.body .searchconfig args], shell := sh }
  | some _ => { outcome := .ret 1, trace := [.body .searchconfig args], shell := sh }

/-- `cmd_start_monitor` (lines 115-168): a failed fork returns 1; the child
ends in `exit` or `exec`; the parent returns 1. -/
def cmd_start_monitor (sys : Sys) (sh : ShellState) : Run :=
  if sys.monitor_fork < 0 then
    { outcome := .ret 1, trace := [.body .start_monitor [], .fork sys.monitor_fork], shell := sh }
  else if sys.monitor_fork = 0 then
    if !sys.monitor_open_null then
      { outcome := .child_end, trace := [.body .start_monitor [], .fork 0, .exit 1], shell := sh }
    else if sys.exec_ok then
      { outcome := .child_end,
        trace := [.body .start_monitor [], .fork 0,
                  .exec true ["monitoring_project".toList] true], shell := sh }
    else
      { outcome := .child_end,
        trace := [.body .start_monitor [], .fork 0,
                  .exec true ["monitoring_project".toList] false, .exit 1], shell := sh }
  else
    { outcome := .ret 1, trace := [.body .start_monitor [], .fork sys.monitor_fork], shell := sh }

/-- `cmd_stop_monitor` (lines 170-201): every path returns 1. -/
def cmd_stop_monitor (sys : Sys) (sh : ShellState) : Run :=
  if !sys.monitor_pid_file then { outcome := .ret 1, trace := [.body .stop_monitor []], shell := sh }
  else if !sys.monitor_pid_read then
    { outcome := .ret 1, trace := [.body .stop_monitor []], shell := sh }
  else if !sys.monitor_kill then
    { outcome := .ret 1, trace := [.body .stop_monitor []], shell := sh }
  else { outcome := .ret 1, trace := [.body .stop_monitor []], shell := sh }

/-- `cmd_status_monitor(option)` (lines 203-327): the help path and the path
on which the pipe cannot be opened return 1; otherwise the read loop runs,
and when it ends the function returns 1.  Whether the loop ends is the
oracle's `monitor_loop` (`ret _` for a loop that ends). -/
def cmd_status_monitor (sys : Sys) (sh : ShellState) (option : List Char) : Run :=
  if option = "--help".toList then
    { outcome := .ret 1, trace := [.body .status_monitor [option]], shell := sh }
  else if !sys.monitor_pipe_open then
    { outcome := .ret 1, trace := [.body .status_monitor [option]], shell := sh }
  else
    match sys.monitor_loop with
    | .ret _ => { outcome := .ret 1, trace := [.body .status_monitor [option]], shell := sh }
    | o => { outcome := o, trace := [.body .status_monitor [option]], shell := sh }

/-! ### `execute_internal_command` (src/commands.c, lines 454-608) -/

/-- The test of lines 456-461 on `args[0]`. -/
def is_internal (name : List Char) : Bool :=
  name = "cd".toList || name = "clear".toList || name = "echo".toList
    || name = "quit".toList || name = "help".toList || name = "start_monitor".toList
    || name = "stop_monitor".toList || name = "status_monitor".toList
    || name = "searchconfig".toList

/-- Lines 471-487: the input redirection.  The result is what was done and
`saved_stdin`, or `none` for the two `return 1` of lines 475 and 484. -/
def redirect_input (sys : Sys) (input_file : Option (List Char)) : List Event × Option Int :=
  match input_file with
  | none => ([], some (-1))
  | some file =>
    if sys.open_in = -1 then ([.open_read file (-1)], none)
    else if sys.dup2_in = -1 then
      ([.open_read file sys.open_in, .dup 0 sys.dup_in, .dup2 sys.open_in 0 (-1),
        .close sys.open_in], none)
    else
      ([.open_read file sys.open_in, .dup 0 sys.dup_in, .dup2 sys.open_in 0 sys.dup2_in,
        .close sys.open_in], some sys.dup_in)

/-- The block `if (saved != -1) { dup2(saved, fd); close(saved); }`. -/
def restore_fd (saved fd result : Int) : List Event :=
  if saved ≠ -1 then [.dup2 saved fd result, .close saved] else []

/-- Lines 490-514: the output redirection, after an input redirection that
left `saved_stdin`.  The result is what was done and `saved_stdout`, or `none`
for the two `return 1` of lines 501 and 511. -/
def redirect_output (sys : Sys) (output_file : Option (List Char)) (saved_stdin : Int) :
    List Event × Option Int :=
  match output_file with
  | none => ([], some (-1))
  | some file =>
    if sys.open_out = -1 then
      (.open_write file (-1) :: restore_fd saved_stdin 0 sys.dup2_restore_in, none)
    else if sys.dup2_out = -1 then
      ([.open_write file sys.open_out, .dup 1 sys.dup_out, .dup2 sys.open_out 1 (-1),
        .close sys.open_out] ++ restore_fd saved_stdin 0 sys.dup2_restore_in, none)
    else
      ([.open_write file sys.open_out, .dup 1 sys.dup_out, .dup2 sys.open_out 1 sys.dup2_out,
        .close sys.open_out], some sys.dup_out)

/-- Lines 526-576: the `echo` branch.  In the background the shell forks: a
failed fork gives 1; the child runs `cmd_echo`, restores the descriptors and
exits; the parent registers the job under the name `echo`, or waits for the
child when `add_job` fails, and gives 1. -/
def run_echo (sys : Sys) (sh : ShellState) (args : List (List Char)) (background : Bool)
    (saved_stdin saved_stdout : Int) : Run :=
  if background then
    if sys.fork < 0 then { outcome := .ret 1, trace := [.fork sys.fork], shell := sh }
    else if sys.fork = 0 then
      let r := cmd_echo sh args
      { outcome := .child_end,
        trace := [.fork 0, .signals_default] ++ r.trace
          ++ restore_fd saved_stdin 0 sys.dup2_restore_in
          ++ restore_fd saved_stdout 1 sys.dup2_restore_out ++ [.exit 0],
        shell := r.shell }
    else
      let j := add_job sys sys.fork "echo".toList sh
      if j.1 ≠ -1 then
        { outcome := .ret 1, trace := [.fork sys.fork, .print_job j.1 sys.fork], shell := j.2 }
      else
        match sys.waits with
        | [] => { outcome := .blocked, trace := [.fork sys.fork], shell := j.2 }
        | a :: _ =>
          { outcome := .ret 1, trace := [.fork sys.fork, .waitpid sys.fork false a],
            shell := j.2 }
  else cmd_echo sh args

/-- Lines 517-588: the chain that selects and runs the body; `result` starts
as `-1`. -/
def run_body (sys : Sys) (sh : ShellState) (args : List (List Char)) (name : List Char)
    (background : Bool) (saved_stdin saved_stdout : Int) : Run :=
  if name = "cd".toList then cmd_cd sys sh args
  else if name = "clear".toList then cmd_clr sh
  else if name = "help".toList then cmd_help sh
  else if name = "searchconfig".toList then cmd_searchconfig sh args
  else if name = "echo".toList then run_echo sys sh args background saved_stdin saved_stdout
  else if name = "quit".toList then cmd_quit sh
  else if name = "start_monitor".toList then cmd_start_monitor sys sh
  else if name = "stop_monitor".toList then cmd_stop_monitor sys sh
  else if name = "status_monitor".toList then
    cmd_status_monitor sys sh (match args[1]? with | some a => a | none => [])
  else { outcome := .ret (-1), trace := [], shell := sh }

/-- `execute_internal_command(args, input_file, output_file, background)`.
With an empty `args` the first `strcmp` reads `args[0] == NULL`. -/
def execute_internal_command (sys : Sys) (sh : ShellState) (args : List (List Char))
    (input_file output_file : Option (List Char)) (background : Bool) : Run :=
  match args with
  | [] => { outcome := .fault, trace := [], shell := sh }
  | name :: _ =>
    if !is_internal name then { outcome := .ret (-1), trace := [], shell := sh }
    else
      match redirect_input sys input_file with
      | (t1, none) => { outcome := .ret 1, trace := t1, shell := sh }
      | (t1, some saved_stdin) =>
        match redirect_output sys output_file saved_stdin with
        | (t2, none) => { outcome := .ret 1, trace := t1 ++ t2, shell := sh }
        | (t2, some saved_stdout) =>
          let r := run_body sys sh args name background saved_stdin saved_stdout
          match r.outcome with
          | .ret result =>
            { outcome := .ret result,
              trace := t1 ++ t2 ++ r.trace
                ++ (if background then []
                    else restore_fd saved_stdin 0 sys.dup2_restore_in
                      ++ restore_fd saved_stdout 1 sys.dup2_restore_out),
              shell := r.shell }
          | o => { outcome := o, trace := t1 ++ t2 ++ r.trace, shell := r.shell }

/-! ### `execute_external_command` (src/commands.c, lines 610-720) -/

/-- Lines 631-658: the redirections of a forked child.  The result is what
was done and whether the child goes on (`false`: it called `exit`). -/
def child_redirect (sys : Sys) (input_file output_file : Option (List Char)) :
    List Event × Bool :=
  let r_in : List Event × Bool :=
    match input_file with
    | none => ([], true)
    | some file =>
      if sys.open_in = -1 then ([.open_read file (-1), .exit 1], false)
      else if sys.dup2_in = -1 then
        ([.open_read file sys.open_in, .dup2 sys.open_in 0 (-1), .close sys.open_in, .exit 1],
          false)
      else ([.open_read file sys.open_in, .dup2 sys.open_in 0 sys.dup2_in, .close sys.open_in],
          true)
  if !r_in.2 then r_in
  else
    match output_file with
    | none => r_in
    | some file =>
      if sys.open_out = -1 then (r_in.1 ++ [.open_write file (-1), .exit 1], false)
      else if sys.dup2_out = -1 then
        (r_in.1 ++ [.open_write file sys.open_out, .dup2 sys.open_out 1 (-1),
          .close sys.open_out, .exit 1], false)
      else
        (r_in.1 ++ [.open_write file sys.open_out, .dup2 sys.open_out 1 sys.dup2_out,
          .close sys.open_out], true)

/-- Whether the loop test `!WIFEXITED(status) && !WIFSIGNALED(status)` fails. -/
def WStatus.ended (status : WStatus) : Bool :=
  status = .exited || status = .signaled

/-- What `printf("\nProcess %d detained\n", pid)` of line 710 writes to the
standard output. -/
def stopped_message (pid : Int) : List Char :=
  "\nProcess ".toList ++ (toString pid).toList ++ " detained\n".toList

/-- Lines 693-713: the `do ... while` loop of the foreground wait, on the
content of `status` and the answers still to come.  `continue` jumps to the
loop test, which reads `status` as the last successful call left it.  A
reported stop is announced on the standard output before the `break`.  The
result is what was done and whether the loop ended (`false`: no answer is
left, the call blocks). -/
def wait_foreground (pid : Int) : WStatus → List WaitAnswer → List Event × Bool
  | _, [] => ([], false)
  | status, .eintr :: rest =>
    if status.ended then ([.waitpid pid true .eintr], true)
    else
      let r := wait_foreground pid status rest
      (.waitpid pid true .eintr :: r.1, r.2)
  | _, .error :: _ => ([.waitpid pid true .error], true)
  | _, .reported st :: rest =>
    if st = .stopped then
      ([.waitpid pid true (.reported st), .print (stopped_message pid)], true)
    else if st.ended then ([.waitpid pid true (.reported st)], true)
    else
      let r := wait_foreground pid st rest
      (.waitpid pid true (.reported st) :: r.1, r.2)

/-- `execute_external_command(args, background, command_copy, input_file,
output_file)`. -/
def execute_external_command (sys : Sys) (sh : ShellState) (args : List (List Char))
    (background : Bool) (command_copy : List Char)
    (input_file output_file : Option (List Char)) : Run :=
  if sys.fork < 0 then { outcome := .ret 1, trace := [.fork sys.fork], shell := sh }
  else if sys.fork = 0 then
    let r := child_redirect sys input_file output_file
    if !r.2 then
      { outcome := .child_end, trace := [.fork 0, .signals_default] ++ r.1, shell := sh }
    else
      match args with
      | [] => { outcome := .fault, trace := [.fork 0, .signals_default] ++ r.1, shell := sh }
      | name :: _ =>
        { outcome := .child_end,
          trace := [.fork 0, .signals_default] ++ r.1
            ++ (if sys.exec_ok then [.exec (!name.contains '/') args true]
                else [.exec (!name.contains '/') args false, .exit 1]),
          shell := sh }
  else if background then
    let j := add_job sys sys.fork command_copy sh
    if j.1 ≠ -1 then
      { outcome := .ret 1, trace := [.fork sys.fork, .print_job j.1 sys.fork], shell := j.2 }
    else
      match sys.waits with
      | [] => { outcome := .blocked, trace := [.fork sys.fork], shell := j.2 }
      | a :: _ =>
        { outcome := .ret 1, trace := [.fork sys.fork, .waitpid sys.fork false a], shell := j.2 }
  else
    let w := wait_foreground sys.fork sys.status0 sys.waits
    if w.2 then
      { outcome := .ret 1,
        trace := [.fork sys.fork, .set_foreground_pid sys.fork] ++ w.1
          ++ [.set_foreground_pid 0],
        shell := { sh with foreground_pid := 0 } }
    else
      { outcome := .blocked,
        trace := [.fork sys.fork, .set_foreground_pid sys.fork] ++ w.1,
        shell := { sh with foreground_pid := sys.fork } }

/-! ### `execute_single_command` (src/commands.c, lines 722-778) -/

/-- The one-character string `&`. -/
def AMP : List Char := ['&']

/-- Lines 740-749: the loop that looks for a token `&` from `args[0]` on.  At
the first one it sets `background` and writes NULL over it, which ends the
argument vector there.  The result is the argument vector and `background`. -/
def strip_background : List (List Char) → List (List Char) × Bool
  | [] => ([], false)
  | a :: rest =>
    if a = AMP then ([], true)
    else
      let r := strip_background rest
      (a :: r.1, r.2)

/-- Lines 751-777: a parsed command is offered to `execute_internal_command`
and, when that returns `-1`, handed to `execute_external_command`. -/
def dispatch (sys : Sys) (sh : ShellState) (args : List (List Char)) (background : Bool)
    (command : List Char) (input_file output_file : Option (List Char)) : Run :=
  let r := execute_internal_command sys sh args input_file output_file background
  match r.outcome with
  | .ret status =>
    if status ≠ -1 then r
    else
      let e := execute_external_command sys r.shell args background command
        input_file output_file
      { outcome := e.outcome, trace := r.trace ++ e.trace, shell := e.shell }
  | _ => r

/-- `execute_single_command(command)`. -/
def execute_single_command (sys : Sys) (sh : ShellState) (command : List Char) : Run :=
  let p := parse_command command
  match p.argv with
  | [] => { outcome := .ret 1, trace := [], shell := sh }
  | _ :: _ =>
    let b := strip_background p.argv
    dispatch sys sh b.1 b.2 command p.input_file p.output_file

/-! ### `execute_piped_commands` (src/commands.c, lines 780-934) -/

/-- Lines 813-898: the child forked for stage `i`, with the loop variable
`in_fd` and the descriptor pair `fd` of that pass.  It ends in `exit` or in
`execvp`. -/
def pipe_child (sys : Sys) (sh : ShellState) (commands : List (List Char))
    (num_commands i : Nat) (in_fd : Int) (fd : Int × Int) : Run :=
  let t0 : List Event := [.fork 0, .signals_default]
  if in_fd ≠ 0 ∧ sys.dup2_pipe_in = -1 then
    { outcome := .child_end, trace := t0 ++ [.dup2 in_fd 0 (-1), .exit 1], shell := sh }
  else
    let t1 := t0 ++ (if in_fd ≠ 0 then [.dup2 in_fd 0 sys.dup2_pipe_in, .close in_fd] else [])
    if i + 1 < num_commands ∧ sys.dup2_pipe_out = -1 then
      { outcome := .child_end, trace := t1 ++ [.dup2 fd.2 1 (-1), .exit 1], shell := sh }
    else
      let t2 := t1 ++ (if i + 1 < num_commands
        then [.dup2 fd.2 1 sys.dup2_pipe_out, .close fd.2, .close fd.1] else [])
      match commands[i]? with
      | none => { outcome := .fault, trace := t2, shell := sh }
      | some command =>
        let p := parse_command command
        match p.argv with
        | [] => { outcome := .child_end, trace := t2 ++ [.exit 1], shell := sh }
        | _ :: _ =>
          let r := child_redirect sys p.input_file p.output_file
          if !r.2 then { outcome := .child_end, trace := t2 ++ r.1, shell := sh }
          else
            { outcome := .child_end,
              trace := t2 ++ r.1
                ++ (if sys.exec_ok then [.exec true p.argv true]
                    else [.exec true p.argv false, .exit 1]),
              shell := sh }

/-- How the launch loop ended: in the parent with the recorded pids, or in a
forked child, or in `exit` after a failed `pipe` or `fork`. -/
structure Launch where
  outcome : Option Outcome
  trace : List Event
  pids : List Int
deriving DecidableEq, Repr

/-- Lines 794-915: the loop `for (i = 0; i < num_commands; i++)`; the first
argument counts the passes still to make, `i` is the loop variable, `in_fd`
and `pids` are the variables of the same names.  The test `i < num_commands
- 1` is written `i + 1 < num_commands`. -/
def launch_loop (sys : Sys) (sh : ShellState) (commands : List (List Char))
    (num_commands : Nat) : Nat → Nat → Int → List Int → Launch
  | 0, _, _, pids => { outcome := none, trace := [], pids := pids }
  | k + 1, i, in_fd, pids =>
    let piped : List Event × Option (Int × Int) :=
      if i + 1 < num_commands then
        match sys.pipe_at i with
        | none => ([.pipe none], none)
        | some fd => ([.pipe (some fd)], some fd)
      else ([], some (0, 1))
    match piped.2 with
    | none => { outcome := some (.shell_exit 1), trace := piped.1 ++ [.exit 1], pids := pids }
    | some fd =>
      if sys.fork_at i = -1 then
        { outcome := some (.shell_exit 1), trace := piped.1 ++ [.fork (-1), .exit 1],
          pids := pids }
      else if sys.fork_at i = 0 then
        let c := pipe_child sys sh commands num_commands i in_fd fd
        { outcome := some c.outcome, trace := piped.1 ++ c.trace, pids := pids }
      else
        let closes : List Event :=
          (if in_fd ≠ 0 then [.close in_fd] else [])
            ++ (if i + 1 < num_commands then [.close fd.2] else [])
        let r := launch_loop sys sh commands num_commands k (i + 1) fd.1
          (pids ++ [sys.fork_at i])
        { outcome := r.outcome, trace := piped.1 ++ .fork (sys.fork_at i) :: closes ++ r.trace,
          pids := r.pids }

/-- Lines 919-929: the `do ... while` loop that waits for one pid, on the
content of `status` and the answers still to come.  The result is what was
done and, when the loop ended, the content of `status` and the answers left. -/
def wait_stage (pid : Int) :
    WStatus → List WaitAnswer → List Event × Option (WStatus × List WaitAnswer)
  | _, [] => ([], none)
  | status, .eintr :: rest =>
    if status.ended then ([.waitpid pid false .eintr], some (status, rest))
    else
      let r := wait_stage pid status rest
      (.waitpid pid false .eintr :: r.1, r.2)
  | status, .error :: rest => ([.waitpid pid false .error], some (status, rest))
  | _, .reported st :: rest =>
    if st.ended then ([.waitpid pid false (.reported st)], some (st, rest))
    else
      let r := wait_stage pid st rest
      (.waitpid pid false (.reported st) :: r.1, r.2)

/-- Lines 918-930: the loop over the recorded pids.  The result is what was
done and whether every wait ended. -/
def wait_all : List Int → WStatus → List WaitAnswer → List Event × Bool
  | [], _, _ => ([], true)
  | pid :: pids, status, answers =>
    match wait_stage pid status answers with
    | (t, none) => (t, false)
    | (t, some (st, rest)) =>
      let r := wait_all pids st rest
      (t ++ r.1, r.2)

/-- `execute_piped_commands(commands, num_commands)`. -/
def execute_piped_commands (sys : Sys) (sh : ShellState) (commands : List (List Char))
    (num_commands : Nat) : Run :=
  if !sys.malloc_pids then { outcome := .shell_exit 1, trace := [.exit 1], shell := sh }
  else
    let l := launch_loop sys sh commands num_commands num_commands 0 0 []
    match l.outcome with
    | some o => { outcome := o, trace := l.trace, shell := sh }
    | none =>
      let w := wait_all l.pids sys.status0 sys.waits
      if w.2 then { outcome := .ret 1, trace := l.trace ++ w.1, shell := sh }
      else { outcome := .blocked, trace := l.trace ++ w.1, shell := sh }

/-! ### `execute_command` (src/shell.c, lines 197-226) -/

/-- `execute_command(command)`. -/
def execute_command (sys : Sys) (sh : ShellState) (command : List Char) : Run :=
  if '|' ∈ command then
    let stages := split_by_pipes command
    execute_piped_commands sys sh stages.tokens stages.num_commands
  else execute_single_command sys sh command

/-- An oracle for examples: every call succeeds, `fork` answers in the parent
with pid 100, and the child is reported as exited at the first wait. -/
def Sys.example : Sys :=
  { open_in := 3, dup_in := 4, dup2_in := 0, open_out := 5, dup_out := 6, dup2_out := 1,
    dup2_restore_in := 0, dup2_restore_out := 1, fork := 100, exec_ok := true,
    malloc_job := true, strdup_job := true, status0 := .other,
    waits := [.reported .exited, .reported .exited, .reported .exited],
    malloc_pids := true, pipe_at := fun i => some (7 + 2 * (i : Int), 8 + 2 * (i : Int)),
    fork_at := fun i => 100 + (i : Int), dup2_pipe_in := 0, dup2_pipe_out := 1,
    getcwd_before := true, chdir := fun _ target => some target, getcwd_after := true,
    monitor_fork := 200, monitor_open_null := true, monitor_pid_file := true,
    monitor_pid_read := true, monitor_kill := true, monitor_pipe_open := true,
    monitor_loop := .ret 1 }

/-- The names of the nine built-in commands. -/
def builtin_names : List (List Char) :=
  ["cd".toList, "clear".toList, "echo".toList, "quit".toList, "help".toList,
   "start_monitor".toList, "stop_monitor".toList, "status_monitor".toList,
   "searchconfig".toList]

/-! ### The redirection targets of a stage -/

/-- The word that follows a redirect operator: blanks are stepped over, then
the word runs up to the next space, tab, `<`, `>` or the end of the string.
It may be empty. -/
def word_after (post : List Char) : List Char :=
  (post.dropWhile is_blank).takeWhile is_word_char

/-- The word that follows the last occurrence of the character `op` in `s`;
`none` when `op` does not occur. -/
def last_target (op : Char) : List Char → Option (List Char)
  | [] => none
  | c :: cs =>
    match last_target op cs with
    | some w => some w
    | none => if c = op then some (word_after cs) else none

/-- The out-parameter of `parse_command` that the operator `op` writes:
`*input_file_ptr` for `<`, `*output_file_ptr` otherwise. -/
def ParseState.target (st : ParseState) (op : Char) : Option (List Char) :=
  if op = '<' then st.input_file else st.output_file

/-- The first of two optional values that is present. -/
def or_else (a b : Option (List Char)) : Option (List Char) :=
  match a with
  | some w => some w
  | none => b

/-! ### `remove_job`, `cleanup_shell`, `sigchld_handler_logic` (src/shell.c, lines 247-316) -/

/-- The search of `remove_job` (lines 284-300) from a node of the list on:
the first job with the given pid is unlinked and the search returns. -/
def remove_from (pid : Int) : List Job → List Job
  | [] => []
  | j :: rest => if j.pid = pid then rest else j :: remove_from pid rest

/-- `remove_job(pid)`. -/
def remove_job (pid : Int) (sh : ShellState) : ShellState :=
  { sh with job_list := remove_from pid sh.job_list }

/-- `cleanup_shell()`: every node is freed and `job_list` is set to NULL. -/
def cleanup_shell (sh : ShellState) : ShellState :=
  { sh with job_list := [] }

/-- The loop test `> 0` of `sigchld_handler_logic` on an answer of `waitpid`:
a positive answer is the pid of a terminated child. -/
def is_child (pid : Int) : Bool := decide (pid > 0)

/-- What one reap cycle did: the state it left and the answers of the
`waitpid(-1, &status, WNOHANG)` calls it made, in order. -/
structure Reap where
  shell : ShellState
  calls : List Int
deriving DecidableEq, Repr

/-- `sigchld_handler_logic()` (lines 303-316), on the answers of the
successive `waitpid(-1, &status, WNOHANG)` calls; beyond the list the answer
is 0 (no further terminated child).  The loop goes on while the answer is
positive. -/
def sigchld_handler_logic : List Int → ShellState → Reap
  | [], sh => { shell := sh, calls := [0] }
  | pid :: rest, sh =>
    if pid > 0 then
      let r := sigchld_handler_logic rest (remove_job pid sh)
      { shell := r.shell, calls := pid :: r.calls }
    else { shell := sh, calls := [pid] }

/-- The top of the interactive loop of `main` (src/main.c, lines 39-44): when
`sigchld_flag` is set it is cleared and the reap cycle runs. -/
def main_reap (answers : List Int) (sh : ShellState) : Reap :=
  if sh.sigchld_flag ≠ 0 then sigchld_handler_logic answers { sh with sigchld_flag := 0 }
  else { shell := sh, calls := [] }

/-- A call of one of the three operations of the job registry; for `add_job`
with the outcome of its two allocations. -/
inductive RegistryOp where
  | add_job (pid : Int) (command : List Char) (malloc_ok strdup_ok : Bool)
  | remove_job (pid : Int)
  | cleanup_shell
deriving DecidableEq, Repr

/-- The oracle `sys` with the two allocations of `add_job` answered as given. -/
def Sys.with_alloc (sys : Sys) (malloc_ok strdup_ok : Bool) : Sys :=
  { sys with malloc_job := malloc_ok, strdup_job := strdup_ok }

/-- One operation on the registry: the state it leaves, and the job id it
returned when it was a successful `add_job` (a return value other than -1). -/
def RegistryOp.run (sh : ShellState) : RegistryOp → ShellState × Option Int
  | .add_job pid command malloc_ok strdup_ok =>
    let r := Shell.add_job (Sys.example.with_alloc malloc_ok strdup_ok) pid command sh
    (r.2, if r.1 = -1 then none else some r.1)
  | .remove_job pid => (Shell.remove_job pid sh, none)
  | .cleanup_shell => (Shell.cleanup_shell sh, none)

/-- A sequence of operations: the state it leaves and the job ids returned by
its successful `add_job` calls, in order. -/
def run_ops : ShellState → List RegistryOp → ShellState × List Int
  | sh, [] => (sh, [])
  | sh, op :: ops =>
    let r := op.run sh
    let rs := run_ops r.1 ops
    (rs.1, (match r.2 with | some id => [id] | none => []) ++ rs.2)

/-- An `add_job` call that fails in `strdup`, after `malloc` succeeded. -/
def RegistryOp.fails_in_strdup : RegistryOp → Bool
  | .add_job _ _ malloc_ok strdup_ok => malloc_ok && !strdup_ok
  | _ => false

/-! ### What the descriptors of the process refer to -/

/-- An open file, as a descriptor refers to it: the file a descriptor referred
to when the call began, a redirect target opened during the call, or one end
of a pipe created during the call. -/
inductive OpenFile where
  | original (fd : Int)
  | target (path : List Char) (writing : Bool)
  | pipe_end (reading : Bool) (fds : Int × Int)
deriving DecidableEq, Repr

/-- The descriptor table of a process: what each descriptor refers to, `none`
for a descriptor that is not open. -/
def FdTable : Type := Int → Option OpenFile

/-- A table in which the three standard descriptors are open. -/
def FdTable.start : FdTable :=
  fun fd => if 0 ≤ fd ∧ fd ≤ 2 then some (.original fd) else none

/-- The table with the descriptor `fd` referring to `file`. -/
def FdTable.set (t : FdTable) (fd : Int) (file : Option OpenFile) : FdTable :=
  fun x => if x = fd then file else t x

/-- The effect of one event on the descriptor table.  A call that failed
(result `-1`) changes nothing; `open` binds the returned descriptor to the
target; `dup` binds the returned descriptor, and `dup2` the descriptor
`newfd`, to what the duplicated descriptor refers to; `close` unbinds. -/
def fd_step (t : FdTable) : Event → FdTable
  | .open_read path result =>
    if result = -1 then t else t.set result (some (.target path false))
  | .open_write path result =>
    if result = -1 then t else t.set result (some (.target path true))
  | .dup fd result => if result = -1 then t else t.set result (t fd)
  | .dup2 oldfd newfd result => if result = -1 then t else t.set newfd (t oldfd)
  | .close fd => t.set fd none
  | .pipe (some fds) =>
    (t.set fds.1 (some (.pipe_end true fds))).set fds.2 (some (.pipe_end false fds))
  | _ => t

/-- The descriptor table after the events of a trace, in order. -/
def fd_after (t : FdTable) (trace : List Event) : FdTable :=
  trace.foldl fd_step t

/-- Whether a trace holds a `fork` call. -/
def forks (trace : List Event) : Bool :=
  trace.any (fun e => match e with | .fork _ => true | _ => false)

/-- Whether a trace holds the body of a built-in. -/
def runs_body (trace : List Event) : Bool :=
  trace.any (fun e => match e with | .body _ _ => true | _ => false)

/-- The saving `dup` calls and the restoring `dup2` calls of
`execute_internal_command` all succeed. -/
def Sys.saves_and_restores (sys : Sys) : Bool :=
  decide (sys.dup_in ≠ -1 ∧ sys.dup_out ≠ -1
    ∧ sys.dup2_restore_in ≠ -1 ∧ sys.dup2_restore_out ≠ -1)

/-- The descriptors that `open` and `dup` hand out are new ones: none is a
standard descriptor, and none is a descriptor that is still open from an
earlier step of the same call. -/
def Sys.fresh_descriptors (sys : Sys) : Bool :=
  decide (sys.open_in ∉ [0, 1] ∧ sys.dup_in ∉ [0, 1, sys.open_in]
    ∧ sys.open_out ∉ [0, 1, sys.dup_in] ∧ sys.dup_out ∉ [0, 1, sys.dup_in, sys.open_out])

/-- Whether an event leaves the descriptor table as it is. -/
def fd_neutral : Event → Bool
  | .open_read _ _ => false
  | .open_write _ _ => false
  | .dup _ _ => false
  | .dup2 _ _ _ => false
  | .close _ => false
  | .pipe _ => false
  | _ => true

/-! ### The signal handlers (src/shell.c, lines 60-86 and 88-138) -/

/-- The signals for which `init_shell` installs a handler. -/
inductive Signal where
  | sigchld | sigint | sigtstp | sigquit
deriving DecidableEq, Repr

/-- What a signal handler did: the globals of shell.c after it ran and the
`kill(pid, sig)` calls it made, in order. -/
structure Handled where
  shell : ShellState
  kills : List (Int × Signal)
deriving DecidableEq, Repr

/-- `sigchld_handler(signo)` (line 60). -/
def sigchld_handler (_signo : Signal) (sh : ShellState) : Handled :=
  { shell := { sh with sigchld_flag := 1 }, kills := [] }

/-- `sigint_handler(signo)` (lines 62-68). -/
def sigint_handler (_signo : Signal) (sh : ShellState) : Handled :=
  if sh.foreground_pid ≠ 0 then { shell := sh, kills := [(sh.foreground_pid, .sigint)] }
  else { shell := sh, kills := [] }

/-- `sigtstp_handler(signo)` (lines 70-76). -/
def sigtstp_handler (_signo : Signal) (sh : ShellState) : Handled :=
  if sh.foreground_pid ≠ 0 then { shell := sh, kills := [(sh.foreground_pid, .sigtstp)] }
  else { shell := sh, kills := [] }

/-- `sigquit_handler(signo)` (lines 78-84). -/
def sigquit_handler (_signo : Signal) (sh : ShellState) : Handled :=
  if sh.foreground_pid ≠ 0 then { shell := sh, kills := [(sh.foreground_pid, .sigquit)] }
  else { shell := sh, kills := [] }

/-- The handler that `init_shell` installs for each signal with `sigaction`
(lines 88-138). -/
def installed_handler : Signal → Signal → ShellState → Handled
  | .sigchld => sigchld_handler
  | .sigint => sigint_handler
  | .sigtstp => sigtstp_handler
  | .sigquit => sigquit_handler

/-- The delivery of the signal `s` to the shell: the handler installed for
`s` runs with `s` as its argument. -/
def deliver (s : Signal) (sh : ShellState) : Handled := installed_handler s s sh

/-- The `waitpid` calls recorded in a trace: pid and answer, in order. -/
def wait_calls : List Event → List (Int × WaitAnswer)
  | [] => []
  | .waitpid pid _ answer :: rest => (pid, answer) :: wait_calls rest
  | _ :: rest => wait_calls rest

/-! ### The foreground slot along a trace -/

/-- Whether an event is not a write to `foreground_pid`. -/
def keeps_fg : Event → Bool
  | .set_foreground_pid _ => false
  | _ => true

/-- The content of `foreground_pid` after the events of a trace, from the
content `fg`. -/
def fg_after (fg : Int) : List Event → Int
  | [] => fg
  | .set_foreground_pid pid :: rest => fg_after pid rest
  | _ :: rest => fg_after fg rest

/-- Whether along a trace, from the content `fg` of `foreground_pid`, the
slot is non-zero only while the process is in the wait loop for the very pid
the slot holds: every event met while the slot is non-zero is a step of that
loop, which is a `waitpid` call with `WUNTRACED` on that pid or the message
of line 710 that this pid was stopped, or else the next write to the slot. -/
def fg_only_in_wait (fg : Int) : List Event → Bool
  | [] => true
  | .set_foreground_pid pid :: rest => fg_only_in_wait pid rest
  | .waitpid pid untraced _ :: rest =>
    (decide (fg = 0) || (decide (fg = pid) && untraced)) && fg_only_in_wait fg rest
  | .print text :: rest =>
    (decide (fg = 0) || decide (text = stopped_message fg)) && fg_only_in_wait fg rest
  | _ :: rest => decide (fg = 0) && fg_only_in_wait fg rest

/-! ### The launch loop of a pipeline, seen through its trace -/

/-- The answers of the `pipe` calls recorded in a trace, in order. -/
def pipes_of : List Event → List (Option (Int × Int))
  | [] => []
  | .pipe result :: rest => result :: pipes_of rest
  | _ :: rest => pipes_of rest

/-- The answers of the `fork` calls recorded in a trace, in order. -/
def forks_of : List Event → List Int
  | [] => []
  | .fork result :: rest => result :: forks_of rest
  | _ :: rest => forks_of rest

/-- The descriptors handed to `close` in a trace, in order. -/
def closes_of : List Event → List Int
  | [] => []
  | .close fd :: rest => fd :: closes_of rest
  | _ :: rest => closes_of rest

/-- The two descriptors of the pipe created in pass `i` of the launch loop,
write end first. -/
def pipe_fds (sys : Sys) (i : Nat) : List Int :=
  match sys.pipe_at i with
  | some fd => [fd.2, fd.1]
  | none => []

/-- The `pipe` call of pass `i` succeeds with descriptors other than 0 and 1. -/
def Sys.pipe_ok (sys : Sys) (i : Nat) : Bool :=
  match sys.pipe_at i with
  | some fd => decide (fd.1 ≠ 0 ∧ fd.1 ≠ 1 ∧ fd.2 ≠ 0 ∧ fd.2 ≠ 1)
  | none => false

/-- The `pipe` call of pass `i` succeeds with new descriptors: two different
ones, neither a standard descriptor nor the read end of the pipe of the pass
before, which the shell still holds at that moment. -/
def Sys.pipe_fresh (sys : Sys) (i : Nat) : Bool :=
  match sys.pipe_at i with
  | some fd =>
    decide (fd.1 ≠ 0 ∧ fd.1 ≠ 1 ∧ fd.2 ≠ 0 ∧ fd.2 ≠ 1 ∧ fd.1 ≠ fd.2)
      && (match i, sys.pipe_at (i - 1) with
          | 0, _ => true
          | _ + 1, some before => decide (fd.1 ≠ before.1 ∧ fd.2 ≠ before.1)
          | _ + 1, none => false)
  | none => false

/-- Whether an open file is an end of a pipe. -/
def OpenFile.is_pipe_end : OpenFile → Bool
  | .pipe_end _ _ => true
  | _ => false

/-- Whether a descriptor of the table refers to an end of a pipe. -/
def FdTable.holds_pipe (t : FdTable) (fd : Int) : Bool :=
  match t fd with
  | some file => file.is_pipe_end
  | none => false

/-- The calls a pipeline child makes before `execvp` succeed: the two `dup2`
calls onto the pipe ends, and, for a stage with a redirection, `open` (with a
new descriptor, neither 0 nor 1) and `dup2`. -/
def Sys.child_calls_ok (sys : Sys) : Bool :=
  decide (sys.dup2_pipe_in ≠ -1 ∧ sys.dup2_pipe_out ≠ -1
    ∧ sys.open_in ≠ -1 ∧ sys.open_in ≠ 0 ∧ sys.open_in ≠ 1 ∧ sys.dup2_in ≠ -1
    ∧ sys.open_out ≠ -1 ∧ sys.open_out ≠ 0 ∧ sys.open_out ≠ 1 ∧ sys.dup2_out ≠ -1)

/-- What a pipeline child does to its standard input for a stage with the
input target `input_file`, when the calls succeed. -/
def child_input_events (sys : Sys) (input_file : Option (List Char)) : List Event :=
  match input_file with
  | none => []
  | some file =>
    [.open_read file sys.open_in, .dup2 sys.open_in 0 sys.dup2_in, .close sys.open_in]

/-- What a pipeline child does to its standard output for a stage with the
output target `output_file`, when the calls succeed. -/
def child_output_events (sys : Sys) (output_file : Option (List Char)) : List Event :=
  match output_file with
  | none => []
  | some file =>
    [.open_write file sys.open_out, .dup2 sys.open_out 1 sys.dup2_out, .close sys.open_out]

/-- The `execvp` call of a pipeline child, followed by `exit` when it fails. -/
def exec_events (sys : Sys) (argv : List (List Char)) : List Event :=
  if sys.exec_ok then [.exec true argv true] else [.exec true argv false, .exit 1]

/-- A call of `add_job`. -/
def RegistryOp.is_add : RegistryOp → Bool
  | .add_job _ _ _ _ => true
  | _ => false

/-- The sequence of a background job that is launched and reaped `n` times:
`add_job(pid, command)` succeeding, then `remove_job(pid)`. -/
def launch_and_reap (pid : Int) (command : List Char) : Nat → List RegistryOp
  | 0 => []
  | n + 1 => .add_job pid command true true :: .remove_job pid :: launch_and_reap pid command n

/-- A run with the blanks at its two ends removed the way lines 29-36 remove
them: the leading spaces go, and from what is left the trailing spaces and
tabs go, the first character excepted. -/
def strip_ends (run : List Char) : List Char :=
  match run.dropWhile is_space with
  | [] => []
  | c :: rest => c :: rest.rdropWhile is_blank

/-! ## Theorems -/

/-! ### General facts about the scanning loop of `parse_command` -/

theorem length_dropWhile_le (p : Char → Bool) (l : List Char) :
    (l.dropWhile p).length ≤ l.length :=
  (List.dropWhile_sublist p).length_le

theorem dropWhile_head_not {p : Char → Bool} {l : List Char} {c : Char} {rest : List Char}
    (h : l.dropWhile p = c :: rest) : p c = false := by
  have h1 := List.head?_dropWhile_not p l
  rw [h] at h1
  simpa using h1

theorem dropWhile_cons_length {p : Char → Bool} {l : List Char} {c : Char} {rest : List Char}
    (h : l.dropWhile p = c :: rest) : rest.length < l.length := by
  have h1 := length_dropWhile_le p l
  rw [h] at h1
  simp at h1
  omega

theorem add_token_ptr_le (st : ParseState) (tok ptr : List Char) :
    (add_token st tok ptr).ptr.length ≤ ptr.length := by
  unfold add_token
  split
  · simp
  · split_ifs <;> simp

theorem scan_quoted_ptr_le (st : ParseState) (q : Char) (rest : List Char) :
    (scan_quoted st q rest).ptr.length ≤ rest.length := by
  unfold scan_quoted
  split
  · exact le_trans (add_token_ptr_le _ _ _) (by simp)
  · next _ after h =>
    have h1 := dropWhile_cons_length h
    exact le_trans (add_token_ptr_le _ _ _) (le_of_lt h1)

theorem is_word_char_of_not {c : Char} (hb : is_blank c = false) (hr : is_redir c = false) :
    is_word_char c = true := by
  simp [is_blank, is_redir, is_word_char] at *
  tauto

/-- Every pass of the loop body moves the cursor strictly forward. -/
theorem parse_iter_lt (st : ParseState) (h : st.ptr ≠ []) :
    (parse_iter st).ptr.length < st.ptr.length := by
  have hpos : 0 < st.ptr.length := List.length_pos.mpr h
  unfold parse_iter
  split
  · simpa using hpos
  · next c rest hd =>
    have hrest := dropWhile_cons_length hd
    have hb := dropWhile_head_not hd
    by_cases hr : is_redir c = true
    · simp only [hr, if_true]
      have h2 : ((rest.dropWhile is_blank).dropWhile is_word_char).length ≤ rest.length :=
        le_trans (length_dropWhile_le _ _) (length_dropWhile_le _ _)
      split_ifs <;> simp only <;> omega
    · simp only [Bool.not_eq_true] at hr
      simp only [hr, Bool.false_eq_true, if_false]
      split_ifs
      · exact lt_of_le_of_lt (scan_quoted_ptr_le _ _ _) hrest
      · exact lt_of_le_of_lt (scan_quoted_ptr_le _ _ _) hrest
      · refine lt_of_le_of_lt (add_token_ptr_le _ _ _) ?_
        rw [List.dropWhile_cons_of_pos (is_word_char_of_not hb hr)]
        exact lt_of_le_of_lt (length_dropWhile_le _ _) hrest

/-- The loop started on a cursor at the NUL does nothing. -/
theorem parse_loop_nil (fuel : Nat) (st : ParseState) (h : st.ptr = []) :
    parse_loop fuel st = st := by
  cases fuel with
  | zero => rfl
  | succ n => simp [parse_loop, h]

/-- With more passes allowed than characters left, the loop runs to its end:
its result does not depend on the bound. -/
theorem parse_loop_fuel (f g : Nat) (st : ParseState)
    (hf : st.ptr.length < f) (hg : st.ptr.length < g) :
    parse_loop f st = parse_loop g st := by
  induction f generalizing g st with
  | zero => omega
  | succ n ih =>
    cases g with
    | zero => omega
    | succ m =>
      cases hp : st.ptr with
      | nil => simp [parse_loop, hp]
      | cons c rest =>
        have hne : st.ptr ≠ [] := by simp [hp]
        have hlt := parse_iter_lt st hne
        simp only [parse_loop, hp]
        exact ih m (parse_iter st) (by omega) (by omega)

theorem parse_run_nil (st : ParseState) (h : st.ptr = []) : parse_run st = st :=
  parse_loop_nil _ st h

theorem parse_run_step (st : ParseState) (h : st.ptr ≠ []) :
    parse_run st = parse_run (parse_iter st) := by
  have hlt := parse_iter_lt st h
  unfold parse_run
  cases hp : st.ptr with
  | nil => exact absurd hp h
  | cons c rest =>
    rw [hp] at hlt
    simp only [List.length_cons] at hlt ⊢
    conv_lhs => rw [parse_loop]
    simp only [hp]
    exact parse_loop_fuel _ _ _ (by omega) (by omega)

/-- The loop ends with the cursor on the NUL. -/
theorem parse_run_ptr (n : Nat) (st : ParseState) (hn : st.ptr.length ≤ n) :
    (parse_run st).ptr = [] := by
  induction n generalizing st with
  | zero =>
    have h : st.ptr = [] := List.length_eq_zero.mp (Nat.le_zero.mp hn)
    rw [parse_run_nil st h, h]
  | succ n ih =>
    by_cases h : st.ptr = []
    · rw [parse_run_nil st h, h]
    · rw [parse_run_step st h]
      have := parse_iter_lt st h
      exact ih _ (by omega)

theorem parse_command_eq (command : List Char) :
    parse_command command =
      { argv := (parse_run (parse_init command)).tokens,
        input_file := (parse_run (parse_init command)).input_file,
        output_file := (parse_run (parse_init command)).output_file } := rfl

/-! ### C1: words joined by single spaces -/

theorem takeWhile_append_stop {p : Char → Bool} (w tail : List Char)
    (hw : ∀ c ∈ w, p c = true) (ht : ∀ d rest, tail = d :: rest → p d = false) :
    (w ++ tail).takeWhile p = w ∧ (w ++ tail).dropWhile p = tail := by
  rw [List.takeWhile_append_of_pos hw, List.dropWhile_append_of_pos hw]
  cases tail with
  | nil => simp
  | cons d rest =>
    have hd := ht d rest rfl
    simp [List.takeWhile_cons, List.dropWhile_cons, hd]

theorem scan_quoted_closed (st : ParseState) (q : Char) (text tail : List Char)
    (hq : q ∉ text) :
    scan_quoted st q (text ++ q :: tail) = add_token st text tail := by
  have h := takeWhile_append_stop (p := fun c => c != q) text (q :: tail)
    (by intro c hc; simp; rintro rfl; exact hq hc)
    (by intro d rest h; simp at h; simp [h.1])
  unfold scan_quoted
  simp only [h.1, h.2]

/-- One pass of the loop over a well-formed word that is followed by the end of
the string or by a space stores the value of the word and steps over the
space. -/
theorem parse_iter_word (st : ParseState) (w : Word) (hw : w.wf) (tail : List Char)
    (hp : st.ptr = w.source ++ tail) (ht : ∀ d rest, tail = d :: rest → d = ' ') :
    parse_iter st = { st with ptr := tail.tail, tokens := st.tokens ++ [w.value] } := by
  have hadd : ∀ tok, add_token st tok tail
      = { st with ptr := tail.tail, tokens := st.tokens ++ [tok] } := by
    intro tok
    cases tail with
    | nil => rfl
    | cons d rest =>
      obtain rfl := ht d rest rfl
      simp [add_token, is_redir, is_blank]
  cases w with
  | bare w =>
    obtain ⟨hne, hall, hsq, hdq⟩ := hw
    cases w with
    | nil => exact absurd rfl hne
    | cons c w' =>
      have hc : is_word_char c = true := hall c (by simp)
      have hb : is_blank c = false := by
        simp [is_word_char, is_blank] at hc ⊢; tauto
      have hr : is_redir c = false := by
        simp [is_word_char, is_redir] at hc ⊢; tauto
      have hs : c ≠ SQ := by simpa using hsq
      have hd : c ≠ DQ := by simpa using hdq
      have h := takeWhile_append_stop (p := is_word_char) (c :: w') tail hall
        (by intro d rest h; rw [ht d rest h]; decide)
      simp only [Word.source, List.cons_append] at hp
      simp only [List.cons_append] at h
      unfold parse_iter
      rw [hp, List.dropWhile_cons_of_neg (by simp [hb])]
      simp only [hr, Bool.false_eq_true, if_false, hs, hd, h.1, h.2]
      exact hadd _
  | dquoted text =>
    have hq : DQ ∉ text := hw
    simp only [Word.source, List.cons_append, List.append_assoc, List.singleton_append,
      List.nil_append] at hp
    unfold parse_iter
    rw [hp, List.dropWhile_cons_of_neg (by decide)]
    have h1 : is_redir DQ = false := by decide
    have h2 : DQ ≠ SQ := by decide
    simp only [h1, Bool.false_eq_true, if_false, h2, if_true]
    rw [scan_quoted_closed st DQ text tail hq]
    exact hadd _
  | squoted text =>
    have hq : SQ ∉ text := hw
    simp only [Word.source, List.cons_append, List.append_assoc, List.singleton_append,
      List.nil_append] at hp
    unfold parse_iter
    rw [hp, List.dropWhile_cons_of_neg (by decide)]
    have h1 : is_redir SQ = false := by decide
    simp only [h1, Bool.false_eq_true, if_false, if_true]
    rw [scan_quoted_closed st SQ text tail hq]
    exact hadd _

theorem Word.source_ne_nil (w : Word) (hw : w.wf) : w.source ≠ [] := by
  cases w with
  | bare w => exact hw.1
  | dquoted text => simp [Word.source]
  | squoted text => simp [Word.source]

theorem parse_run_words (ws : List Word) (h : ∀ w ∈ ws, w.wf) (st : ParseState)
    (hp : st.ptr = join_words ws) :
    parse_run st = { st with ptr := [], tokens := st.tokens ++ ws.map Word.value } := by
  induction ws generalizing st with
  | nil =>
    rw [parse_run_nil st hp]
    cases st
    simp_all [join_words]
  | cons w ws ih =>
    have hw : w.wf := h w (by simp)
    cases ws with
    | nil =>
      have hp1 : st.ptr = w.source ++ [] := by simpa [join_words] using hp
      have hne : st.ptr ≠ [] := by rw [hp]; exact Word.source_ne_nil w hw
      rw [parse_run_step st hne, parse_iter_word st w hw [] hp1 (by simp), parse_run_nil _ rfl]
      simp
    | cons w' ws' =>
      have hp1 : st.ptr = w.source ++ ' ' :: join_words (w' :: ws') := by
        simpa [join_words] using hp
      have hne : st.ptr ≠ [] := by
        rw [hp1]; simp
      rw [parse_run_step st hne,
        parse_iter_word st w hw (' ' :: join_words (w' :: ws')) hp1
          (by intro d rest h; simp at h; exact h.1.symm)]
      rw [ih (fun x hx => h x (by simp [hx])) _ rfl]
      simp

/-- C1: for every sequence of well-formed words (barewords, texts in double
quotes, texts in single quotes), `parse_command` on the words joined by single
spaces returns as argv the barewords verbatim and the quoted texts without
their quotes, in order, and leaves both redirection targets absent. -/
theorem parse_command_words (ws : List Word) (h : ∀ w ∈ ws, w.wf) :
    parse_command (join_words ws)
      = { argv := ws.map Word.value, input_file := none, output_file := none } := by
  rw [parse_command_eq, parse_run_words ws h (parse_init (join_words ws)) rfl]
  simp [parse_init]

/-- C1 at `echo "a b" c`: argv is [echo, a b, c]. -/
theorem parse_command_words_witness :
    (∀ w ∈ [Word.bare "echo".toList, Word.dquoted "a b".toList, Word.bare "c".toList], w.wf)
    ∧ join_words [Word.bare "echo".toList, Word.dquoted "a b".toList, Word.bare "c".toList]
        = "echo ".toList ++ DQ :: "a b".toList ++ DQ :: " c".toList
    ∧ parse_command ("echo ".toList ++ DQ :: "a b".toList ++ DQ :: " c".toList)
        = { argv := ["echo".toList, "a b".toList, "c".toList],
            input_file := none, output_file := none } :=
  ⟨by decide, by decide,
    parse_command_words
      [Word.bare "echo".toList, Word.dquoted "a b".toList, Word.bare "c".toList]
      (by decide)⟩

/-! ### C2: argv of a stage without quotes -/

theorem lex_from_append (cur w s : List Char) (hw : ∀ c ∈ w, is_word_char c = true) :
    lex_from cur (w ++ s) = lex_from (cur ++ w) s := by
  induction w generalizing cur with
  | nil => simp
  | cons c w ih =>
    have hc := hw c (by simp)
    rw [List.cons_append, lex_from, if_pos hc, ih _ (fun x hx => hw x (by simp [hx]))]
    simp

theorem lexemes_blank (c : Char) (s : List Char) (hc : is_blank c = true) :
    lexemes (c :: s) = lexemes s := by
  have h1 : is_word_char c = false := by
    simp [is_blank, is_word_char] at hc ⊢
    rcases hc with rfl | rfl <;> decide
  have h2 : is_redir c = false := by
    simp [is_blank, is_redir] at hc ⊢
    rcases hc with rfl | rfl <;> decide
  simp [lexemes, lex_from, h1, h2, flush_run]

theorem lexemes_dropWhile_blank (s : List Char) :
    lexemes (s.dropWhile is_blank) = lexemes s := by
  induction s with
  | nil => rfl
  | cons c s ih =>
    by_cases hc : is_blank c = true
    · rw [List.dropWhile_cons_of_pos hc, ih, lexemes_blank c s hc]
    · rw [List.dropWhile_cons_of_neg hc]

theorem lexemes_redir (c : Char) (s : List Char) (hc : is_redir c = true) :
    lexemes (c :: s) = Lexeme.redir c :: lexemes s := by
  have h1 : is_word_char c = false := by
    simp [is_redir, is_word_char] at hc ⊢
    rcases hc with rfl | rfl <;> decide
  simp [lexemes, lex_from, h1, hc, flush_run]

/-- A non-empty run followed by the end of the string or by a character that
ends runs is a lexeme of its own. -/
theorem lex_from_stop (cur p : List Char) (hcur : cur ≠ [])
    (hp : ∀ d rest, p = d :: rest → is_word_char d = false) :
    lex_from cur p = Lexeme.word cur :: lexemes p := by
  cases p with
  | nil => simp [lex_from, lexemes, flush_run, hcur]
  | cons d rest =>
    have hd := hp d rest rfl
    simp [lex_from, lexemes, flush_run, hcur, hd]

/-- A redirect operator followed (after blanks) by the end of the stage or by
another redirect operator has no run as its target. -/
theorem drop_targets_redir_stop (c : Char) (p : List Char)
    (hp : ∀ d rest, p = d :: rest → is_redir d = true) :
    drop_targets (Lexeme.redir c :: lexemes p) = drop_targets (lexemes p) := by
  cases p with
  | nil => simp [lexemes, lex_from, flush_run, drop_targets]
  | cons d rest =>
    rw [lexemes_redir d rest (hp d rest rfl)]
    simp [drop_targets]

theorem not_word_char_cases {d : Char} (hd : is_word_char d = false) :
    is_redir d = true ∨ is_blank d = true := by
  simp [is_word_char, is_redir, is_blank] at hd ⊢
  tauto

theorem takeWhile_dropWhile_stop (p : Char → Bool) (l : List Char) :
    ∀ d rest, l.dropWhile p = d :: rest → p d = false :=
  fun _ _ h => dropWhile_head_not h

/-- The argv of a stage without quotes, from any state of the loop. -/
theorem parse_run_unquoted (n : Nat) (s : List Char) (hn : s.length ≤ n)
    (hs : SQ ∉ s ∧ DQ ∉ s) (st : ParseState) (hp : st.ptr = s) :
    (parse_run st).tokens = st.tokens ++ drop_targets (lexemes s) := by
  induction n generalizing s st with
  | zero =>
    have : s = [] := List.length_eq_zero.mp (Nat.le_zero.mp hn)
    subst this
    rw [parse_run_nil st hp]
    simp [lexemes, lex_from, flush_run, drop_targets]
  | succ n ih =>
    by_cases hnil : s = []
    · subst hnil
      rw [parse_run_nil st hp]
      simp [lexemes, lex_from, flush_run, drop_targets]
    · have hne : st.ptr ≠ [] := by rw [hp]; exact hnil
      rw [parse_run_step st hne, ← lexemes_dropWhile_blank s]
      have hsuf : s.dropWhile is_blank <:+ s := List.dropWhile_suffix _
      unfold parse_iter
      rw [hp]
      cases hd : s.dropWhile is_blank with
      | nil =>
        simp only
        rw [parse_run_nil _ rfl]
        simp [lexemes, lex_from, flush_run, drop_targets]
      | cons c rest =>
        rw [hd] at hsuf
        have hrest := dropWhile_cons_length hd
        have hb := dropWhile_head_not hd
        have hmem : ∀ x ∈ c :: rest, x ∈ s := fun x hx => hsuf.subset hx
        have hcs : c ≠ SQ := by rintro rfl; exact hs.1 (hmem _ (by simp))
        have hcd : c ≠ DQ := by rintro rfl; exact hs.2 (hmem _ (by simp))
        simp only
        by_cases hr : is_redir c = true
        · -- a redirect operator and its target
          simp only [hr, if_true]
          rw [lexemes_redir c rest hr, ← lexemes_dropWhile_blank rest]
          set start := rest.dropWhile is_blank with hstart
          have hsplit : start.takeWhile is_word_char ++ start.dropWhile is_word_char = start :=
            List.takeWhile_append_dropWhile _ _
          have hstop := takeWhile_dropWhile_stop is_word_char start
          have hlen : (start.dropWhile is_word_char).length ≤ n := by
            have h1 := length_dropWhile_le is_word_char start
            have h2 : start.length ≤ rest.length := length_dropWhile_le is_blank rest
            omega
          have hq : SQ ∉ start.dropWhile is_word_char ∧ DQ ∉ start.dropWhile is_word_char := by
            have hsub : ∀ x ∈ start.dropWhile is_word_char, x ∈ s := fun x hx =>
              hmem x (List.mem_cons_of_mem _
                ((List.dropWhile_subset _) ((List.dropWhile_subset _) hx)))
            exact ⟨fun h => hs.1 (hsub _ h), fun h => hs.2 (hsub _ h)⟩
          have htarget : drop_targets (Lexeme.redir c :: lexemes start)
              = drop_targets (lexemes (start.dropWhile is_word_char)) := by
            by_cases hf : start.takeWhile is_word_char = []
            · have hst : start = start.dropWhile is_word_char := by
                rw [hf] at hsplit; simpa using hsplit.symm
              rw [← hst]
              apply drop_targets_redir_stop
              intro d rest2 hdr
              have h1 : is_word_char d = false := by
                apply hstop d rest2; rw [← hst]; exact hdr
              have h2 : is_blank d = false := by
                apply dropWhile_head_not (p := is_blank) (l := rest)
                rw [← hstart]; exact hdr
              rcases not_word_char_cases h1 with h | h
              · exact h
              · rw [h2] at h; exact absurd h (by simp)
            · conv_lhs => rw [← hsplit]
              rw [lexemes, lex_from_append [] _ _ (fun x hx => List.mem_takeWhile_imp hx),
                List.nil_append, lex_from_stop _ _ hf hstop]
              simp [drop_targets]
          rw [htarget]
          split_ifs
          · exact ih _ hlen hq _ rfl
          · exact ih _ hlen hq _ rfl
        · -- a bareword
          simp only [Bool.not_eq_true] at hr
          simp only [hr, Bool.false_eq_true, if_false, hcs, hcd]
          have hw := is_word_char_of_not hb hr
          set tok := (c :: rest).takeWhile is_word_char with htok
          set p2 := (c :: rest).dropWhile is_word_char with hp2
          have hsplit : tok ++ p2 = c :: rest := List.takeWhile_append_dropWhile _ _
          have hstop := takeWhile_dropWhile_stop is_word_char (c :: rest)
          have htokne : tok ≠ [] := by
            rw [htok, List.takeWhile_cons_of_pos hw]; simp
          have hp2len : p2.length ≤ rest.length := by
            rw [hp2, List.dropWhile_cons_of_pos hw]; exact length_dropWhile_le _ _
          have hp2sub : ∀ x ∈ p2, x ∈ s := fun x hx =>
            hmem x ((List.dropWhile_subset _) hx)
          have hlex : lexemes (c :: rest) = Lexeme.word tok :: lexemes p2 := by
            conv_lhs => rw [← hsplit]
            rw [lexemes, lex_from_append [] _ _ (fun x hx => List.mem_takeWhile_imp hx),
              List.nil_append, lex_from_stop _ _ htokne hstop]
          rw [hlex]
          simp only [drop_targets]
          cases hp2c : p2 with
          | nil =>
            simp only [add_token]
            rw [parse_run_nil _ rfl]
            simp [lexemes, lex_from, flush_run, drop_targets]
          | cons d rest2 =>
            have hd2 : is_word_char d = false := hstop d rest2 (by rw [← hp2, hp2c])
            have hlen2 : rest2.length < rest.length := by
              rw [hp2c] at hp2len; simp at hp2len; omega
            by_cases hrd : is_redir d = true
            · simp only [add_token, hrd, if_true]
              have := ih (d :: rest2) (by simp; omega)
                ⟨fun h => hs.1 (hp2sub _ (by rw [hp2c]; exact h)),
                 fun h => hs.2 (hp2sub _ (by rw [hp2c]; exact h))⟩
                { st with ptr := d :: rest2, tokens := st.tokens ++ [tok] } rfl
              rw [this]; simp
            · have hbd : is_blank d = true := by
                rcases not_word_char_cases hd2 with h | h
                · exact absurd h hrd
                · exact h
              simp only [Bool.not_eq_true] at hrd
              simp only [add_token, hrd, Bool.false_eq_true, if_false, hbd, if_true]
              have := ih rest2 (by omega)
                ⟨fun h => hs.1 (hp2sub _ (by rw [hp2c]; exact List.mem_cons_of_mem _ h)),
                 fun h => hs.2 (hp2sub _ (by rw [hp2c]; exact List.mem_cons_of_mem _ h))⟩
                { st with ptr := rest2, tokens := st.tokens ++ [tok] } rfl
              rw [this, lexemes_blank d rest2 hbd]; simp

theorem lex_from_words (cur s : List Char) (hcur : ∀ c ∈ cur, is_word_char c = true) :
    ∀ w, Lexeme.word w ∈ lex_from cur s → w ≠ [] ∧ ∀ c ∈ w, is_word_char c = true := by
  induction s generalizing cur with
  | nil =>
    intro w hw
    simp only [lex_from, flush_run] at hw
    split_ifs at hw with h
    · simp at hw
    · simp at hw; subst hw; exact ⟨h, hcur⟩
  | cons c s ih =>
    intro w hw
    simp only [lex_from] at hw
    split_ifs at hw with h1 h2
    · exact ih (cur ++ [c]) (by
        intro x hx
        rcases List.mem_append.mp hx with h | h
        · exact hcur x h
        · simp at h; subst h; exact h1) w hw
    · simp only [flush_run, List.mem_append] at hw
      rcases hw with hw | hw | hw
      · split_ifs at hw with h
        · simp at hw
        · simp at hw; subst hw; exact ⟨h, hcur⟩
      · simp at hw
      · exact ih [] (by simp) w hw
    · simp only [flush_run, List.mem_append] at hw
      rcases hw with hw | hw | hw
      · split_ifs at hw with h
        · simp at hw
        · simp at hw; subst hw; exact ⟨h, hcur⟩
      · simp at hw
      · exact ih [] (by simp) w hw

theorem drop_targets_subset (L : List Lexeme) :
    ∀ w ∈ drop_targets L, Lexeme.word w ∈ L := by
  induction L using drop_targets.induct with
  | case1 => simp [drop_targets]
  | case2 w rest ih =>
    intro x hx
    simp only [drop_targets, List.mem_cons] at hx
    rcases hx with rfl | hx
    · simp
    · exact List.mem_cons_of_mem _ (ih x hx)
  | case3 c w rest ih =>
    intro x hx
    simp only [drop_targets] at hx
    exact List.mem_cons_of_mem _ (List.mem_cons_of_mem _ (ih x hx))
  | case4 c rest hnot ih =>
    intro x hx
    rw [drop_targets] at hx
    · exact List.mem_cons_of_mem _ (ih x hx)
    · exact hnot

/-- C2: for a stage without quote characters, the argv of `parse_command` is
the list of the maximal runs of characters other than space, tab, `<`, `>`
that do not directly follow a redirect operator (blanks ignored), from left
to right; so no argv token is empty and none holds `<`, `>`, a space or a tab. -/
theorem parse_command_argv_unquoted (s : List Char) (hs : SQ ∉ s ∧ DQ ∉ s) :
    (parse_command s).argv = drop_targets (lexemes s)
    ∧ ∀ t ∈ (parse_command s).argv,
        t ≠ [] ∧ ∀ c ∈ t, c ≠ '<' ∧ c ≠ '>' ∧ c ≠ ' ' ∧ c ≠ '\t' := by
  have h1 : (parse_command s).argv = drop_targets (lexemes s) := by
    rw [parse_command_eq]
    simp only
    rw [parse_run_unquoted s.length s le_rfl hs (parse_init s) rfl]
    simp [parse_init]
  refine ⟨h1, ?_⟩
  intro t ht
  rw [h1] at ht
  have h2 := lex_from_words [] s (by simp) t (drop_targets_subset _ t ht)
  refine ⟨h2.1, ?_⟩
  intro c hc
  have h3 := h2.2 c hc
  simp [is_word_char] at h3
  tauto

/-- C2 at `cat < in.txt > out.txt`: argv is [cat], the input target is
`in.txt` and the output target is `out.txt`. -/
theorem parse_command_argv_unquoted_witness :
    (SQ ∉ "cat < in.txt > out.txt".toList ∧ DQ ∉ "cat < in.txt > out.txt".toList)
    ∧ ((parse_command "cat < in.txt > out.txt".toList).argv
        = drop_targets (lexemes "cat < in.txt > out.txt".toList)
      ∧ ∀ t ∈ (parse_command "cat < in.txt > out.txt".toList).argv,
        t ≠ [] ∧ ∀ c ∈ t, c ≠ '<' ∧ c ≠ '>' ∧ c ≠ ' ' ∧ c ≠ '\t')
    ∧ parse_command "cat < in.txt > out.txt".toList
        = { argv := ["cat".toList], input_file := some "in.txt".toList,
            output_file := some "out.txt".toList } :=
  ⟨by decide, parse_command_argv_unquoted "cat < in.txt > out.txt".toList (by decide),
    by decide⟩

/-! ### The loop of `split_by_pipes` -/

theorem strtok_pipe_lt {s token save : List Char} (h : strtok_pipe s = some (token, save)) :
    save.length < s.length := by
  unfold strtok_pipe at h
  split at h
  · simp at h
  · next c rest hd =>
    have h1 := dropWhile_cons_length hd
    split at h
    · simp at h; rw [h.2]; simp; omega
    · next _ after ha =>
      have h2 := dropWhile_cons_length ha
      simp at h ⊢
      rw [← h.2]
      simp at h2
      omega

theorem split_loop_fuel (f g : Nat) (s : List Char) (st : SplitState)
    (hf : s.length < f) (hg : s.length < g) :
    split_loop f s st = split_loop g s st := by
  induction f generalizing g s st with
  | zero => omega
  | succ n ih =>
    cases g with
    | zero => omega
    | succ m =>
      simp only [split_loop]
      cases h : strtok_pipe s with
      | none => rfl
      | some r =>
        obtain ⟨token, save⟩ := r
        have hlt := strtok_pipe_lt h
        exact ih m save _ (by omega) (by omega)

theorem split_run_none (s : List Char) (st : SplitState) (h : strtok_pipe s = none) :
    split_run s st = st := by
  simp [split_run, split_loop, h]

theorem split_run_some (s : List Char) (st : SplitState) (token save : List Char)
    (h : strtok_pipe s = some (token, save)) :
    split_run s st = split_run save
      { tokens := st.tokens ++ [trim_stage token], position := st.position + 1 } := by
  have hlt := strtok_pipe_lt h
  simp only [split_run, split_loop, h]
  exact split_loop_fuel s.length (save.length + 1) save _ (by omega) (by omega)

theorem pipe_runs_pipe (s : List Char) : pipe_runs ('|' :: s) = pipe_runs s := by
  simp [pipe_runs, List.splitOn, List.splitOnP_cons]

theorem pipe_runs_dropWhile (s : List Char) :
    pipe_runs (s.dropWhile is_pipe) = pipe_runs s := by
  induction s with
  | nil => rfl
  | cons c s ih =>
    by_cases hc : is_pipe c = true
    · rw [List.dropWhile_cons_of_pos hc, ih]
      have : c = '|' := by simpa [is_pipe] using hc
      rw [this, pipe_runs_pipe]
    · rw [List.dropWhile_cons_of_neg hc]

theorem pipe_runs_single (token : List Char) (hne : token ≠ [])
    (h : ∀ c ∈ token, c ≠ '|') : pipe_runs token = [token] := by
  have : token.splitOn '|' = [token] :=
    List.splitOnP_eq_single _ _ (by intro x hx; simpa using h x hx)
  simp [pipe_runs, this, hne]

theorem pipe_runs_first (token after : List Char) (hne : token ≠ [])
    (h : ∀ c ∈ token, c ≠ '|') :
    pipe_runs (token ++ '|' :: after) = token :: pipe_runs after := by
  have : (token ++ '|' :: after).splitOn '|' = token :: after.splitOn '|' :=
    List.splitOnP_first _ _ (by intro x hx; simpa using h x hx) '|' (by simp) after
  simp [pipe_runs, this, hne]

/-- What a `strtok` call returns, in terms of the runs of the line. -/
theorem strtok_pipe_runs (s : List Char) :
    (strtok_pipe s = none ∧ pipe_runs s = [])
    ∨ ∃ token save, strtok_pipe s = some (token, save)
        ∧ pipe_runs s = token :: pipe_runs save := by
  unfold strtok_pipe
  rw [← pipe_runs_dropWhile s]
  cases hd : s.dropWhile is_pipe with
  | nil => left; simp [pipe_runs]
  | cons c rest =>
    right
    have hc : is_pipe c = false := dropWhile_head_not hd
    have hsplit : (c :: rest).takeWhile not_pipe ++ (c :: rest).dropWhile not_pipe = c :: rest :=
      List.takeWhile_append_dropWhile _ _
    have htok : ∀ x ∈ (c :: rest).takeWhile not_pipe, x ≠ '|' := by
      intro x hx; simpa [not_pipe] using List.mem_takeWhile_imp hx
    have hne : (c :: rest).takeWhile not_pipe ≠ [] := by
      rw [List.takeWhile_cons_of_pos (by simpa [is_pipe, not_pipe] using hc)]; simp
    cases ha : (c :: rest).dropWhile not_pipe with
    | nil =>
      refine ⟨(c :: rest).takeWhile not_pipe, [], by simp only [ha], ?_⟩
      rw [ha, List.append_nil] at hsplit
      rw [hsplit] at htok hne ⊢
      rw [pipe_runs_single _ hne htok]
      simp [pipe_runs]
    | cons d after =>
      refine ⟨(c :: rest).takeWhile not_pipe, after, by simp only [ha], ?_⟩
      have hd2 : not_pipe d = false := dropWhile_head_not ha
      have hd3 : d = '|' := by simpa [not_pipe] using hd2
      rw [ha, hd3] at hsplit
      conv_lhs => rw [← hsplit]
      exact pipe_runs_first _ _ hne htok

theorem split_run_runs (n : Nat) (s : List Char) (hn : s.length ≤ n) (st : SplitState) :
    split_run s st
      = { tokens := st.tokens ++ (pipe_runs s).map trim_stage,
          position := st.position + (pipe_runs s).length } := by
  induction n generalizing s st with
  | zero =>
    have : s = [] := List.length_eq_zero.mp (Nat.le_zero.mp hn)
    subst this
    simp [split_run, split_loop, strtok_pipe, pipe_runs]
  | succ n ih =>
    rcases strtok_pipe_runs s with ⟨h1, h2⟩ | ⟨token, save, h1, h2⟩
    · rw [split_run_none s st h1, h2]; simp
    · have hlt := strtok_pipe_lt h1
      rw [split_run_some s st token save h1, ih save (by omega), h2]
      simp [Nat.add_assoc, Nat.add_comm]

theorem split_by_pipes_eq (line : List Char) :
    split_by_pipes line
      = { tokens := (pipe_runs line).map trim_stage,
          num_commands := (pipe_runs line).length } := by
  have h := split_run_runs line.length line le_rfl { tokens := [], position := 0 }
  unfold split_run at h
  simp [split_by_pipes, h]

/-! ### The two trimming loops of `split_by_pipes` -/

/-- Everything the trailing loop steps over is a blank. -/
theorem trim_end_at_blank (t : List Char) (e i : Nat)
    (h1 : trim_end_at t e < i) (h2 : i ≤ e) : is_blank (t.getD i ' ') = true := by
  induction e with
  | zero => simp [trim_end_at] at h1; omega
  | succ e ih =>
    simp only [trim_end_at] at h1
    split_ifs at h1 with hb
    · by_cases hi : i = e + 1
      · rw [hi]; exact hb
      · exact ih h1 (by omega)
    · omega

theorem trim_end_at_le (t : List Char) (e : Nat) : trim_end_at t e ≤ e := by
  induction e with
  | zero => simp [trim_end_at]
  | succ e ih =>
    simp only [trim_end_at]
    split_ifs
    · omega
    · omega

/-- A stage is its run with blanks removed at the two ends. -/
theorem trim_stage_trimmed (token : List Char) : trimmed_of token (trim_stage token) := by
  have hsplit : token.takeWhile is_space ++ token.dropWhile is_space = token :=
    List.takeWhile_append_dropWhile _ _
  have ha : ∀ c ∈ token.takeWhile is_space, is_blank c = true := by
    intro c hc
    have := List.mem_takeWhile_imp hc
    simp [is_space] at this
    simp [is_blank, this]
  unfold trim_stage
  cases ht : token.dropWhile is_space with
  | nil =>
    refine ⟨token.takeWhile is_space, [], ?_, ha, by simp⟩
    rw [ht] at hsplit
    simpa using hsplit.symm
  | cons c r =>
    simp only
    set t := c :: r with htdef
    set k := trim_end_at t (t.length - 1) with hk
    refine ⟨token.takeWhile is_space, t.drop (k + 1), ?_, ha, ?_⟩
    · rw [List.append_assoc, List.take_append_drop, ← ht, hsplit]
    · intro x hx
      obtain ⟨j, hj, rfl⟩ := List.mem_iff_getElem.mp hx
      rw [List.length_drop] at hj
      rw [List.getElem_drop]
      have h := trim_end_at_blank t (t.length - 1) (k + 1 + j) (by omega) (by omega)
      rwa [List.getD_eq_getElem t ' ' (by omega)] at h

/-- The trailing loop, started at the offset `e`, leaves the first character
and what follows it up to `e` without its trailing spaces and tabs. -/
theorem trim_end_at_take (c : Char) (rest : List Char) (e : Nat) (he : e ≤ rest.length) :
    (c :: rest).take (trim_end_at (c :: rest) e + 1)
      = c :: (rest.take e).rdropWhile is_blank := by
  induction e with
  | zero => simp [trim_end_at, List.rdropWhile]
  | succ e ih =>
    have hlt : e < rest.length := by omega
    have hget : (c :: rest).getD (e + 1) ' ' = rest[e] := by
      simp [List.getD_eq_getElem?_getD, List.getElem?_eq_getElem hlt]
    have htake : rest.take (e + 1) = rest.take e ++ [rest[e]] := by
      rw [List.take_succ, List.getElem?_eq_getElem hlt]
      rfl
    simp only [trim_end_at, hget]
    rw [htake, List.rdropWhile_concat]
    split_ifs with hb
    · exact ih (by omega)
    · rw [← htake]
      rfl

/-- What `split_by_pipes` copies of a token is the token with its ends
stripped. -/
theorem trim_stage_strip (token : List Char) : trim_stage token = strip_ends token := by
  unfold trim_stage strip_ends
  cases ht : token.dropWhile is_space with
  | nil => rfl
  | cons c rest =>
    simp only [List.length_cons, Nat.add_sub_cancel]
    rw [trim_end_at_take c rest rest.length (le_refl _), List.take_length]

/-- A stage made from a run that holds a character other than space and tab
holds such a character. -/
theorem trimmed_of_nonblank {run stage : List Char} (h : trimmed_of run stage)
    (hrun : ∃ c ∈ run, is_blank c = false) : ∃ c ∈ stage, is_blank c = false := by
  obtain ⟨a, b, rfl, ha, hb⟩ := h
  obtain ⟨c, hc, hcb⟩ := hrun
  simp only [List.mem_append] at hc
  rcases hc with (hc | hc) | hc
  · rw [ha c hc] at hcb; exact absurd hcb (by simp)
  · exact ⟨c, hc, hcb⟩
  · rw [hb c hc] at hcb; exact absurd hcb (by simp)

theorem trim_stage_spaces (token : List Char) (h : ∀ c ∈ token, c = ' ') :
    trim_stage token = [] := by
  have : token.dropWhile is_space = [] := by
    rw [List.dropWhile_eq_nil_iff]
    intro x hx
    simp [is_space, h x hx]
  simp [trim_stage, this]

theorem pipe_runs_all_pipes (line : List Char) (h : ∀ c ∈ line, c = '|') :
    pipe_runs line = [] := by
  have : line.dropWhile is_pipe = [] := by
    rw [List.dropWhile_eq_nil_iff]
    intro x hx
    simp [is_pipe, h x hx]
  rw [← pipe_runs_dropWhile, this]
  simp [pipe_runs]

/-! ### C3, C9, C10: the stages of a line -/

/-- C3: `split_by_pipes` returns one stage per maximal non-empty run of
characters other than `|`, in order.  Each stage is its run with the blanks at
its two ends removed: the leading spaces and, after the first character left,
the trailing spaces and tabs (`strip_ends`); so the run is the stage between
two strings of blanks.  `num_commands` is the number of stages and the array
entry at that index is NULL.  So a line made only of `|` (the empty line
included) has no stage, and a `|` between quotes separates two stages. -/
theorem split_by_pipes_stages (line : List Char) :
    (split_by_pipes line).tokens = (pipe_runs line).map strip_ends
    ∧ List.Forall₂ trimmed_of (pipe_runs line) (split_by_pipes line).tokens
    ∧ (split_by_pipes line).num_commands = (split_by_pipes line).tokens.length
    ∧ (split_by_pipes line).entry (split_by_pipes line).num_commands = none
    ∧ ((∀ c ∈ line, c = '|') →
        (split_by_pipes line).tokens = [] ∧ (split_by_pipes line).num_commands = 0)
    ∧ (split_by_pipes (DQ :: "a|b".toList ++ [DQ])).tokens = [[DQ, 'a'], ['b', DQ]] := by
  rw [split_by_pipes_eq]
  refine ⟨?_, ?_, by simp, by simp [Stages.entry], ?_, by decide⟩
  · exact List.map_congr_left (fun run _ => trim_stage_strip run)
  · rw [List.forall₂_map_right_iff, List.forall₂_same]
    intro run _
    exact trim_stage_trimmed run
  · intro h
    simp [pipe_runs_all_pipes line h]

/-- C3 at the line `  ls -l <TAB> | wc `: the two runs between the pipe
characters lose the spaces in front and the spaces and the tab behind, the
space inside `ls -l` stays. -/
theorem split_by_pipes_stages_witness :
    strip_ends ("  ls -l ".toList ++ '\t' :: " ".toList) = "ls -l".toList
    ∧ strip_ends " wc ".toList = "wc".toList
    ∧ (split_by_pipes ("  ls -l ".toList ++ '\t' :: " | wc ".toList)).tokens
        = ["ls -l".toList, "wc".toList] :=
  ⟨by decide, by decide,
    (split_by_pipes_stages ("  ls -l ".toList ++ '\t' :: " | wc ".toList)).1.trans
      (by decide)⟩

/-- C9 at the line `a |<TAB>b`: the second stage begins with a tab. -/
theorem split_by_pipes_leading_tab :
    (split_by_pipes ("a |".toList ++ '\t' :: "b".toList)).tokens
      = ["a".toList, '\t' :: "b".toList]
    ∧ (split_by_pipes [' ', '\t', ' ']).tokens = [['\t']] := by
  decide

/-- C10 fails at the line `a | | b`: the middle stage is the empty string. -/
theorem split_by_pipes_empty_stage :
    (split_by_pipes "a | | b".toList).tokens = ["a".toList, [], "b".toList]
    ∧ ¬ (∀ stage ∈ (split_by_pipes "a | | b".toList).tokens,
          stage ≠ [] ∧ ∃ c ∈ stage, is_blank c = false) := by
  decide

/-- C10 as amended: a stage made from a run that holds a character other than
space and tab is not empty and holds such a character; a run made of spaces
only gives the empty stage, which is kept; and `a | b |c` gives [a, b, c]. -/
theorem split_by_pipes_nonblank (line : List Char) :
    List.Forall₂
      (fun run stage =>
        ((∃ c ∈ run, is_blank c = false) → stage ≠ [] ∧ ∃ c ∈ stage, is_blank c = false)
        ∧ ((∀ c ∈ run, c = ' ') → stage = []))
      (pipe_runs line) (split_by_pipes line).tokens
    ∧ (split_by_pipes "a | b |c".toList).tokens = ["a".toList, "b".toList, "c".toList] := by
  rw [split_by_pipes_eq]
  refine ⟨?_, by decide⟩
  rw [List.forall₂_map_right_iff, List.forall₂_same]
  intro run _
  refine ⟨?_, trim_stage_spaces run⟩
  intro h
  obtain ⟨c, hc, hcb⟩ := trimmed_of_nonblank (trim_stage_trimmed run) h
  exact ⟨List.ne_nil_of_mem hc, c, hc, hcb⟩

/-! ### C4: a quoted argument followed by another character -/

/-- A pass of the loop that starts (after blanks) on a quote character whose
partner follows: the text between the two quotes is handed to the guarded
block of lines 145-167, with the cursor behind the closing quote. -/
theorem parse_iter_quoted (st : ParseState) (q : Char) (body rest : List Char)
    (hq : q = SQ ∨ q = DQ) (hbody : q ∉ body)
    (hp : st.ptr.dropWhile is_blank = q :: (body ++ q :: rest)) :
    parse_iter st = add_token st body rest := by
  unfold parse_iter
  rw [hp]
  rcases hq with rfl | rfl
  · have h1 : is_redir SQ = false := by decide
    simp only [h1, Bool.false_eq_true, if_false, if_true]
    exact scan_quoted_closed st SQ body rest hbody
  · have h1 : is_redir DQ = false := by decide
    have h2 : DQ ≠ SQ := by decide
    simp only [h1, Bool.false_eq_true, if_false, h2, if_true]
    exact scan_quoted_closed st DQ body rest hbody

/-- The sibling paths: a closing quote followed by the end of the string, a
blank or a redirect operator stores the quoted text as one token. -/
theorem add_token_kept (st : ParseState) (tok rest : List Char)
    (h : ∀ d tail, rest = d :: tail → is_blank d = true ∨ is_redir d = true) :
    (add_token st tok rest).tokens = st.tokens ++ [tok] := by
  cases rest with
  | nil => rfl
  | cons d tail =>
    unfold add_token
    simp only
    rcases h d tail rfl with hb | hr
    · split_ifs <;> rfl
    · simp [hr]

/-- The missed path: a closing quote followed by any other character stores
nothing, and the scan goes on from that character. -/
theorem add_token_dropped (st : ParseState) (tok : List Char) (d : Char) (tail : List Char)
    (hb : is_blank d = false) (hr : is_redir d = false) :
    add_token st tok (d :: tail) = { st with ptr := d :: tail } := by
  simp [add_token, hb, hr]


theorem add_token_tokens_grow (st : ParseState) (tok ptr : List Char) :
    st.tokens <+: (add_token st tok ptr).tokens := by
  unfold add_token
  split
  · exact List.prefix_append _ _
  · split_ifs
    · exact List.prefix_append _ _
    · exact List.prefix_append _ _
    · exact List.prefix_refl _

/-- A pass of the loop never removes or changes a stored token. -/
theorem parse_iter_tokens_grow (st : ParseState) :
    st.tokens <+: (parse_iter st).tokens := by
  unfold parse_iter
  split
  · exact List.prefix_refl _
  · split_ifs
    · exact List.prefix_refl _
    · exact List.prefix_refl _
    · unfold scan_quoted; split <;> exact add_token_tokens_grow _ _ _
    · unfold scan_quoted; split <;> exact add_token_tokens_grow _ _ _
    · exact add_token_tokens_grow _ _ _

theorem parse_run_tokens_grow (n : Nat) (st : ParseState) (hn : st.ptr.length ≤ n) :
    st.tokens <+: (parse_run st).tokens := by
  induction n generalizing st with
  | zero =>
    have h : st.ptr = [] := List.length_eq_zero.mp (Nat.le_zero.mp hn)
    rw [parse_run_nil st h]
  | succ n ih =>
    by_cases h : st.ptr = []
    · rw [parse_run_nil st h]
    · rw [parse_run_step st h]
      have hlt := parse_iter_lt st h
      exact (parse_iter_tokens_grow st).trans (ih _ (by omega))

theorem parse_iter_nil (st : ParseState) (h : st.ptr = []) : parse_iter st = st := by
  cases st
  simp_all [parse_iter]

theorem parse_run_iter (st : ParseState) : parse_run (parse_iter st) = parse_run st := by
  by_cases h : st.ptr = []
  · rw [parse_iter_nil st h]
  · rw [parse_run_step st h]

theorem parse_run_iterate (k : Nat) (st : ParseState) :
    parse_run (parse_iter^[k] st) = parse_run st := by
  induction k generalizing st with
  | zero => rfl
  | succ k ih => rw [Function.iterate_succ_apply, ih, parse_run_iter]

/-- The sibling paths of C4 in full: when some pass of the loop starts (after
blanks) on a quote character, the same quote character follows later, and the
closing quote is followed by the end of the string, a blank or a redirect
operator, then the text between the two quotes is a token of argv. -/
theorem parse_command_quoted_kept (command : List Char) (k : Nat) (q : Char)
    (body rest : List Char) (hq : q = SQ ∨ q = DQ) (hbody : q ∉ body)
    (hrest : ∀ d tail, rest = d :: tail → is_blank d = true ∨ is_redir d = true)
    (hp : (parse_iter^[k] (parse_init command)).ptr.dropWhile is_blank
            = q :: (body ++ q :: rest)) :
    body ∈ (parse_command command).argv := by
  rw [parse_command_eq]
  simp only
  rw [← parse_run_iterate k, ← parse_run_iter]
  have h1 := parse_iter_quoted _ q body rest hq hbody hp
  have h2 := add_token_kept (parse_iter^[k] (parse_init command)) body rest hrest
  have h3 := parse_run_tokens_grow _ (parse_iter (parse_iter^[k] (parse_init command))) le_rfl
  rw [h1] at h3 ⊢
  apply h3.subset
  rw [h2]
  simp

/-- C4 at `echo "a b"c`: the quoted text `a b` is not in argv. -/
theorem parse_command_quote_then_char :
    parse_command ("echo ".toList ++ DQ :: "a b".toList ++ DQ :: "c".toList)
      = { argv := ["echo".toList, "c".toList], input_file := none, output_file := none }
    ∧ parse_command (SQ :: 'a' :: SQ :: ['b'])
      = { argv := [['b']], input_file := none, output_file := none } := by
  decide

/-! ### C5: the background marker -/

theorem strip_background_eq (args : List (List Char)) :
    strip_background args
      = (args.takeWhile (fun a => a ≠ AMP), decide (AMP ∈ args)) := by
  induction args with
  | nil => simp [strip_background]
  | cons a rest ih =>
    by_cases h : a = AMP
    · simp [strip_background, h]
    · have h2 : ¬ AMP = a := fun e => h e.symm
      simp [strip_background, h, h2, ih]

/-- C5 fails at `sleep 5 & echo hi`: the last argv token is `hi`, yet the
command is launched with the background flag set, and the tokens `echo`, `hi`
are not handed to the launcher. -/
theorem background_not_last :
    (parse_command "sleep 5 & echo hi".toList).argv
      = ["sleep".toList, "5".toList, AMP, "echo".toList, "hi".toList]
    ∧ (parse_command "sleep 5 & echo hi".toList).argv.getLast? ≠ some AMP
    ∧ strip_background (parse_command "sleep 5 & echo hi".toList).argv
      = (["sleep".toList, "5".toList], true)
    ∧ execute_single_command Sys.example (ShellState.initial [] []) "sleep 5 & echo hi".toList
      = dispatch Sys.example (ShellState.initial [] []) ["sleep".toList, "5".toList] true
          "sleep 5 & echo hi".toList none none := by
  refine ⟨by decide, by decide, by decide, ?_⟩
  rfl

/-- C5 as amended: for a line with a command name, `execute_single_command`
hands to the launchers the argv tokens that stand before the first token `&`,
unchanged and in order, with the background flag set exactly when some argv
token is `&`.  Without a token `&` every token is handed over; with `&` only
as the last token, that token alone is removed. -/
theorem execute_single_command_background (sys : Sys) (sh : ShellState) (line : List Char) :
    ((parse_command line).argv ≠ [] →
      execute_single_command sys sh line
        = dispatch sys sh ((parse_command line).argv.takeWhile (fun a => a ≠ AMP))
            (decide (AMP ∈ (parse_command line).argv)) line
            (parse_command line).input_file (parse_command line).output_file)
    ∧ (AMP ∉ (parse_command line).argv →
        (parse_command line).argv.takeWhile (fun a => a ≠ AMP) = (parse_command line).argv)
    ∧ (∀ pre, (parse_command line).argv = pre ++ [AMP] → AMP ∉ pre →
        (parse_command line).argv.takeWhile (fun a => a ≠ AMP) = pre) := by
  refine ⟨?_, ?_, ?_⟩
  · intro h
    unfold execute_single_command
    cases hp : (parse_command line).argv with
    | nil => exact absurd hp h
    | cons a rest =>
      simp only [strip_background_eq]
      rw [hp]
  · intro h
    rw [List.takeWhile_eq_self_iff]
    intro x hx
    simp only [decide_eq_true_eq]
    rintro rfl
    exact h hx
  · intro pre hpre hnot
    rw [hpre, List.takeWhile_append_of_pos]
    · simp [AMP]
    · intro x hx
      simp only [decide_eq_true_eq]
      rintro rfl
      exact hnot hx

/-- C5 as amended, at `sleep 5 &`: the launcher gets [sleep, 5] with the
background flag set. -/
theorem execute_single_command_background_witness :
    (parse_command "sleep 5 &".toList).argv ≠ []
    ∧ execute_single_command Sys.example (ShellState.initial [] []) "sleep 5 &".toList
      = dispatch Sys.example (ShellState.initial [] []) ["sleep".toList, "5".toList] true
          "sleep 5 &".toList none none :=
  ⟨by decide,
    (execute_single_command_background Sys.example (ShellState.initial [] [])
      "sleep 5 &".toList).1 (by decide)⟩

/-! ### C8: a line without a command name -/

/-- A line whose argv is empty returns 1 and does nothing. -/
theorem execute_single_command_empty (sys : Sys) (sh : ShellState) (line : List Char)
    (h : (parse_command line).argv = []) :
    execute_single_command sys sh line = { outcome := .ret 1, trace := [], shell := sh } := by
  simp [execute_single_command, h]

/-- C8 at the line `&`: argv is [&], so the guard for an empty command is
passed; stripping the marker empties the argument vector, and
`execute_internal_command` is called with `args[0] == NULL`. -/
theorem execute_single_command_lone_amp (sys : Sys) (sh : ShellState) :
    (parse_command AMP).argv = [AMP]
    ∧ strip_background (parse_command AMP).argv = ([], true)
    ∧ execute_single_command sys sh AMP
      = execute_internal_command sys sh [] none none true
    ∧ (execute_single_command sys sh AMP).outcome = .fault := by
  refine ⟨by decide, by decide, rfl, rfl⟩

/-! ### C6: the status of `execute_internal_command` -/

theorem is_internal_iff (name : List Char) :
    is_internal name = true ↔ name ∈ builtin_names := by
  simp [is_internal, builtin_names]
  tauto

theorem cmd_cd_outcome (sys : Sys) (sh : ShellState) (args : List (List Char)) :
    (cmd_cd sys sh args).outcome = .ret 1 := by
  unfold cmd_cd
  simp only
  split
  · rfl
  · split
    · rfl
    · split <;> rfl

theorem cmd_searchconfig_outcome (sh : ShellState) (args : List (List Char)) :
    (cmd_searchconfig sh args).outcome = .ret 1 := by
  unfold cmd_searchconfig
  split <;> rfl

theorem cmd_start_monitor_outcome (sys : Sys) (sh : ShellState) (v : Int)
    (h : (cmd_start_monitor sys sh).outcome = .ret v) : v = 1 := by
  unfold cmd_start_monitor at h
  split_ifs at h <;> cases h <;> rfl

theorem cmd_stop_monitor_outcome (sys : Sys) (sh : ShellState) :
    (cmd_stop_monitor sys sh).outcome = .ret 1 := by
  unfold cmd_stop_monitor
  split_ifs <;> rfl

theorem cmd_status_monitor_outcome (sys : Sys) (sh : ShellState) (option : List Char) (v : Int)
    (h : (cmd_status_monitor sys sh option).outcome = .ret v) : v = 1 := by
  unfold cmd_status_monitor at h
  split_ifs at h
  · cases h; rfl
  · cases h; rfl
  · split at h
    · cases h; rfl
    · next o hne =>
      simp only at h
      exact absurd h (hne v)

theorem run_echo_outcome (sys : Sys) (sh : ShellState) (args : List (List Char))
    (background : Bool) (s1 s2 : Int) (v : Int)
    (h : (run_echo sys sh args background s1 s2).outcome = .ret v) : v = 1 := by
  unfold run_echo at h
  by_cases hb : background = true
  · simp only [hb, if_true] at h
    by_cases h1 : sys.fork < 0
    · simp only [h1, if_true] at h; cases h; rfl
    · simp only [h1, if_false] at h
      by_cases h2 : sys.fork = 0
      · simp only [h2, if_true] at h; cases h
      · simp only [h2, if_false] at h
        by_cases h3 : (add_job sys sys.fork "echo".toList sh).1 ≠ -1
        · rw [if_pos h3] at h; cases h; rfl
        · rw [if_neg h3] at h
          split at h
          · cases h
          · cases h; rfl
  · simp only [hb] at h
    cases h; rfl

theorem run_body_cd (sys : Sys) (sh : ShellState) (args : List (List Char))
    (background : Bool) (s1 s2 : Int) :
    run_body sys sh args "cd".toList background s1 s2 = cmd_cd sys sh args := rfl

theorem run_body_clear (sys : Sys) (sh : ShellState) (args : List (List Char))
    (background : Bool) (s1 s2 : Int) :
    run_body sys sh args "clear".toList background s1 s2 = cmd_clr sh := rfl

theorem run_body_help (sys : Sys) (sh : ShellState) (args : List (List Char))
    (background : Bool) (s1 s2 : Int) :
    run_body sys sh args "help".toList background s1 s2 = cmd_help sh := rfl

theorem run_body_searchconfig (sys : Sys) (sh : ShellState) (args : List (List Char))
    (background : Bool) (s1 s2 : Int) :
    run_body sys sh args "searchconfig".toList background s1 s2 = cmd_searchconfig sh args :=
  rfl

theorem run_body_echo (sys : Sys) (sh : ShellState) (args : List (List Char))
    (background : Bool) (s1 s2 : Int) :
    run_body sys sh args "echo".toList background s1 s2
      = run_echo sys sh args background s1 s2 := rfl

theorem run_body_quit (sys : Sys) (sh : ShellState) (args : List (List Char))
    (background : Bool) (s1 s2 : Int) :
    run_body sys sh args "quit".toList background s1 s2 = cmd_quit sh := rfl

theorem run_body_start_monitor (sys : Sys) (sh : ShellState) (args : List (List Char))
    (background : Bool) (s1 s2 : Int) :
    run_body sys sh args "start_monitor".toList background s1 s2 = cmd_start_monitor sys sh :=
  rfl

theorem run_body_stop_monitor (sys : Sys) (sh : ShellState) (args : List (List Char))
    (background : Bool) (s1 s2 : Int) :
    run_body sys sh args "stop_monitor".toList background s1 s2 = cmd_stop_monitor sys sh :=
  rfl

theorem run_body_status_monitor (sys : Sys) (sh : ShellState) (args : List (List Char))
    (background : Bool) (s1 s2 : Int) :
    run_body sys sh args "status_monitor".toList background s1 s2
      = cmd_status_monitor sys sh (match args[1]? with | some a => a | none => []) := rfl

/-- The chain of lines 517-588, for a built-in name: the status is 0 with the
body of `quit` run, or 1 for another name. -/
theorem run_body_ret (sys : Sys) (sh : ShellState) (args : List (List Char))
    (name : List Char) (background : Bool) (s1 s2 : Int)
    (hint : is_internal name = true) (v : Int)
    (h : (run_body sys sh args name background s1 s2).outcome = .ret v) :
    (v = 0 ∧ name = "quit".toList
      ∧ (run_body sys sh args name background s1 s2).trace = [.body .quit []])
    ∨ (v = 1 ∧ name ≠ "quit".toList) := by
  rw [is_internal_iff] at hint
  simp only [builtin_names, List.mem_cons, List.mem_singleton, List.not_mem_nil, or_false]
    at hint
  rcases hint with rfl | rfl | rfl | rfl | rfl | rfl | rfl | rfl | rfl
  · right; rw [run_body_cd, cmd_cd_outcome] at h; cases h; exact ⟨rfl, by decide⟩
  · right; rw [run_body_clear] at h; cases h; exact ⟨rfl, by decide⟩
  · right; rw [run_body_echo] at h; exact ⟨run_echo_outcome _ _ _ _ _ _ _ h, by decide⟩
  · left; rw [run_body_quit] at h ⊢; cases h; exact ⟨rfl, rfl, rfl⟩
  · right; rw [run_body_help] at h; cases h; exact ⟨rfl, by decide⟩
  · right; rw [run_body_start_monitor] at h
    exact ⟨cmd_start_monitor_outcome _ _ _ h, by decide⟩
  · right; rw [run_body_stop_monitor, cmd_stop_monitor_outcome] at h; cases h
    exact ⟨rfl, by decide⟩
  · right; rw [run_body_status_monitor] at h
    exact ⟨cmd_status_monitor_outcome _ _ _ _ h, by decide⟩
  · right; rw [run_body_searchconfig, cmd_searchconfig_outcome] at h; cases h
    exact ⟨rfl, by decide⟩

theorem restore_fd_no_body (saved fd result : Int) (e : Event) (he : e ∈ restore_fd saved fd result) :
    ∀ b args, e ≠ .body b args := by
  unfold restore_fd at he
  split_ifs at he
  · simp at he; rcases he with rfl | rfl <;> simp
  · simp at he

theorem redirect_input_no_body (sys : Sys) (input_file : Option (List Char)) (e : Event)
    (he : e ∈ (redirect_input sys input_file).1) : ∀ b args, e ≠ .body b args := by
  unfold redirect_input at he
  split at he
  · simp at he
  · split_ifs at he <;> simp at he <;> rcases he with rfl | rfl | rfl | rfl <;> simp

theorem redirect_output_no_body (sys : Sys) (output_file : Option (List Char)) (saved : Int)
    (e : Event) (he : e ∈ (redirect_output sys output_file saved).1) :
    ∀ b args, e ≠ .body b args := by
  unfold redirect_output at he
  split at he
  · simp at he
  · split_ifs at he
    · simp at he
      rcases he with rfl | he
      · simp
      · exact restore_fd_no_body _ _ _ e he
    · simp at he
      rcases he with rfl | rfl | rfl | rfl | he
      · simp
      · simp
      · simp
      · simp
      · exact restore_fd_no_body _ _ _ e he
    · simp at he
      rcases he with rfl | rfl | rfl | rfl <;> simp

theorem execute_internal_command_other (sys : Sys) (sh : ShellState) (name : List Char)
    (rest : List (List Char)) (input_file output_file : Option (List Char))
    (background : Bool) (h : is_internal name = false) :
    execute_internal_command sys sh (name :: rest) input_file output_file background
      = { outcome := .ret (-1), trace := [], shell := sh } := by
  simp [execute_internal_command, h]

/-- For a built-in name: a returned status is 0 with the body of `quit` run,
or 1 otherwise; and when the body of `quit` was run the status is 0. -/
theorem execute_internal_command_builtin (sys : Sys) (sh : ShellState) (name : List Char)
    (rest : List (List Char)) (input_file output_file : Option (List Char))
    (background : Bool) (h : is_internal name = true) :
    (∀ v, (execute_internal_command sys sh (name :: rest) input_file output_file
              background).outcome = .ret v →
        (v = 0 ∧ name = "quit".toList
          ∧ Event.body .quit [] ∈ (execute_internal_command sys sh (name :: rest) input_file
              output_file background).trace)
        ∨ (v = 1 ∧ ¬ (name = "quit".toList
          ∧ Event.body .quit [] ∈ (execute_internal_command sys sh (name :: rest) input_file
              output_file background).trace)))
    ∧ (name = "quit".toList
        ∧ Event.body .quit [] ∈ (execute_internal_command sys sh (name :: rest) input_file
            output_file background).trace →
        (execute_internal_command sys sh (name :: rest) input_file output_file
            background).outcome = .ret 0) := by
  unfold execute_internal_command
  simp only [h, Bool.not_true, Bool.false_eq_true, if_false]
  rcases h1 : redirect_input sys input_file with ⟨t1, _ | saved_stdin⟩
  · -- the input target was not opened or not duplicated
    have hno : Event.body .quit [] ∉ t1 := by
      intro hmem
      have := redirect_input_no_body sys input_file _ (by rw [h1]; exact hmem)
      exact this _ _ rfl
    simp only
    refine ⟨?_, ?_⟩
    · intro v hv
      cases hv
      exact Or.inr ⟨rfl, fun hq => hno hq.2⟩
    · intro hq; exact absurd hq.2 hno
  · simp only
    rcases h2 : redirect_output sys output_file saved_stdin with ⟨t2, _ | saved_stdout⟩
    · have hno1 : Event.body .quit [] ∉ t1 := by
        intro hmem
        have := redirect_input_no_body sys input_file _ (by rw [h1]; exact hmem)
        exact this _ _ rfl
      have hno2 : Event.body .quit [] ∉ t2 := by
        intro hmem
        have := redirect_output_no_body sys output_file saved_stdin _ (by rw [h2]; exact hmem)
        exact this _ _ rfl
      have hno : Event.body .quit [] ∉ t1 ++ t2 := by
        simp [hno1, hno2]
      simp only
      refine ⟨?_, ?_⟩
      · intro v hv
        cases hv
        exact Or.inr ⟨rfl, fun hq => hno hq.2⟩
      · intro hq; exact absurd hq.2 hno
    · simp only
      have hb := run_body_ret sys sh (name :: rest) name background saved_stdin saved_stdout h
      refine ⟨?_, ?_⟩
      · intro v hv
        cases ho : (run_body sys sh (name :: rest) name background saved_stdin
            saved_stdout).outcome with
        | ret result =>
          rw [ho] at hv
          simp only at hv
          cases hv
          rcases hb _ ho with ⟨h0, hq, htr⟩ | ⟨h1', hq⟩
          · left
            refine ⟨h0, hq, ?_⟩
            simp [htr]
          · right
            exact ⟨h1', fun hh => hq hh.1⟩
        | child_end => rw [ho] at hv; cases hv
        | shell_exit c => rw [ho] at hv; cases hv
        | fault => rw [ho] at hv; cases hv
        | blocked => rw [ho] at hv; cases hv
      · rintro ⟨hq, _⟩
        subst hq
        rw [run_body_quit]
        rfl

/-- C6: `execute_internal_command` returns -1 exactly when `args[0]` is none
of the nine built-in names, and then does nothing (no redirection); for a
built-in name a returned status is 0 exactly when the name is `quit` and its
body was run, and 1 otherwise.  `cmd_quit` returns 0 and every other body
returns 1 whenever it returns. -/
theorem execute_internal_command_status (sys : Sys) (sh : ShellState) (name : List Char)
    (rest : List (List Char)) (input_file output_file : Option (List Char))
    (background : Bool) :
    ((execute_internal_command sys sh (name :: rest) input_file output_file
        background).outcome = .ret (-1) ↔ name ∉ builtin_names)
    ∧ (name ∉ builtin_names →
        execute_internal_command sys sh (name :: rest) input_file output_file background
          = { outcome := .ret (-1), trace := [], shell := sh })
    ∧ (name ∈ builtin_names →
        ((execute_internal_command sys sh (name :: rest) input_file output_file
            background).outcome = .ret 0
          ↔ name = "quit".toList
            ∧ Event.body .quit [] ∈ (execute_internal_command sys sh (name :: rest) input_file
                output_file background).trace)
        ∧ ∀ v, (execute_internal_command sys sh (name :: rest) input_file output_file
            background).outcome = .ret v → v = 0 ∨ v = 1)
    ∧ (cmd_quit sh).outcome = .ret 0
    ∧ (∀ args, (cmd_cd sys sh args).outcome = .ret 1)
    ∧ (∀ args, (cmd_echo sh args).outcome = .ret 1)
    ∧ (cmd_clr sh).outcome = .ret 1
    ∧ (cmd_help sh).outcome = .ret 1
    ∧ (∀ args, (cmd_searchconfig sh args).outcome = .ret 1)
    ∧ (∀ v, (cmd_start_monitor sys sh).outcome = .ret v → v = 1)
    ∧ (cmd_stop_monitor sys sh).outcome = .ret 1
    ∧ (∀ option v, (cmd_status_monitor sys sh option).outcome = .ret v → v = 1) := by
  have hother : name ∉ builtin_names →
      execute_internal_command sys sh (name :: rest) input_file output_file background
        = { outcome := .ret (-1), trace := [], shell := sh } := by
    intro hn
    apply execute_internal_command_other
    rw [← is_internal_iff] at hn
    simpa using hn
  refine ⟨?_, hother, ?_, rfl, cmd_cd_outcome sys sh, fun _ => rfl, rfl, rfl,
    cmd_searchconfig_outcome sh, cmd_start_monitor_outcome sys sh,
    cmd_stop_monitor_outcome sys sh, cmd_status_monitor_outcome sys sh⟩
  · constructor
    · intro hv hmem
      have hb := (execute_internal_command_builtin sys sh name rest input_file output_file
        background ((is_internal_iff name).mpr hmem)).1 (-1) hv
      rcases hb with ⟨h0, _⟩ | ⟨h1, _⟩
      · exact absurd h0 (by decide)
      · exact absurd h1 (by decide)
    · intro hn
      rw [hother hn]
  · intro hmem
    have hb := execute_internal_command_builtin sys sh name rest input_file output_file
      background ((is_internal_iff name).mpr hmem)
    refine ⟨⟨?_, hb.2⟩, ?_⟩
    · intro h0
      rcases hb.1 0 h0 with ⟨_, hq, htr⟩ | ⟨h1, _⟩
      · exact ⟨hq, htr⟩
      · exact absurd h1 (by decide)
    · intro v hv
      rcases hb.1 v hv with ⟨h0, _⟩ | ⟨h1, _⟩
      · exact Or.inl h0
      · exact Or.inr h1

/-- C6 at `quit` (a built-in: the status is 0 and the body ran) and at `ls`
(no built-in: the status is -1 and nothing was done). -/
theorem execute_internal_command_status_witness :
    ("quit".toList ∈ builtin_names
      ∧ (execute_internal_command Sys.example (ShellState.initial [] []) ["quit".toList]
          none none false).outcome = .ret 0)
    ∧ ("ls".toList ∉ builtin_names
      ∧ execute_internal_command Sys.example (ShellState.initial [] []) ["ls".toList]
          (some "in".toList) none false
        = { outcome := .ret (-1), trace := [], shell := ShellState.initial [] [] }) :=
  ⟨⟨by decide,
    (((execute_internal_command_status Sys.example (ShellState.initial [] []) "quit".toList []
      none none false).2.2.1 (by decide)).1).mpr ⟨rfl, by decide⟩⟩,
   ⟨by decide,
    (execute_internal_command_status Sys.example (ShellState.initial [] []) "ls".toList []
      (some "in".toList) none false).2.1 (by decide)⟩⟩

/-! ### C7: the status of `execute_command` -/

theorem execute_external_command_ret (sys : Sys) (sh : ShellState) (args : List (List Char))
    (background : Bool) (command : List Char) (input_file output_file : Option (List Char))
    (v : Int)
    (h : (execute_external_command sys sh args background command input_file
            output_file).outcome = .ret v) : v = 1 := by
  unfold execute_external_command at h
  simp only at h
  split_ifs at h <;> (try split at h) <;> cases h <;> rfl

theorem pipe_child_not_ret (sys : Sys) (sh : ShellState) (commands : List (List Char))
    (n i : Nat) (in_fd : Int) (fd : Int × Int) (v : Int) :
    (pipe_child sys sh commands n i in_fd fd).outcome ≠ .ret v := by
  intro h
  unfold pipe_child at h
  simp only at h
  split_ifs at h <;> (try split at h) <;> (try split at h) <;> (try split_ifs at h) <;> cases h

theorem launch_loop_not_ret (sys : Sys) (sh : ShellState) (commands : List (List Char))
    (n k i : Nat) (in_fd : Int) (pids : List Int) (v : Int) :
    (launch_loop sys sh commands n k i in_fd pids).outcome ≠ some (.ret v) := by
  induction k generalizing i in_fd pids with
  | zero => simp [launch_loop]
  | succ k ih =>
    intro h
    unfold launch_loop at h
    simp only at h
    split at h
    · cases h
    · by_cases h1 : sys.fork_at i = -1
      · rw [if_pos h1] at h; cases h
      · rw [if_neg h1] at h
        by_cases h2 : sys.fork_at i = 0
        · rw [if_pos h2] at h
          simp only [Option.some.injEq] at h
          exact pipe_child_not_ret _ _ _ _ _ _ _ _ h
        · rw [if_neg h2] at h
          exact ih _ _ _ h

theorem execute_piped_commands_ret (sys : Sys) (sh : ShellState) (commands : List (List Char))
    (n : Nat) (v : Int)
    (h : (execute_piped_commands sys sh commands n).outcome = .ret v) : v = 1 := by
  unfold execute_piped_commands at h
  by_cases hm : (!sys.malloc_pids) = true
  · rw [if_pos hm] at h; cases h
  · rw [if_neg hm] at h
    simp only at h
    split at h
    · next o ho =>
      simp only at h
      subst h
      exact absurd ho (launch_loop_not_ret _ _ _ _ _ _ _ _ _)
    · split_ifs at h
      all_goals (cases h; rfl)

theorem strip_background_head (argv : List (List Char)) (name : List Char)
    (rest : List (List Char)) (h : (strip_background argv).1 = name :: rest) :
    argv.head? = some name := by
  cases argv with
  | nil => simp [strip_background] at h
  | cons a tail =>
    simp only [strip_background] at h
    split_ifs at h
    simp only [List.cons.injEq] at h
    simp [h.1]

theorem dispatch_ret (sys : Sys) (sh : ShellState) (args : List (List Char))
    (background : Bool) (command : List Char) (input_file output_file : Option (List Char))
    (v : Int)
    (h : (dispatch sys sh args background command input_file output_file).outcome = .ret v) :
    v = 1 ∨ (v = 0 ∧ args.head? = some "quit".toList) := by
  unfold dispatch at h
  cases args with
  | nil =>
    simp only [execute_internal_command] at h
    cases h
  | cons name rest =>
    by_cases hint : is_internal name = true
    · have hb := (execute_internal_command_builtin sys sh name rest input_file output_file
        background hint).1
      simp only at h
      cases ho : (execute_internal_command sys sh (name :: rest) input_file output_file
          background).outcome with
      | ret status =>
        rw [ho] at h
        simp only at h
        rcases hb status ho with ⟨h0, hq, _⟩ | ⟨h1, _⟩
        · subst h0
          simp only [ne_eq, show ((0 : Int) = -1) = False by decide, not_false_eq_true, if_true]
            at h
          rw [ho] at h
          cases h
          right
          exact ⟨rfl, by simp [hq]⟩
        · subst h1
          simp only [ne_eq, show ((1 : Int) = -1) = False by decide, not_false_eq_true, if_true]
            at h
          rw [ho] at h
          cases h
          left; rfl
      | child_end => rw [ho] at h; simp only at h; rw [ho] at h; cases h
      | shell_exit c => rw [ho] at h; simp only at h; rw [ho] at h; cases h
      | fault => rw [ho] at h; simp only at h; rw [ho] at h; cases h
      | blocked => rw [ho] at h; simp only at h; rw [ho] at h; cases h
    · simp only [Bool.not_eq_true] at hint
      rw [execute_internal_command_other sys sh name rest input_file output_file background
        hint] at h
      simp only [ne_eq, not_true_eq_false, if_false] at h
      left
      exact execute_external_command_ret _ _ _ _ _ _ _ _ h

/-- C7: whenever `execute_command` returns, the status is 1, unless the line
holds no `|` and its first argv token is `quit`, in which case it is 0 or 1. -/
theorem execute_command_status (sys : Sys) (sh : ShellState) (line : List Char) (v : Int)
    (h : (execute_command sys sh line).outcome = .ret v) :
    v = 1 ∨ (v = 0 ∧ '|' ∉ line
      ∧ (parse_command line).argv.head? = some "quit".toList) := by
  unfold execute_command at h
  by_cases hp : '|' ∈ line
  · simp only [hp, if_true] at h
    left
    exact execute_piped_commands_ret _ _ _ _ _ h
  · simp only [hp, if_false] at h
    unfold execute_single_command at h
    simp only at h
    cases hargv : (parse_command line).argv with
    | nil =>
      rw [hargv] at h
      simp only at h
      cases h
      left; rfl
    | cons a rest =>
      rw [hargv] at h
      simp only at h
      rcases dispatch_ret _ _ _ _ _ _ _ _ h with h1 | ⟨h0, hq⟩
      · left; exact h1
      · right
        refine ⟨h0, hp, ?_⟩
        cases hs : (strip_background (a :: rest)).1 with
        | nil => rw [hs] at hq; simp at hq
        | cons name tail =>
          rw [hs] at hq
          simp only [List.head?_cons, Option.some.injEq] at hq
          subst hq
          exact strip_background_head _ _ _ hs

/-- C7 at the lines `quit`, `ls` and `quit | cat`, all calls succeeding:
`quit` stops the shell, the other two lines do not. -/
theorem execute_command_status_witness :
    (execute_command Sys.example (ShellState.initial [] []) "quit".toList).outcome = .ret 0
    ∧ ((0 : Int) = 1 ∨ ((0 : Int) = 0 ∧ '|' ∉ "quit".toList
        ∧ (parse_command "quit".toList).argv.head? = some "quit".toList))
    ∧ (execute_command Sys.example (ShellState.initial [] []) "ls".toList).outcome = .ret 1
    ∧ (execute_command Sys.example (ShellState.initial [] []) "quit | cat".toList).outcome
        = .ret 1 :=
  ⟨by decide,
    execute_command_status Sys.example (ShellState.initial [] []) "quit".toList 0 (by decide),
    by decide, by decide⟩

/-! ### C11: the redirection targets of a stage without quotes -/

theorem last_target_append (op : Char) (w p : List Char) (h : op ∉ w) :
    last_target op (w ++ p) = last_target op p := by
  induction w with
  | nil => rfl
  | cons c w ih =>
    have hc : c ≠ op := fun e => h (by simp [e])
    have hw : op ∉ w := fun e => h (by simp [e])
    rw [List.cons_append, last_target, ih hw, if_neg hc]
    cases last_target op p <;> rfl

theorem last_target_none (op : Char) (s : List Char) (h : op ∉ s) :
    last_target op s = none := by
  have := last_target_append op s [] h
  simpa [last_target] using this

theorem last_target_last (op : Char) (pre post : List Char) (h : op ∉ post) :
    last_target op (pre ++ op :: post) = some (word_after post) := by
  induction pre with
  | nil => simp [last_target, last_target_none op post h]
  | cons c pre ih => simp [last_target, ih]

theorem last_target_cons (op c : Char) (cs : List Char) :
    last_target op (c :: cs)
      = or_else (last_target op cs) (if c = op then some (word_after cs) else none) := by
  rw [last_target]
  cases last_target op cs <;> rfl

theorem or_else_assoc (a b c : Option (List Char)) :
    or_else (or_else a b) c = or_else a (or_else b c) := by
  cases a <;> rfl

theorem op_not_blank {op : Char} (hop : op = '<' ∨ op = '>') (w : List Char)
    (hw : ∀ c ∈ w, is_blank c = true) : op ∉ w := by
  intro h
  have := hw op h
  rcases hop with rfl | rfl <;> exact absurd this (by decide)

theorem op_not_word {op : Char} (hop : op = '<' ∨ op = '>') (w : List Char)
    (hw : ∀ c ∈ w, is_word_char c = true) : op ∉ w := by
  intro h
  have := hw op h
  rcases hop with rfl | rfl <;> exact absurd this (by decide)

theorem last_target_dropWhile_blank {op : Char} (hop : op = '<' ∨ op = '>') (s : List Char) :
    last_target op (s.dropWhile is_blank) = last_target op s := by
  conv_rhs => rw [← List.takeWhile_append_dropWhile is_blank s]
  rw [last_target_append op _ _ (op_not_blank hop _ (fun c hc => List.mem_takeWhile_imp hc))]

theorem last_target_dropWhile_word {op : Char} (hop : op = '<' ∨ op = '>') (s : List Char) :
    last_target op (s.dropWhile is_word_char) = last_target op s := by
  conv_rhs => rw [← List.takeWhile_append_dropWhile is_word_char s]
  rw [last_target_append op _ _ (op_not_word hop _ (fun c hc => List.mem_takeWhile_imp hc))]

theorem add_token_files (st : ParseState) (tok ptr : List Char) :
    (add_token st tok ptr).input_file = st.input_file
    ∧ (add_token st tok ptr).output_file = st.output_file := by
  unfold add_token
  split
  · exact ⟨rfl, rfl⟩
  · split_ifs <;> exact ⟨rfl, rfl⟩

theorem add_token_target (st : ParseState) (tok ptr : List Char) (op : Char) :
    (add_token st tok ptr).target op = st.target op := by
  unfold ParseState.target
  rw [(add_token_files st tok ptr).1, (add_token_files st tok ptr).2]

theorem add_token_ptr_cases (st : ParseState) (tok ptr : List Char) :
    (add_token st tok ptr).ptr = ptr
    ∨ ∃ d rest, ptr = d :: rest ∧ is_blank d = true ∧ (add_token st tok ptr).ptr = rest := by
  unfold add_token
  split
  · left; rfl
  · next d rest =>
    split_ifs with h1 h2
    · left; rfl
    · right; exact ⟨d, rest, rfl, h2, rfl⟩
    · left; rfl

/-- The targets of a stage without quotes, from any state of the loop. -/
theorem parse_run_target (n : Nat) (s : List Char) (hn : s.length ≤ n)
    (hs : SQ ∉ s ∧ DQ ∉ s) (op : Char) (hop : op = '<' ∨ op = '>')
    (st : ParseState) (hp : st.ptr = s) :
    (parse_run st).target op = or_else (last_target op s) (st.target op) := by
  induction n generalizing s st with
  | zero =>
    have : s = [] := List.length_eq_zero.mp (Nat.le_zero.mp hn)
    subst this
    rw [parse_run_nil st hp]
    rfl
  | succ n ih =>
    by_cases hnil : s = []
    · subst hnil
      rw [parse_run_nil st hp]
      rfl
    · have hne : st.ptr ≠ [] := by rw [hp]; exact hnil
      rw [parse_run_step st hne, ← last_target_dropWhile_blank hop s]
      have hsuf : s.dropWhile is_blank <:+ s := List.dropWhile_suffix _
      unfold parse_iter
      rw [hp]
      cases hd : s.dropWhile is_blank with
      | nil =>
        simp only
        rw [parse_run_nil _ rfl]
        rfl
      | cons c rest =>
        rw [hd] at hsuf
        have hrest := dropWhile_cons_length hd
        have hb := dropWhile_head_not hd
        have hmem : ∀ x ∈ c :: rest, x ∈ s := fun x hx => hsuf.subset hx
        have hcs : c ≠ SQ := by rintro rfl; exact hs.1 (hmem _ (by simp))
        have hcd : c ≠ DQ := by rintro rfl; exact hs.2 (hmem _ (by simp))
        simp only
        by_cases hr : is_redir c = true
        · -- a redirect operator: its word becomes the target
          simp only [hr, if_true]
          have hp2 : last_target op ((rest.dropWhile is_blank).dropWhile is_word_char)
              = last_target op rest := by
            rw [last_target_dropWhile_word hop, last_target_dropWhile_blank hop]
          have hlen : ((rest.dropWhile is_blank).dropWhile is_word_char).length ≤ n := by
            have h1 := length_dropWhile_le is_word_char (rest.dropWhile is_blank)
            have h2 := length_dropWhile_le is_blank rest
            omega
          have hq : SQ ∉ (rest.dropWhile is_blank).dropWhile is_word_char
              ∧ DQ ∉ (rest.dropWhile is_blank).dropWhile is_word_char := by
            have hsub : ∀ x ∈ (rest.dropWhile is_blank).dropWhile is_word_char, x ∈ s :=
              fun x hx => hmem x (List.mem_cons_of_mem _
                ((List.dropWhile_subset _) ((List.dropWhile_subset _) hx)))
            exact ⟨fun h => hs.1 (hsub _ h), fun h => hs.2 (hsub _ h)⟩
          have hc2 : c = '<' ∨ c = '>' := by
            simpa [is_redir] using hr
          rw [last_target_cons, ← hp2, or_else_assoc]
          rcases hc2 with rfl | rfl
          · rw [if_pos rfl, ih _ hlen hq _ rfl]
            congr 1
            rcases hop with rfl | rfl
            · simp [or_else, ParseState.target, word_after]
            · have h1 : ¬ ('<' : Char) = '>' := by decide
              have h2 : ¬ ('>' : Char) = '<' := by decide
              simp [or_else, ParseState.target, h1, h2]
          · rw [if_neg (by decide : ¬ ('>' : Char) = '<'), ih _ hlen hq _ rfl]
            congr 1
            rcases hop with rfl | rfl
            · have h1 : ¬ ('>' : Char) = '<' := by decide
              simp [or_else, ParseState.target, h1]
            · have h2 : ¬ ('>' : Char) = '<' := by decide
              simp [or_else, ParseState.target, word_after, h2]
        · -- a bareword: the targets stay
          simp only [Bool.not_eq_true] at hr
          simp only [hr, Bool.false_eq_true, if_false, hcs, hcd]
          have hw := is_word_char_of_not hb hr
          have hp2len : ((c :: rest).dropWhile is_word_char).length ≤ rest.length := by
            rw [List.dropWhile_cons_of_pos hw]; exact length_dropWhile_le _ _
          have hp2sub : ∀ x ∈ (c :: rest).dropWhile is_word_char, x ∈ s := fun x hx =>
            hmem x ((List.dropWhile_subset _) hx)
          have hlast : last_target op (c :: rest)
              = last_target op ((c :: rest).dropWhile is_word_char) :=
            (last_target_dropWhile_word hop _).symm
          rw [hlast]
          set tok := (c :: rest).takeWhile is_word_char
          set p2 := (c :: rest).dropWhile is_word_char
          rcases add_token_ptr_cases st tok p2 with hsame | ⟨d, rest2, hd2, hbd, hptr⟩
          · rw [ih p2 (by omega) ⟨fun h => hs.1 (hp2sub _ h), fun h => hs.2 (hp2sub _ h)⟩
              _ hsame, add_token_target]
          · have hlen2 : rest2.length ≤ n := by
              rw [hd2] at hp2len; simp at hp2len; omega
            have hsub2 : ∀ x ∈ rest2, x ∈ s := fun x hx =>
              hp2sub x (by rw [hd2]; exact List.mem_cons_of_mem _ hx)
            rw [ih rest2 hlen2 ⟨fun h => hs.1 (hsub2 _ h), fun h => hs.2 (hsub2 _ h)⟩
              _ hptr, add_token_target, hd2]
            have : last_target op (d :: rest2) = last_target op rest2 :=
              last_target_append op [d] rest2
                (op_not_blank hop [d] (by intro x hx; simp at hx; rw [hx]; exact hbd))
            rw [this]

/-- C11: for a stage without quote characters, if it holds a `<` the input
target is the (possibly empty) word that follows the last `<`, and if it
holds none the input target is absent; the same for `>` and the output
target, each direction independently of the other. -/
theorem parse_command_targets (s : List Char) (hs : SQ ∉ s ∧ DQ ∉ s) :
    (∀ pre post, s = pre ++ '<' :: post → '<' ∉ post →
        (parse_command s).input_file = some (word_after post))
    ∧ ('<' ∉ s → (parse_command s).input_file = none)
    ∧ (∀ pre post, s = pre ++ '>' :: post → '>' ∉ post →
        (parse_command s).output_file = some (word_after post))
    ∧ ('>' ∉ s → (parse_command s).output_file = none) := by
  have hin := parse_run_target s.length s le_rfl hs '<' (Or.inl rfl) (parse_init s) rfl
  have hout := parse_run_target s.length s le_rfl hs '>' (Or.inr rfl) (parse_init s) rfl
  have hin2 : (parse_command s).input_file = or_else (last_target '<' s) none := by
    rw [parse_command_eq]; simpa [ParseState.target, parse_init] using hin
  have hout2 : (parse_command s).output_file = or_else (last_target '>' s) none := by
    rw [parse_command_eq]; simpa [ParseState.target, parse_init] using hout
  refine ⟨?_, ?_, ?_, ?_⟩
  · intro pre post hsp hpost
    rw [hin2, hsp, last_target_last _ _ _ hpost]; rfl
  · intro h
    rw [hin2, last_target_none _ _ h]; rfl
  · intro pre post hsp hpost
    rw [hout2, hsp, last_target_last _ _ _ hpost]; rfl
  · intro h
    rw [hout2, last_target_none _ _ h]; rfl

/-- C11 at `sort < a < b.txt`: the input target is `b.txt`, the word after
the last `<`, and the output target is absent. -/
theorem parse_command_targets_witness :
    (SQ ∉ "sort < a < b.txt".toList ∧ DQ ∉ "sort < a < b.txt".toList)
    ∧ (parse_command "sort < a < b.txt".toList).input_file = some "b.txt".toList
    ∧ (parse_command "sort < a < b.txt".toList).output_file = none :=
  ⟨by decide,
    (parse_command_targets "sort < a < b.txt".toList (by decide)).1
      "sort < a ".toList " b.txt".toList (by decide) (by decide),
    (parse_command_targets "sort < a < b.txt".toList (by decide)).2.2.2 (by decide)⟩

/-! ### C12: a quote that is never closed -/

theorem scan_quoted_open (st : ParseState) (q : Char) (rest : List Char) (hq : q ∉ rest) :
    scan_quoted st q rest = { st with ptr := [], tokens := st.tokens ++ [rest] } := by
  have hall : ∀ c ∈ rest, (fun c => c != q) c = true := by
    intro c hc
    simp only [bne_iff_ne, ne_eq]
    rintro rfl
    exact hq hc
  have h1 : rest.takeWhile (fun c => c != q) = rest := List.takeWhile_eq_self_iff.mpr hall
  have h2 : rest.dropWhile (fun c => c != q) = [] := List.dropWhile_eq_nil_iff.mpr hall
  unfold scan_quoted
  simp only [h1, h2]
  rfl

/-- A pass of the loop that starts (after blanks) on a quote character with no
partner stores the whole rest of the string as one token and ends the scan. -/
theorem parse_iter_unterminated (st : ParseState) (q : Char) (rest : List Char)
    (hq : q = SQ ∨ q = DQ) (hrest : q ∉ rest)
    (hp : st.ptr.dropWhile is_blank = q :: rest) :
    parse_iter st = { st with ptr := [], tokens := st.tokens ++ [rest] } := by
  unfold parse_iter
  rw [hp]
  rcases hq with rfl | rfl
  · have h1 : is_redir SQ = false := by decide
    simp only [h1, Bool.false_eq_true, if_false, if_true]
    exact scan_quoted_open st SQ rest hrest
  · have h1 : is_redir DQ = false := by decide
    have h2 : DQ ≠ SQ := by decide
    simp only [h1, Bool.false_eq_true, if_false, h2, if_true]
    exact scan_quoted_open st DQ rest hrest

/-- C12: when a pass of the scanning loop starts (after blanks) on a quote
character that does not occur again, `parse_command` returns: the tokens
stored so far followed by one last token, the whole rest of the string after
that quote, verbatim; the redirection targets are the ones found before the
quote, so nothing of the rest is taken as a redirection or as another token. -/
theorem parse_command_unterminated (command : List Char) (k : Nat) (q : Char)
    (rest : List Char) (hq : q = SQ ∨ q = DQ) (hrest : q ∉ rest)
    (hp : (parse_iter^[k] (parse_init command)).ptr.dropWhile is_blank = q :: rest) :
    parse_command command
      = { argv := (parse_iter^[k] (parse_init command)).tokens ++ [rest],
          input_file := (parse_iter^[k] (parse_init command)).input_file,
          output_file := (parse_iter^[k] (parse_init command)).output_file } := by
  rw [parse_command_eq, ← parse_run_iterate k, ← parse_run_iter,
    parse_iter_unterminated _ q rest hq hrest hp, parse_run_nil _ rfl]

/-- C12 at `sort < in "a < b >c`: argv is [sort, a < b >c], the input target
is `in`, and there is no output target. -/
theorem parse_command_unterminated_witness :
    (DQ = SQ ∨ DQ = DQ) ∧ DQ ∉ "a < b >c".toList
    ∧ (parse_iter^[2] (parse_init ("sort < in ".toList ++ DQ :: "a < b >c".toList))).ptr.dropWhile
        is_blank = DQ :: "a < b >c".toList
    ∧ parse_command ("sort < in ".toList ++ DQ :: "a < b >c".toList)
      = { argv := ["sort".toList, "a < b >c".toList],
          input_file := some "in".toList, output_file := none } :=
  ⟨Or.inr rfl, by decide, by decide,
    parse_command_unterminated ("sort < in ".toList ++ DQ :: "a < b >c".toList) 2 DQ
      "a < b >c".toList (Or.inr rfl) (by decide) (by decide)⟩

/-! ### C13: the job ids that `add_job` returns -/

/-- An `int` that holds a value of its range keeps it. -/
theorem wrap_int_fits (x : Int) (h1 : -2147483648 ≤ x) (h2 : x ≤ 2147483647) :
    wrap_int x = x := by
  unfold wrap_int
  omega

/-- The three ways `add_job` ends. -/
theorem add_job_cases (sys : Sys) (pid : Int) (command : List Char) (sh : ShellState) :
    (sys.malloc_job = false ∧ add_job sys pid command sh = (-1, sh))
    ∨ (sys.malloc_job = true ∧ sys.strdup_job = false
        ∧ add_job sys pid command sh
          = (-1, { sh with next_job_id := wrap_int (sh.next_job_id + 1) }))
    ∨ (sys.malloc_job = true ∧ sys.strdup_job = true
        ∧ add_job sys pid command sh
          = (sh.next_job_id,
             { sh with next_job_id := wrap_int (sh.next_job_id + 1),
                       job_list := { job_id := sh.next_job_id, pid := pid, command := command }
                         :: sh.job_list })) := by
  unfold add_job
  cases hm : sys.malloc_job <;> cases hs : sys.strdup_job <;> simp

/-- One operation on a registry whose counter is positive and, for an
`add_job` call, below the largest `int`: either no id is returned and the
counter stays, or no id is returned and a failing `strdup` has taken one, or
the counter's value is returned and the counter moves on. -/
theorem RegistryOp.run_cases (op : RegistryOp) (sh : ShellState) (h : 0 < sh.next_job_id)
    (hb : op.is_add = true → sh.next_job_id < 2147483647) :
    ((op.run sh).2 = none ∧ (op.run sh).1.next_job_id = sh.next_job_id)
    ∨ ((op.run sh).2 = none ∧ (op.run sh).1.next_job_id = sh.next_job_id + 1
        ∧ op.fails_in_strdup = true ∧ op.is_add = true)
    ∨ ((op.run sh).2 = some sh.next_job_id
        ∧ (op.run sh).1.next_job_id = sh.next_job_id + 1 ∧ op.is_add = true) := by
  cases op with
  | add_job pid command malloc_ok strdup_ok =>
    have hw : wrap_int (sh.next_job_id + 1) = sh.next_job_id + 1 := by
      have := hb rfl
      exact wrap_int_fits _ (by omega) (by omega)
    simp only [RegistryOp.run, RegistryOp.fails_in_strdup]
    rcases add_job_cases (Sys.example.with_alloc malloc_ok strdup_ok) pid command sh with
      ⟨_, h1⟩ | ⟨hm, hs, h1⟩ | ⟨_, _, h1⟩
    · left; rw [h1]; simp
    · right; left
      rw [h1]
      simp only [Sys.with_alloc] at hm hs
      simp [hm, hs, hw, RegistryOp.is_add]
    · right; right
      rw [h1]
      have : sh.next_job_id ≠ -1 := by omega
      simp [this, hw, RegistryOp.is_add]
  | remove_job pid => left; simp [RegistryOp.run, Shell.remove_job]
  | cleanup_shell => left; simp [RegistryOp.run, Shell.cleanup_shell]

theorem countP_is_add_cons (op : RegistryOp) (ops : List RegistryOp) :
    (op :: ops).countP RegistryOp.is_add
      = ops.countP RegistryOp.is_add + (if op.is_add = true then 1 else 0) := by
  rw [List.countP_cons]

/-- The ids returned by a sequence of operations, from any registry whose
counter is positive and far enough below the largest `int` for the `add_job`
calls of the sequence. -/
theorem run_ops_ids (ops : List RegistryOp) (sh : ShellState) (h : 0 < sh.next_job_id)
    (hb : sh.next_job_id + (ops.countP RegistryOp.is_add : Nat) ≤ 2147483647) :
    sh.next_job_id ≤ (run_ops sh ops).1.next_job_id
    ∧ (∀ id ∈ (run_ops sh ops).2, sh.next_job_id ≤ id ∧ id < (run_ops sh ops).1.next_job_id)
    ∧ (run_ops sh ops).2.Pairwise (fun a b => a < b)
    ∧ ((∀ op ∈ ops, op.fails_in_strdup = false) →
        (run_ops sh ops).2
          = (List.range (run_ops sh ops).2.length).map (fun (i : Nat) => sh.next_job_id + (i : Int))) := by
  induction ops generalizing sh with
  | nil => simp [run_ops]
  | cons op ops ih =>
    simp only [run_ops]
    rw [countP_is_add_cons] at hb
    have hb1 : op.is_add = true → sh.next_job_id < 2147483647 := by
      intro ha
      rw [if_pos ha] at hb
      push_cast at hb
      omega
    have hb0 : sh.next_job_id + (ops.countP RegistryOp.is_add : Nat) ≤ 2147483647 := by
      push_cast at hb
      split_ifs at hb <;> omega
    rcases RegistryOp.run_cases op sh h hb1 with ⟨h2, h1⟩ | ⟨h2, h1, hf, ha⟩ | ⟨h2, h1, ha⟩
    · obtain ⟨i1, i2, i3, i4⟩ := ih (op.run sh).1 (by omega) (by rw [h1]; exact hb0)
      rw [h2]
      simp only [List.nil_append]
      refine ⟨by omega, ?_, i3, ?_⟩
      · intro id hid
        have := i2 id hid
        omega
      · intro hall
        have := i4 (fun o ho => hall o (List.mem_cons_of_mem _ ho))
        rw [h1] at this
        exact this
    · rw [if_pos ha] at hb
      push_cast at hb
      obtain ⟨i1, i2, i3, _⟩ := ih (op.run sh).1 (by omega) (by rw [h1]; omega)
      rw [h2]
      simp only [List.nil_append]
      refine ⟨by omega, ?_, i3, ?_⟩
      · intro id hid
        have := i2 id hid
        omega
      · intro hall
        have := hall op (List.mem_cons_self _ _)
        rw [hf] at this
        exact absurd this (by simp)
    · rw [if_pos ha] at hb
      push_cast at hb
      obtain ⟨i1, i2, i3, i4⟩ := ih (op.run sh).1 (by omega) (by rw [h1]; omega)
      rw [h2]
      simp only [List.singleton_append]
      refine ⟨by omega, ?_, ?_, ?_⟩
      · intro id hid
        rcases List.mem_cons.mp hid with rfl | hid
        · omega
        · have := i2 id hid
          omega
      · exact List.pairwise_cons.mpr ⟨fun id hid => by have := i2 id hid; omega, i3⟩
      · intro hall
        have := i4 (fun o ho => hall o (List.mem_cons_of_mem _ ho))
        rw [List.length_cons, List.range_succ_eq_map, List.map_cons, List.map_map]
        conv_lhs => rw [this]
        simp only [Nat.cast_zero, add_zero, List.cons.injEq, true_and]
        apply List.map_congr_left
        intro i _
        simp only [Function.comp_apply, h1, Nat.cast_succ]
        omega

/-- The operations of two sequences run one after the other. -/
theorem run_ops_append (sh : ShellState) (a b : List RegistryOp) :
    run_ops sh (a ++ b)
      = ((run_ops (run_ops sh a).1 b).1, (run_ops sh a).2 ++ (run_ops (run_ops sh a).1 b).2) := by
  induction a generalizing sh with
  | nil => simp [run_ops]
  | cons op a ih => simp [run_ops, ih]

/-- A job launched and reaped `n` times, from a registry with no job and with
room for `n` ids below the largest `int`: the list is empty again and the
counter has advanced by `n`. -/
theorem launch_and_reap_run (pid : Int) (command : List Char) (n : Nat) (sh : ShellState)
    (hl : sh.job_list = []) (h0 : 0 < sh.next_job_id)
    (hb : sh.next_job_id + (n : Int) ≤ 2147483647) :
    (run_ops sh (launch_and_reap pid command n)).1
      = { sh with next_job_id := sh.next_job_id + (n : Int) } := by
  induction n generalizing sh with
  | zero => simp [launch_and_reap, run_ops]
  | succ n ih =>
    push_cast at hb
    have hw : wrap_int (sh.next_job_id + 1) = sh.next_job_id + 1 :=
      wrap_int_fits _ (by omega) (by omega)
    have h1 : (RegistryOp.run (RegistryOp.run sh (.add_job pid command true true)).1
        (.remove_job pid)).1 = { sh with next_job_id := sh.next_job_id + 1 } := by
      simp [RegistryOp.run, Shell.add_job, Shell.remove_job, Sys.with_alloc, remove_from,
        hw, hl]
    simp only [launch_and_reap, run_ops]
    rw [h1, ih { sh with next_job_id := sh.next_job_id + 1 } hl (by simp only []; omega)
      (by simp only []; omega)]
    simp only [Nat.cast_succ, ShellState.mk.injEq, true_and, and_true]
    omega

/-- C13 fails when the first call of `add_job` fails in `strdup`: the call
has taken the id 1, and the first id returned is 2.  It fails also where the
`int` counter wraps: after a job was launched and reaped 2147483646 times, the
next two ids returned are 2147483647 and -2147483648. -/
theorem first_job_id_not_one :
    ((run_ops (ShellState.initial [] [])
      [.add_job 10 "a".toList true false, .add_job 11 "b".toList true true]).2 = [2]
    ∧ (run_ops (ShellState.initial [] [])
      [.add_job 10 "a".toList true false, .add_job 11 "b".toList true true]).2.head?
        ≠ some 1)
    ∧ ∃ ids, (run_ops (ShellState.initial [] [])
        (launch_and_reap 10 "a".toList 2147483646
          ++ [.add_job 10 "a".toList true true, .remove_job 10,
              .add_job 10 "a".toList true true])).2
        = ids ++ [2147483647, -2147483648] := by
  refine ⟨by decide, ?_⟩
  rw [run_ops_append]
  simp only []
  rw [launch_and_reap_run 10 "a".toList 2147483646 (ShellState.initial [] []) rfl
    (by decide) (by decide)]
  exact ⟨_, congrArg _ (by decide)⟩

/-- C13 as amended: across every sequence of `add_job`, `remove_job` and
`cleanup_shell` calls from the initial registry that holds fewer than
2^31 - 1 `add_job` calls (the counter is an `int` and has not yet passed the
largest one), the ids returned by the successful `add_job` calls are positive
and strictly increasing, so no id is returned twice; and they are 1, 2, 3,
... when no `add_job` call fails in `strdup`. -/
theorem job_ids_increasing (cwd : List Char) (environ : List (List Char × List Char))
    (ops : List RegistryOp) (hb : ops.countP RegistryOp.is_add < 2147483647) :
    (run_ops (ShellState.initial cwd environ) ops).2.Pairwise (fun a b => a < b)
    ∧ (run_ops (ShellState.initial cwd environ) ops).2.Nodup
    ∧ (∀ id ∈ (run_ops (ShellState.initial cwd environ) ops).2, 0 < id)
    ∧ ((∀ op ∈ ops, op.fails_in_strdup = false) →
        (run_ops (ShellState.initial cwd environ) ops).2
          = (List.range (run_ops (ShellState.initial cwd environ) ops).2.length).map
              (fun (i : Nat) => 1 + (i : Int))) := by
  obtain ⟨_, h2, h3, h4⟩ :=
    run_ops_ids ops (ShellState.initial cwd environ) (by simp [ShellState.initial])
      (by simp only [ShellState.initial]; omega)
  refine ⟨h3, ?_, ?_, h4⟩
  · exact h3.imp (fun hab => ne_of_lt hab)
  · intro id hid
    have := (h2 id hid).1
    simp only [ShellState.initial] at this
    omega

/-- C13 as amended, at a sequence with removals and a failing `malloc`: the
ids returned are 1, 2, 3. -/
theorem job_ids_increasing_witness :
    ([RegistryOp.add_job 10 "a".toList true true, .remove_job 10,
        .add_job 11 "b".toList true true, .cleanup_shell,
        .add_job 11 "b".toList false true,
        .add_job 12 "c".toList true true].countP RegistryOp.is_add < 2147483647)
    ∧ (∀ op ∈ [RegistryOp.add_job 10 "a".toList true true, .remove_job 10,
        .add_job 11 "b".toList true true, .cleanup_shell,
        .add_job 11 "b".toList false true, .add_job 12 "c".toList true true],
      op.fails_in_strdup = false)
    ∧ (run_ops (ShellState.initial [] [])
        [RegistryOp.add_job 10 "a".toList true true, .remove_job 10,
          .add_job 11 "b".toList true true, .cleanup_shell,
          .add_job 11 "b".toList false true, .add_job 12 "c".toList true true]).2 = [1, 2, 3] :=
  ⟨by decide, by decide,
    ((job_ids_increasing [] []
      [RegistryOp.add_job 10 "a".toList true true, .remove_job 10,
        .add_job 11 "b".toList true true, .cleanup_shell,
        .add_job 11 "b".toList false true, .add_job 12 "c".toList true true]
      (by decide)).2.2.2
      (by decide)).trans (by decide)⟩

/-! ### C14: `remove_job` -/

theorem remove_from_absent (pid : Int) (l : List Job) (h : ∀ j ∈ l, j.pid ≠ pid) :
    remove_from pid l = l := by
  induction l with
  | nil => rfl
  | cons j rest ih =>
    have hj : j.pid ≠ pid := h j (by simp)
    simp only [remove_from, hj, if_false]
    rw [ih (fun x hx => h x (by simp [hx]))]

theorem remove_from_first (pid : Int) (pre : List Job) (j : Job) (post : List Job)
    (hj : j.pid = pid) (hpre : ∀ x ∈ pre, x.pid ≠ pid) :
    remove_from pid (pre ++ j :: post) = pre ++ post := by
  induction pre with
  | nil => simp [remove_from, hj]
  | cons x pre ih =>
    have hx : x.pid ≠ pid := hpre x (by simp)
    rw [List.cons_append, remove_from, if_neg hx, ih (fun y hy => hpre y (by simp [hy]))]
    rfl

/-- C14: `remove_job(pid)` leaves the registry as it is when no job has that
pid; otherwise it unlinks exactly one job, the first one with that pid from
the head of the list (where `add_job` links the newest job), and keeps every
other job unchanged and in the same order.  The job-id counter and the other
globals are not changed. -/
theorem remove_job_spec (pid : Int) (sh : ShellState) :
    ((∀ j ∈ sh.job_list, j.pid ≠ pid) → remove_job pid sh = sh)
    ∧ (∀ pre j post, sh.job_list = pre ++ j :: post → j.pid = pid →
        (∀ x ∈ pre, x.pid ≠ pid) → (remove_job pid sh).job_list = pre ++ post)
    ∧ (remove_job pid sh).next_job_id = sh.next_job_id
    ∧ (remove_job pid sh).foreground_pid = sh.foreground_pid
    ∧ (remove_job pid sh).sigchld_flag = sh.sigchld_flag := by
  refine ⟨?_, ?_, rfl, rfl, rfl⟩
  · intro h
    cases sh
    simp only [remove_job]
    rw [remove_from_absent pid _ h]
  · intro pre j post hl hj hpre
    simp only [remove_job, hl]
    exact remove_from_first pid pre j post hj hpre

/-- C14 at a registry with the jobs 3 (pid 30), 2 (pid 20), 1 (pid 30) from
the head: removing pid 30 unlinks job 3 and keeps 2 and 1; removing pid 7
changes nothing. -/
theorem remove_job_spec_witness :
    (remove_job 30 { ShellState.initial [] [] with
        job_list := [⟨3, 30, "c".toList⟩, ⟨2, 20, "b".toList⟩, ⟨1, 30, "a".toList⟩],
        next_job_id := 4 }).job_list
      = [⟨2, 20, "b".toList⟩, ⟨1, 30, "a".toList⟩]
    ∧ remove_job 7 { ShellState.initial [] [] with
        job_list := [⟨3, 30, "c".toList⟩, ⟨2, 20, "b".toList⟩, ⟨1, 30, "a".toList⟩],
        next_job_id := 4 }
      = { ShellState.initial [] [] with
        job_list := [⟨3, 30, "c".toList⟩, ⟨2, 20, "b".toList⟩, ⟨1, 30, "a".toList⟩],
        next_job_id := 4 } :=
  ⟨(remove_job_spec 30 _).2.1 [] ⟨3, 30, "c".toList⟩
      [⟨2, 20, "b".toList⟩, ⟨1, 30, "a".toList⟩] rfl rfl (by simp),
    (remove_job_spec 7 _).1 (by decide)⟩

/-! ### C15: the reap cycle -/

theorem remove_from_sublist (pid : Int) (l : List Job) : (remove_from pid l).Sublist l := by
  induction l with
  | nil => exact List.Sublist.refl _
  | cons j rest ih =>
    simp only [remove_from]
    split_ifs
    · exact List.sublist_cons_self _ _
    · exact ih.cons₂ _

theorem remove_from_keeps (pid : Int) (l : List Job) (j : Job) (hj : j ∈ l)
    (hp : j.pid ≠ pid) : j ∈ remove_from pid l := by
  induction l with
  | nil => exact absurd hj (List.not_mem_nil _)
  | cons x rest ih =>
    simp only [remove_from]
    rcases List.mem_cons.mp hj with rfl | hj
    · simp [hp]
    · split_ifs
      · exact hj
      · exact List.mem_cons_of_mem _ (ih hj)

/-- With one job per pid, no job with the removed pid is left. -/
theorem remove_from_gone (pid : Int) (l : List Job) (h : (l.map Job.pid).Nodup) :
    ∀ j ∈ remove_from pid l, j.pid ≠ pid := by
  induction l with
  | nil => simp [remove_from]
  | cons x rest ih =>
    simp only [List.map_cons, List.nodup_cons] at h
    simp only [remove_from]
    split_ifs with hx
    · intro j hj hjp
      apply h.1
      rw [hx, ← hjp]
      exact List.mem_map_of_mem _ hj
    · intro j hj
      rcases List.mem_cons.mp hj with rfl | hj
      · exact hx
      · exact ih h.2 j hj

theorem sigchld_handler_logic_calls (answers : List Int) (sh : ShellState) :
    (sigchld_handler_logic answers sh).calls
      = answers.takeWhile is_child
          ++ [(answers.dropWhile is_child).headD 0]
    ∧ (answers.dropWhile is_child).headD 0 ≤ 0 := by
  induction answers generalizing sh with
  | nil => simp [sigchld_handler_logic]
  | cons pid rest ih =>
    by_cases hp : pid > 0
    · have hd : is_child pid = true := by simp [is_child, hp]
      simp only [sigchld_handler_logic, hp, if_true, List.takeWhile_cons_of_pos hd,
        List.dropWhile_cons_of_pos hd, List.cons_append]
      exact ⟨by rw [(ih _).1], (ih sh).2⟩
    · have hd : ¬ is_child pid = true := by simp [is_child, hp]
      simp only [sigchld_handler_logic, hp, if_false, List.takeWhile_cons_of_neg hd,
        List.dropWhile_cons_of_neg hd, List.nil_append, List.headD_cons, true_and]
      omega

theorem sigchld_handler_logic_jobs (answers : List Int) (sh : ShellState) :
    (sigchld_handler_logic answers sh).shell.job_list.Sublist sh.job_list
    ∧ (∀ j ∈ sh.job_list, j.pid ∉ answers.takeWhile is_child →
        j ∈ (sigchld_handler_logic answers sh).shell.job_list)
    ∧ ((sh.job_list.map Job.pid).Nodup →
        ∀ j ∈ (sigchld_handler_logic answers sh).shell.job_list,
          j.pid ∉ answers.takeWhile is_child)
    ∧ (sigchld_handler_logic answers sh).shell.next_job_id = sh.next_job_id := by
  induction answers generalizing sh with
  | nil => simp [sigchld_handler_logic]
  | cons pid rest ih =>
    by_cases hp : pid > 0
    · have hd : is_child pid = true := by simp [is_child, hp]
      simp only [sigchld_handler_logic, hp, if_true, List.takeWhile_cons_of_pos hd]
      obtain ⟨i1, i2, i3, i4⟩ := ih (remove_job pid sh)
      refine ⟨i1.trans (remove_from_sublist pid sh.job_list), ?_, ?_, i4⟩
      · intro j hj hnot
        have h1 : j.pid ≠ pid := fun e => hnot (by simp [e])
        have h2 : j.pid ∉ rest.takeWhile is_child :=
          fun e => hnot (List.mem_cons_of_mem _ e)
        exact i2 j (remove_from_keeps pid _ j hj h1) h2
      · intro hnodup j hj hmem
        have hsub : ((remove_job pid sh).job_list.map Job.pid).Sublist
            (sh.job_list.map Job.pid) := (remove_from_sublist pid sh.job_list).map _
        rcases List.mem_cons.mp hmem with h1 | h2
        · have hin : j ∈ remove_from pid sh.job_list := i1.subset hj
          exact remove_from_gone pid _ hnodup j hin h1
        · exact i3 (hnodup.sublist hsub) j hj h2
    · have hd : ¬ is_child pid = true := by simp [is_child, hp]
      simp only [sigchld_handler_logic, hp, if_false, List.takeWhile_cons_of_neg hd]
      simp

/-- The registry of the shell holds no two jobs with one pid: `add_job` with a
pid that no job of the list has (the pid of the child just forked, which the
system gives to no other child before this one is reaped) keeps it so, and so
do `remove_job` and `cleanup_shell`. -/
theorem registry_pids_distinct (sys : Sys) (pid : Int) (command : List Char) (sh : ShellState)
    (hn : (sh.job_list.map Job.pid).Nodup) :
    ((∀ j ∈ sh.job_list, j.pid ≠ pid) →
        ((add_job sys pid command sh).2.job_list.map Job.pid).Nodup)
    ∧ ((remove_job pid sh).job_list.map Job.pid).Nodup
    ∧ ((cleanup_shell sh).job_list.map Job.pid).Nodup := by
  refine ⟨?_, hn.sublist ((remove_from_sublist pid sh.job_list).map _), by simp [cleanup_shell]⟩
  intro hfresh
  rcases add_job_cases sys pid command sh with ⟨_, h1⟩ | ⟨_, _, h1⟩ | ⟨_, _, h1⟩
  · rw [h1]; exact hn
  · rw [h1]; exact hn
  · rw [h1]
    simp only [List.map_cons, List.nodup_cons]
    refine ⟨?_, hn⟩
    intro hmem
    obtain ⟨j, hj, hjp⟩ := List.mem_map.mp hmem
    exact hfresh j hj hjp

/-- C15: in a registry in which no two jobs have the same pid (the registry
of the shell is such a one, see `registry_pids_distinct`), one reap cycle
calls the non-blocking wait until an answer is not positive; after it the
registry holds no job whose pid was reported and still holds every job with
another pid, no job is added, and again no two jobs have the same pid.  The
main loop runs the cycle after it has cleared the pending flag. -/
theorem reap_cycle (answers : List Int) (sh : ShellState)
    (hn : (sh.job_list.map Job.pid).Nodup) :
    ((sigchld_handler_logic answers sh).calls
      = answers.takeWhile is_child
          ++ [(answers.dropWhile is_child).headD 0]
      ∧ (answers.dropWhile is_child).headD 0 ≤ 0)
    ∧ (∀ j ∈ (sigchld_handler_logic answers sh).shell.job_list,
          j.pid ∉ answers.takeWhile is_child)
    ∧ (∀ j ∈ sh.job_list, j.pid ∉ answers.takeWhile is_child →
        j ∈ (sigchld_handler_logic answers sh).shell.job_list)
    ∧ (sigchld_handler_logic answers sh).shell.job_list.Sublist sh.job_list
    ∧ ((sigchld_handler_logic answers sh).shell.job_list.map Job.pid).Nodup
    ∧ (sh.sigchld_flag ≠ 0 →
        main_reap answers sh = sigchld_handler_logic answers { sh with sigchld_flag := 0 }) := by
  obtain ⟨h1, h2, h3, _⟩ := sigchld_handler_logic_jobs answers sh
  refine ⟨sigchld_handler_logic_calls answers sh, h3 hn, h2, h1, hn.sublist (h1.map _), ?_⟩
  intro hf
  simp [main_reap, hf]

/-- C15 at a registry with the jobs 3 (pid 30), 2 (pid 20), 1 (pid 10) and
the answers 10, 30, 0: the job with pid 20 is the one left. -/
theorem reap_cycle_witness :
    ([(30 : Int), 20, 10]).Nodup
    ∧ (sigchld_handler_logic [10, 30, 0, 20]
        { ShellState.initial [] [] with
          job_list := [⟨3, 30, "c".toList⟩, ⟨2, 20, "b".toList⟩, ⟨1, 10, "a".toList⟩],
          next_job_id := 4 }).shell.job_list = [⟨2, 20, "b".toList⟩]
    ∧ (sigchld_handler_logic [10, 30, 0, 20]
        { ShellState.initial [] [] with
          job_list := [⟨3, 30, "c".toList⟩, ⟨2, 20, "b".toList⟩, ⟨1, 10, "a".toList⟩],
          next_job_id := 4 }).calls = [10, 30, 0]
    ∧ ∀ j ∈ (sigchld_handler_logic [10, 30, 0, 20]
        { ShellState.initial [] [] with
          job_list := [⟨3, 30, "c".toList⟩, ⟨2, 20, "b".toList⟩, ⟨1, 10, "a".toList⟩],
          next_job_id := 4 }).shell.job_list, j.pid ∉ [(10 : Int), 30] :=
  ⟨by decide, by decide, by decide,
    (reap_cycle [10, 30, 0, 20]
      { ShellState.initial [] [] with
        job_list := [⟨3, 30, "c".toList⟩, ⟨2, 20, "b".toList⟩, ⟨1, 10, "a".toList⟩],
        next_job_id := 4 } (by decide)).2.1⟩

/-! ### C16: an external command in the background -/

/-- C20 fails at the lines `ls |` and `|`: both hold a `|`, so they are
handed to `execute_piped_commands`, with one stage and with no stage. -/
theorem piped_with_one_stage :
    (split_by_pipes "ls |".toList).num_commands = 1
    ∧ (∀ sys sh, execute_command sys sh "ls |".toList
        = execute_piped_commands sys sh ["ls".toList] 1)
    ∧ (split_by_pipes "|".toList).num_commands = 0
    ∧ (∀ sys sh, execute_command sys sh "|".toList = execute_piped_commands sys sh [] 0) :=
  ⟨by decide, fun _ _ => rfl, by decide, fun _ _ => rfl⟩

/-- C20 as amended: `execute_command` hands a line to `execute_piped_commands`
exactly when the line holds a `|`, with the stages of `split_by_pipes` and
their number, the number of non-empty runs between the pipe characters; a
line without `|` has at most one such run and goes to
`execute_single_command`.  Two non-empty runs around one `|` give two
stages. -/
theorem execute_command_routing (sys : Sys) (sh : ShellState) (line : List Char) :
    ('|' ∈ line →
      execute_command sys sh line
        = execute_piped_commands sys sh ((pipe_runs line).map trim_stage)
            (pipe_runs line).length)
    ∧ ('|' ∉ line →
      execute_command sys sh line = execute_single_command sys sh line
      ∧ (pipe_runs line).length ≤ 1)
    ∧ (∀ a b, line = a ++ '|' :: b → a ≠ [] → b ≠ [] → '|' ∉ a → '|' ∉ b →
        (split_by_pipes line).num_commands = 2) := by
  refine ⟨?_, ?_, ?_⟩
  · intro h
    simp only [execute_command, h, if_true]
    rw [split_by_pipes_eq]
  · intro h
    refine ⟨by simp only [execute_command, h, if_false], ?_⟩
    by_cases hl : line = []
    · subst hl; simp [pipe_runs]
    · rw [pipe_runs_single line hl (fun c hc e => h (e ▸ hc))]
      simp
  · intro a b hl ha hb hna hnb
    rw [split_by_pipes_eq, hl,
      pipe_runs_first a b ha (fun c hc e => hna (e ▸ hc)),
      pipe_runs_single b hb (fun c hc e => hnb (e ▸ hc))]
    rfl

/-- C20 as amended, at `ls | wc` (two stages, piped) and `ls` (not piped). -/
theorem execute_command_routing_witness :
    ('|' ∈ "ls | wc".toList
      ∧ execute_command Sys.example (ShellState.initial [] []) "ls | wc".toList
        = execute_piped_commands Sys.example (ShellState.initial [] [])
            ["ls".toList, "wc".toList] 2)
    ∧ ('|' ∉ "ls".toList
      ∧ execute_command Sys.example (ShellState.initial [] []) "ls".toList
        = execute_single_command Sys.example (ShellState.initial [] []) "ls".toList) :=
  ⟨⟨by decide,
    ((execute_command_routing Sys.example (ShellState.initial [] []) "ls | wc".toList).1
      (by decide)).trans (by decide)⟩,
   ⟨by decide,
    ((execute_command_routing Sys.example (ShellState.initial [] []) "ls".toList).2.1
      (by decide)).1⟩⟩


/-! ### C17, C18, C19: built-ins and the standard descriptors -/

theorem fd_after_append (t : FdTable) (a b : List Event) :
    fd_after t (a ++ b) = fd_after (fd_after t a) b := by
  simp [fd_after, List.foldl_append]

theorem fd_step_neutral (t : FdTable) (e : Event) (h : fd_neutral e = true) :
    fd_step t e = t := by
  cases e <;> simp_all [fd_neutral, fd_step]

theorem fd_after_neutral (t : FdTable) (trace : List Event)
    (h : trace.all fd_neutral = true) : fd_after t trace = t := by
  induction trace generalizing t with
  | nil => rfl
  | cons e rest ih =>
    rw [List.all_cons, Bool.and_eq_true] at h
    show fd_after (fd_step t e) rest = t
    rw [fd_step_neutral t e h.1, ih t h.2]

theorem run_body_neutral (sys : Sys) (sh : ShellState) (args : List (List Char))
    (name : List Char) (saved_stdin saved_stdout : Int) :
    (run_body sys sh args name false saved_stdin saved_stdout).trace.all fd_neutral = true := by
  unfold run_body
  split_ifs
  · unfold cmd_cd; simp only []; split_ifs <;> (try split) <;> rfl
  · rfl
  · rfl
  · unfold cmd_searchconfig; split <;> rfl
  · rfl
  · rfl
  · unfold cmd_start_monitor; split_ifs <;> rfl
  · unfold cmd_stop_monitor; split_ifs <;> rfl
  · unfold cmd_status_monitor; split_ifs <;> (try split) <;> rfl
  · rfl


theorem redirect_input_shape (sys : Sys) (input_file : Option (List Char))
    (t1 : List Event) (res : Option Int) (h : redirect_input sys input_file = (t1, res)) :
    (input_file = none ∧ t1 = [] ∧ res = some (-1))
    ∨ (∃ file, input_file = some file ∧ t1 = [.open_read file (-1)] ∧ res = none)
    ∨ (∃ file, input_file = some file ∧ sys.open_in ≠ -1 ∧ res = none
        ∧ t1 = [.open_read file sys.open_in, .dup 0 sys.dup_in, .dup2 sys.open_in 0 (-1),
                .close sys.open_in])
    ∨ (∃ file, input_file = some file ∧ sys.open_in ≠ -1 ∧ sys.dup2_in ≠ -1
        ∧ res = some sys.dup_in
        ∧ t1 = [.open_read file sys.open_in, .dup 0 sys.dup_in,
                .dup2 sys.open_in 0 sys.dup2_in, .close sys.open_in]) := by
  unfold redirect_input at h
  cases input_file with
  | none =>
    simp only [Prod.mk.injEq] at h
    exact Or.inl ⟨rfl, h.1.symm, h.2.symm⟩
  | some file =>
    simp only at h
    split_ifs at h with h1 h2
    · simp only [Prod.mk.injEq] at h
      exact Or.inr (Or.inl ⟨file, rfl, h.1.symm, h.2.symm⟩)
    · simp only [Prod.mk.injEq] at h
      exact Or.inr (Or.inr (Or.inl ⟨file, rfl, h1, h.2.symm, h.1.symm⟩))
    · simp only [Prod.mk.injEq] at h
      exact Or.inr (Or.inr (Or.inr ⟨file, rfl, h1, h2, h.2.symm, h.1.symm⟩))

theorem redirect_output_shape (sys : Sys) (output_file : Option (List Char)) (saved : Int)
    (t2 : List Event) (res : Option Int)
    (h : redirect_output sys output_file saved = (t2, res)) :
    (output_file = none ∧ t2 = [] ∧ res = some (-1))
    ∨ (∃ file, output_file = some file ∧ res = none
        ∧ t2 = .open_write file (-1) :: restore_fd saved 0 sys.dup2_restore_in)
    ∨ (∃ file, output_file = some file ∧ sys.open_out ≠ -1 ∧ res = none
        ∧ t2 = [.open_write file sys.open_out, .dup 1 sys.dup_out,
                .dup2 sys.open_out 1 (-1), .close sys.open_out]
               ++ restore_fd saved 0 sys.dup2_restore_in)
    ∨ (∃ file, output_file = some file ∧ sys.open_out ≠ -1 ∧ sys.dup2_out ≠ -1
        ∧ res = some sys.dup_out
        ∧ t2 = [.open_write file sys.open_out, .dup 1 sys.dup_out,
                .dup2 sys.open_out 1 sys.dup2_out, .close sys.open_out]) := by
  unfold redirect_output at h
  cases output_file with
  | none =>
    simp only [Prod.mk.injEq] at h
    exact Or.inl ⟨rfl, h.1.symm, h.2.symm⟩
  | some file =>
    simp only at h
    split_ifs at h with h1 h2
    · simp only [Prod.mk.injEq] at h
      exact Or.inr (Or.inl ⟨file, rfl, h.2.symm, h.1.symm⟩)
    · simp only [Prod.mk.injEq] at h
      exact Or.inr (Or.inr (Or.inl ⟨file, rfl, h1, h.2.symm, h.1.symm⟩))
    · simp only [Prod.mk.injEq] at h
      exact Or.inr (Or.inr (Or.inr ⟨file, rfl, h1, h2, h.2.symm, h.1.symm⟩))

/-- The trace of a built-in that returns after its body: the two redirections,
the body, and in the foreground the two restoring blocks. -/
theorem execute_internal_command_trace (sys : Sys) (sh : ShellState) (name : List Char)
    (rest : List (List Char)) (input_file output_file : Option (List Char))
    (background : Bool) (hint : is_internal name = true)
    (t1 t2 : List Event) (saved_stdin saved_stdout : Int)
    (h1 : redirect_input sys input_file = (t1, some saved_stdin))
    (h2 : redirect_output sys output_file saved_stdin = (t2, some saved_stdout))
    (status : Int)
    (hr : (execute_internal_command sys sh (name :: rest) input_file output_file
            background).outcome = .ret status) :
    (execute_internal_command sys sh (name :: rest) input_file output_file background).trace
      = t1 ++ t2
        ++ (run_body sys sh (name :: rest) name background saved_stdin saved_stdout).trace
        ++ (if background then []
            else restore_fd saved_stdin 0 sys.dup2_restore_in
              ++ restore_fd saved_stdout 1 sys.dup2_restore_out) := by
  unfold execute_internal_command at hr ⊢
  simp only [hint, Bool.not_true, Bool.false_eq_true, if_false, h1, h2] at hr ⊢
  cases ho : (run_body sys sh (name :: rest) name background saved_stdin
      saved_stdout).outcome with
  | ret result => rfl
  | child_end => rw [ho] at hr; cases hr
  | shell_exit c => rw [ho] at hr; cases hr
  | fault => rw [ho] at hr; cases hr
  | blocked => rw [ho] at hr; cases hr


/-- When the saving `dup` calls and the restoring `dup2` calls succeed and
the system hands out fresh descriptors, a built-in run in the foreground
leaves the standard input and the standard output of the shell on the open
files they had before the call, on every returning path. -/
theorem execute_internal_command_restores (sys : Sys) (sh : ShellState)
    (args : List (List Char)) (input_file output_file : Option (List Char)) (t : FdTable)
    (hs : sys.saves_and_restores = true) (hf : sys.fresh_descriptors = true) (status : Int)
    (hr : (execute_internal_command sys sh args input_file output_file false).outcome
            = .ret status) :
    fd_after t (execute_internal_command sys sh args input_file output_file false).trace 0
        = t 0
    ∧ fd_after t (execute_internal_command sys sh args input_file output_file false).trace 1
        = t 1 := by
  simp only [Sys.saves_and_restores, Sys.fresh_descriptors, decide_eq_true_eq, List.mem_cons,
    List.mem_singleton, List.not_mem_nil, or_false, not_or] at hs hf
  obtain ⟨hs1, hs2, hs3, hs4⟩ := hs
  obtain ⟨⟨a0, a1⟩, ⟨b0, b1, ba⟩, ⟨c0, c1, cb⟩, ⟨d0, d1, db, dc⟩⟩ := hf
  have a0' := Ne.symm a0
  have a1' := Ne.symm a1
  have b0' := Ne.symm b0
  have b1' := Ne.symm b1
  have c0' := Ne.symm c0
  have c1' := Ne.symm c1
  have d0' := Ne.symm d0
  have d1' := Ne.symm d1
  have ba' := Ne.symm ba
  have cb' := Ne.symm cb
  have db' := Ne.symm db
  have dc' := Ne.symm dc
  cases args with
  | nil => exact ⟨rfl, rfl⟩
  | cons name rest =>
    by_cases hint : is_internal name = true
    swap
    · rw [execute_internal_command_other _ _ _ _ _ _ _ (by simpa using hint)]
      exact ⟨rfl, rfl⟩
    rcases h1 : redirect_input sys input_file with ⟨t1, _ | s1⟩
    · have htr : (execute_internal_command sys sh (name :: rest) input_file output_file
          false).trace = t1 := by
        unfold execute_internal_command
        simp only [hint, Bool.not_true, Bool.false_eq_true, if_false, h1]
      rw [htr]
      rcases redirect_input_shape _ _ _ _ h1 with
        ⟨_, _, h⟩ | ⟨f, _, rfl, _⟩ | ⟨f, _, ho, _, rfl⟩ | ⟨_, _, _, _, h, _⟩
      · cases h
      · simp [fd_after, fd_step]
      · simp [fd_after, fd_step, FdTable.set, *]
      · cases h
    · rcases h2 : redirect_output sys output_file s1 with ⟨t2, _ | s2⟩
      · have htr : (execute_internal_command sys sh (name :: rest) input_file output_file
            false).trace = t1 ++ t2 := by
          unfold execute_internal_command
          simp only [hint, Bool.not_true, Bool.false_eq_true, if_false, h1, h2]
        rw [htr]
        rcases redirect_input_shape _ _ _ _ h1 with
          ⟨_, rfl, h⟩ | ⟨_, _, _, h⟩ | ⟨_, _, _, h, _⟩ | ⟨f, _, ho, hd, h, rfl⟩
        · cases h
          rcases redirect_output_shape _ _ _ _ _ h2 with
            ⟨_, _, h⟩ | ⟨g, _, _, rfl⟩ | ⟨g, _, hoo, _, rfl⟩ | ⟨_, _, _, _, h, _⟩
          · cases h
          · simp [fd_after, fd_step, restore_fd]
          · simp [fd_after, fd_step, FdTable.set, restore_fd, *]
          · cases h
        · cases h
        · cases h
        · cases h
          rcases redirect_output_shape _ _ _ _ _ h2 with
            ⟨_, _, h⟩ | ⟨g, _, _, rfl⟩ | ⟨g, _, hoo, _, rfl⟩ | ⟨_, _, _, _, h, _⟩
          · cases h
          · simp [fd_after, fd_step, FdTable.set, restore_fd, *]
          · simp [fd_after, fd_step, FdTable.set, restore_fd, *]
          · cases h
      · rw [execute_internal_command_trace sys sh name rest input_file output_file false hint
          t1 t2 s1 s2 h1 h2 status hr]
        rw [fd_after_append, fd_after_append, fd_after_append,
          fd_after_neutral _ _ (run_body_neutral sys sh (name :: rest) name s1 s2)]
        rcases redirect_input_shape _ _ _ _ h1 with
          ⟨_, rfl, h⟩ | ⟨_, _, _, h⟩ | ⟨_, _, _, h, _⟩ | ⟨f, _, ho, hd, h, rfl⟩
        · cases h
          rcases redirect_output_shape _ _ _ _ _ h2 with
            ⟨_, rfl, h⟩ | ⟨_, _, h, _⟩ | ⟨_, _, _, h, _⟩ | ⟨g, _, hoo, hdd, h, rfl⟩
          · cases h
            simp [fd_after, restore_fd]
          · cases h
          · cases h
          · cases h
            simp [fd_after, fd_step, FdTable.set, restore_fd, *]
        · cases h
        · cases h
        · cases h
          rcases redirect_output_shape _ _ _ _ _ h2 with
            ⟨_, rfl, h⟩ | ⟨_, _, h, _⟩ | ⟨_, _, _, h, _⟩ | ⟨g, _, hoo, hdd, h, rfl⟩
          · cases h
            simp [fd_after, fd_step, FdTable.set, restore_fd, *]
          · cases h
          · cases h
          · cases h
            simp [fd_after, fd_step, FdTable.set, restore_fd, *]


/-- When the input or the output target cannot be opened, a built-in returns
1, its body is not run and the state of the shell is as before. -/
theorem open_failure_skips_body (sys : Sys) (sh : ShellState) (name : List Char)
    (rest : List (List Char)) (input_file output_file : Option (List Char))
    (background : Bool) (hint : is_internal name = true)
    (h : (input_file ≠ none ∧ sys.open_in = -1) ∨ (output_file ≠ none ∧ sys.open_out = -1)) :
    (execute_internal_command sys sh (name :: rest) input_file output_file
        background).outcome = .ret 1
    ∧ runs_body (execute_internal_command sys sh (name :: rest) input_file output_file
        background).trace = false
    ∧ (execute_internal_command sys sh (name :: rest) input_file output_file
        background).shell = sh := by
  have hno : ∀ l : List Event, (∀ e ∈ l, ∀ b args, e ≠ Event.body b args) →
      runs_body l = false := by
    intro l hl
    unfold runs_body
    rw [List.any_eq_false]
    intro e he
    cases e <;> simp
    exact hl _ he _ _ rfl
  rcases h1 : redirect_input sys input_file with ⟨t1, _ | s1⟩
  · have hres : execute_internal_command sys sh (name :: rest) input_file output_file
        background = { outcome := .ret 1, trace := t1, shell := sh } := by
      unfold execute_internal_command
      simp only [hint, Bool.not_true, Bool.false_eq_true, if_false, h1]
    rw [hres]
    refine ⟨rfl, hno _ ?_, rfl⟩
    intro e he
    exact redirect_input_no_body sys input_file e (by rw [h1]; exact he)
  · rcases h2 : redirect_output sys output_file s1 with ⟨t2, _ | s2⟩
    · have hres : execute_internal_command sys sh (name :: rest) input_file output_file
          background = { outcome := .ret 1, trace := t1 ++ t2, shell := sh } := by
        unfold execute_internal_command
        simp only [hint, Bool.not_true, Bool.false_eq_true, if_false, h1, h2]
      rw [hres]
      refine ⟨rfl, hno _ ?_, rfl⟩
      intro e he
      rcases List.mem_append.mp he with he | he
      · exact redirect_input_no_body sys input_file e (by rw [h1]; exact he)
      · exact redirect_output_no_body sys output_file s1 e (by rw [h2]; exact he)
    · exfalso
      rcases h with ⟨hin, ho⟩ | ⟨hout, ho⟩
      · rcases redirect_input_shape _ _ _ _ h1 with
          ⟨hn, _, _⟩ | ⟨_, _, _, h⟩ | ⟨_, _, _, h, _⟩ | ⟨_, _, ho2, _⟩
        · exact hin hn
        · cases h
        · cases h
        · exact ho2 ho
      · rcases redirect_output_shape _ _ _ _ _ h2 with
          ⟨hn, _, _⟩ | ⟨_, _, h, _⟩ | ⟨_, _, _, h, _⟩ | ⟨_, _, ho2, _⟩
        · exact hout hn
        · cases h
        · cases h
        · exact ho2 ho

/-- C17 at `cd /tmp &`, `quit &` and `echo hi > out &`.  For `cd` and `quit`
the shell does not fork: it runs the body itself (the working directory of the
shell changes, `quit` returns 0) and registers no job.  For `echo` the shell
forks once and registers the job, but the target is opened and put on the
standard output before the `fork`, in the shell, and is not taken off again:
after the call the standard output of the shell is the file `out`. -/
theorem background_builtin_in_shell :
    execute_single_command Sys.example (ShellState.initial "/home".toList []) "cd /tmp &".toList
      = { outcome := .ret 1,
          trace := [.body .cd ["cd".toList, "/tmp".toList]],
          shell := { job_list := [], next_job_id := 1, foreground_pid := 0, sigchld_flag := 0,
                     cwd := "/tmp".toList,
                     environ := [("PWD".toList, "/tmp".toList),
                                 ("OLDPWD".toList, "/home".toList)] } }
    ∧ execute_single_command Sys.example (ShellState.initial "/home".toList []) "quit &".toList
      = { outcome := .ret 0, trace := [.body .quit []],
          shell := ShellState.initial "/home".toList [] }
    ∧ execute_single_command Sys.example (ShellState.initial "/home".toList [])
        "echo hi > out &".toList
      = { outcome := .ret 1,
          trace := [.open_write "out".toList 5, .dup 1 6, .dup2 5 1 1, .close 5, .fork 100,
                    .print_job 1 100],
          shell := { ShellState.initial "/home".toList [] with
                     job_list := [{ job_id := 1, pid := 100, command := "echo".toList }],
                     next_job_id := 2 } }
    ∧ fd_after FdTable.start
        [.open_write "out".toList 5, .dup 1 6, .dup2 5 1 1, .close 5, .fork 100,
         .print_job 1 100] 1
      = some (.target "out".toList true)
    ∧ FdTable.start 1 = some (.original 1) := by
  decide

/-- C18 at `echo hi > out` in the foreground when `dup(STDOUT_FILENO)` fails:
`saved_stdout` is -1, the target is put on the standard output all the same,
the body runs, the restoring block is skipped and the call returns 1 with the
standard output of the shell on the file `out`.  With a `dup` that succeeds
the standard output is the original one again. -/
theorem foreground_stdout_not_restored :
    execute_internal_command { Sys.example with dup_out := -1 }
        (ShellState.initial "/home".toList []) ["echo".toList, "hi".toList] none
        (some "out".toList) false
      = { outcome := .ret 1,
          trace := [.open_write "out".toList 5, .dup 1 (-1), .dup2 5 1 1, .close 5,
                    .body .echo ["echo".toList, "hi".toList], .print "hi \n".toList],
          shell := ShellState.initial "/home".toList [] }
    ∧ fd_after FdTable.start
        [.open_write "out".toList 5, .dup 1 (-1), .dup2 5 1 1, .close 5,
         .body .echo ["echo".toList, "hi".toList], .print "hi \n".toList] 1
      = some (.target "out".toList true)
    ∧ FdTable.start 1 = some (.original 1)
    ∧ fd_after FdTable.start
        (execute_internal_command Sys.example (ShellState.initial "/home".toList [])
          ["echo".toList, "hi".toList] none (some "out".toList) false).trace 1
      = some (.original 1) := by
  decide

/-- C19 at `cd d < in > out` when `dup(STDIN_FILENO)` fails and `out` cannot
be opened: the file `in` is already on the standard input, `saved_stdin` is
-1, so the restoring block of the failure path is skipped; the call returns 1
without running the body, with the standard input of the shell on the file
`in`.  With a `dup` that succeeds the standard input is the original one
again. -/
theorem open_failure_stdin_not_restored :
    execute_internal_command { Sys.example with dup_in := -1, open_out := -1 }
        (ShellState.initial "/home".toList []) ["cd".toList, "d".toList] (some "in".toList)
        (some "out".toList) false
      = { outcome := .ret 1,
          trace := [.open_read "in".toList 3, .dup 0 (-1), .dup2 3 0 0, .close 3,
                    .open_write "out".toList (-1)],
          shell := ShellState.initial "/home".toList [] }
    ∧ fd_after FdTable.start
        [.open_read "in".toList 3, .dup 0 (-1), .dup2 3 0 0, .close 3,
         .open_write "out".toList (-1)] 0
      = some (.target "in".toList false)
    ∧ FdTable.start 0 = some (.original 0)
    ∧ fd_after FdTable.start
        (execute_internal_command { Sys.example with open_out := -1 }
          (ShellState.initial "/home".toList []) ["cd".toList, "d".toList]
          (some "in".toList) (some "out".toList) false).trace 0
      = some (.original 0) := by
  decide


/-! ### C22: the interrupt, terminal-stop and quit handlers -/

/-- C22: each of `sigint_handler`, `sigtstp_handler` and `sigquit_handler`,
for every value of `foreground_pid`: when it is not zero the handler makes
exactly one `kill` call, to that pid, with the signal the handler is installed
for (the one it receives); when it is zero the handler makes no call; and the
globals (`foreground_pid`, `sigchld_flag`, the job list and the counter) are
as before. -/
theorem handlers_forward (sh : ShellState) :
    (∀ s, s = Signal.sigint ∨ s = Signal.sigtstp ∨ s = Signal.sigquit →
      (deliver s sh).kills = (if sh.foreground_pid ≠ 0 then [(sh.foreground_pid, s)] else [])
      ∧ (deliver s sh).kills.length = (if sh.foreground_pid ≠ 0 then 1 else 0)
      ∧ (deliver s sh).shell = sh)
    ∧ deliver .sigint sh = sigint_handler .sigint sh
    ∧ deliver .sigtstp sh = sigtstp_handler .sigtstp sh
    ∧ deliver .sigquit sh = sigquit_handler .sigquit sh
    ∧ (∀ signo, (sigint_handler signo sh).shell = sh
        ∧ (sigtstp_handler signo sh).shell = sh ∧ (sigquit_handler signo sh).shell = sh) := by
  refine ⟨?_, rfl, rfl, rfl, ?_⟩
  · rintro s (rfl | rfl | rfl) <;>
      by_cases h : sh.foreground_pid = 0 <;>
      simp [deliver, installed_handler, sigint_handler, sigtstp_handler, sigquit_handler, h]
  · intro signo
    by_cases h : sh.foreground_pid = 0 <;>
      simp [sigint_handler, sigtstp_handler, sigquit_handler, h]

/-- C22 with the child 100 in the foreground and with no foreground child:
the interrupt is sent on to pid 100 once, and to no one. -/
theorem handlers_forward_witness :
    (deliver .sigint { ShellState.initial [] [] with foreground_pid := 100 }).kills
      = [(100, .sigint)]
    ∧ (deliver .sigtstp (ShellState.initial [] [])).kills = []
    ∧ (deliver .sigquit { ShellState.initial [] [] with foreground_pid := 100 }).shell
      = { ShellState.initial [] [] with foreground_pid := 100 } :=
  ⟨((handlers_forward { ShellState.initial [] [] with foreground_pid := 100 }).1 .sigint
      (Or.inl rfl)).1.trans (by decide),
   ((handlers_forward (ShellState.initial [] [])).1 .sigtstp (Or.inr (Or.inl rfl))).1.trans
      (by decide),
   ((handlers_forward { ShellState.initial [] [] with foreground_pid := 100 }).1 .sigquit
      (Or.inr (Or.inr rfl))).2.2⟩


/-! ### C23: `cd dir` followed by `cd ..` -/

theorem getenv_setenv (sh : ShellState) (name value : List Char) :
    getenv (setenv sh name value) name = some value := by
  simp [getenv, setenv]

theorem find_filter_other (name other : List Char) (h : other ≠ name)
    (l : List (List Char × List Char)) :
    (l.filter (fun b => b.1 ≠ other)).find? (fun b => b.1 = name)
      = l.find? (fun b => b.1 = name) := by
  induction l with
  | nil => rfl
  | cons b rest ih =>
    by_cases hn : b.1 = name
    · have hb : b.1 ≠ other := fun e => h (e ▸ hn)
      rw [List.filter_cons_of_pos (by simpa using hb),
        List.find?_cons_of_pos _ (by simpa using hn),
        List.find?_cons_of_pos _ (by simpa using hn)]
    · rw [List.find?_cons_of_neg _ (by simpa using hn)]
      by_cases hb : b.1 = other
      · rw [List.filter_cons_of_neg (by simpa using hb)]
        exact ih
      · rw [List.filter_cons_of_pos (by simpa using hb),
          List.find?_cons_of_neg _ (by simpa using hn)]
        exact ih

theorem getenv_setenv_other (sh : ShellState) (name other value : List Char)
    (h : other ≠ name) : getenv (setenv sh other value) name = getenv sh name := by
  simp only [getenv, setenv]
  rw [List.find?_cons_of_neg _ (by simpa using h), find_filter_other name other h]

/-- The result of `cmd_cd` when `getcwd` answers before and after a `chdir`
that succeeds. -/
theorem cmd_cd_enters (sys : Sys) (sh : ShellState) (d dir : List Char)
    (hb : sys.getcwd_before = true) (ha : sys.getcwd_after = true)
    (hd : sys.chdir sh.cwd d = some dir) :
    cmd_cd sys sh ["cd".toList, d]
      = { outcome := .ret 1, trace := [.body .cd ["cd".toList, d]],
          shell := setenv (setenv { sh with cwd := dir } "OLDPWD".toList sh.cwd)
                     "PWD".toList dir } := by
  have htarget : (if d = ['.', '.'] then ['.', '.'] else d) = d := by
    split_ifs with h
    · exact h.symm
    · rfl
  simp [cmd_cd, hb, ha, htarget, hd, setenv]

/-- C23 fails when a `getcwd` call of `cmd_cd` fails, from `/home` with its
subdirectory `docs`.  When the call after the second `chdir` fails, the
working directory is `/home` again but `PWD` still names `/home/docs`.  When
the call before the first `chdir` fails, the first `cmd_cd` returns 1 without
entering `docs`, and `cd ..` then leaves `/home` for `/`. -/
theorem cmd_cd_getcwd_fails :
    ((cmd_cd { Sys.example with
            getcwd_after := false,
            chdir := fun cwd target =>
              if target = "..".toList then
                (if cwd = "/home/docs".toList then some "/home".toList else some "/".toList)
              else some (cwd ++ '/' :: target) }
        (cmd_cd { Sys.example with
            chdir := fun cwd target =>
              if target = "..".toList then
                (if cwd = "/home/docs".toList then some "/home".toList else some "/".toList)
              else some (cwd ++ '/' :: target) }
          (ShellState.initial "/home".toList [("PWD".toList, "/home".toList)])
          ["cd".toList, "docs".toList]).shell
        ["cd".toList, "..".toList]).shell.cwd = "/home".toList
      ∧ getenv (cmd_cd { Sys.example with
            getcwd_after := false,
            chdir := fun cwd target =>
              if target = "..".toList then
                (if cwd = "/home/docs".toList then some "/home".toList else some "/".toList)
              else some (cwd ++ '/' :: target) }
        (cmd_cd { Sys.example with
            chdir := fun cwd target =>
              if target = "..".toList then
                (if cwd = "/home/docs".toList then some "/home".toList else some "/".toList)
              else some (cwd ++ '/' :: target) }
          (ShellState.initial "/home".toList [("PWD".toList, "/home".toList)])
          ["cd".toList, "docs".toList]).shell
        ["cd".toList, "..".toList]).shell "PWD".toList = some "/home/docs".toList)
    ∧ ((cmd_cd { Sys.example with
            getcwd_before := false,
            chdir := fun cwd target =>
              if target = "..".toList then
                (if cwd = "/home/docs".toList then some "/home".toList else some "/".toList)
              else some (cwd ++ '/' :: target) }
          (ShellState.initial "/home".toList [("PWD".toList, "/home".toList)])
          ["cd".toList, "docs".toList]).shell.cwd = "/home".toList
      ∧ (cmd_cd { Sys.example with
            chdir := fun cwd target =>
              if target = "..".toList then
                (if cwd = "/home/docs".toList then some "/home".toList else some "/".toList)
              else some (cwd ++ '/' :: target) }
        (cmd_cd { Sys.example with
            getcwd_before := false,
            chdir := fun cwd target =>
              if target = "..".toList then
                (if cwd = "/home/docs".toList then some "/home".toList else some "/".toList)
              else some (cwd ++ '/' :: target) }
          (ShellState.initial "/home".toList [("PWD".toList, "/home".toList)])
          ["cd".toList, "docs".toList]).shell
        ["cd".toList, "..".toList]).shell.cwd = "/".toList) := by
  decide

/-- C23 as amended: let `d` name a directory that `chdir` enters from the
working directory `w`, and let `..` lead from that directory back to `w` (`d`
is a direct subdirectory of `w`, not a symbolic link).  When the `getcwd`
calls of `cmd_cd` succeed (the one before each `chdir` and the one after the
second), `cmd_cd` with `d` followed by `cmd_cd` with `..` returns 1 twice and
leaves the working directory and `PWD` equal to `w`, with `OLDPWD` the
directory that the first call entered. -/
theorem cmd_cd_round_trip (sys1 sys2 : Sys) (sh : ShellState) (d dir : List Char)
    (hb1 : sys1.getcwd_before = true) (hb2 : sys2.getcwd_before = true)
    (ha2 : sys2.getcwd_after = true)
    (hd : sys1.chdir sh.cwd d = some dir)
    (hup : sys2.chdir dir "..".toList = some sh.cwd) :
    (cmd_cd sys1 sh ["cd".toList, d]).outcome = .ret 1
    ∧ (cmd_cd sys1 sh ["cd".toList, d]).shell.cwd = dir
    ∧ (cmd_cd sys2 (cmd_cd sys1 sh ["cd".toList, d]).shell
        ["cd".toList, "..".toList]).outcome = .ret 1
    ∧ (cmd_cd sys2 (cmd_cd sys1 sh ["cd".toList, d]).shell
        ["cd".toList, "..".toList]).shell.cwd = sh.cwd
    ∧ getenv (cmd_cd sys2 (cmd_cd sys1 sh ["cd".toList, d]).shell
        ["cd".toList, "..".toList]).shell "PWD".toList = some sh.cwd
    ∧ getenv (cmd_cd sys2 (cmd_cd sys1 sh ["cd".toList, d]).shell
        ["cd".toList, "..".toList]).shell "OLDPWD".toList = some dir := by
  have htarget : (if d = ['.', '.'] then ['.', '.'] else d) = d := by
    split_ifs with h
    · exact h.symm
    · rfl
  have h1 : (cmd_cd sys1 sh ["cd".toList, d]).outcome = .ret 1 := cmd_cd_outcome sys1 sh _
  have h1c : (cmd_cd sys1 sh ["cd".toList, d]).shell.cwd = dir := by
    by_cases ha1 : sys1.getcwd_after = true
    · rw [cmd_cd_enters sys1 sh d dir hb1 ha1 hd]; rfl
    · simp [cmd_cd, hb1, ha1, htarget, hd, setenv]
  have hd2 : sys2.chdir (cmd_cd sys1 sh ["cd".toList, d]).shell.cwd "..".toList
      = some sh.cwd := by rw [h1c]; exact hup
  have h2 := cmd_cd_enters sys2 (cmd_cd sys1 sh ["cd".toList, d]).shell "..".toList sh.cwd
    hb2 ha2 hd2
  refine ⟨h1, h1c, ?_, ?_, ?_, ?_⟩
  · rw [h2]
  · rw [h2]; rfl
  · rw [h2]; exact getenv_setenv _ _ _
  · rw [h2]
    show getenv (setenv (setenv _ "OLDPWD".toList _) "PWD".toList sh.cwd) "OLDPWD".toList = _
    rw [getenv_setenv_other _ _ _ _ (by decide), getenv_setenv, h1c]

/-- C23 as amended, at the working directory `/home`, the directory `docs` and a system
in which `chdir` appends a name and `..` removes the last one. -/
theorem cmd_cd_round_trip_witness :
    getenv (cmd_cd { Sys.example with
          chdir := fun cwd target =>
            if target = "..".toList then some "/home".toList
            else some (cwd ++ '/' :: target) }
        (cmd_cd { Sys.example with
            chdir := fun cwd target =>
              if target = "..".toList then some "/home".toList
              else some (cwd ++ '/' :: target) }
          (ShellState.initial "/home".toList []) ["cd".toList, "docs".toList]).shell
        ["cd".toList, "..".toList]).shell "OLDPWD".toList = some "/home/docs".toList :=
  (cmd_cd_round_trip
    { Sys.example with
      chdir := fun cwd target =>
        if target = "..".toList then some "/home".toList else some (cwd ++ '/' :: target) }
    { Sys.example with
      chdir := fun cwd target =>
        if target = "..".toList then some "/home".toList else some (cwd ++ '/' :: target) }
    (ShellState.initial "/home".toList []) "docs".toList "/home/docs".toList
    rfl rfl rfl (by decide) (by decide)).2.2.2.2.2

/-! ### C24: what `cmd_echo` prints -/

/-- With at least one argument after the command name, what `cmd_echo` prints
is, for each argument in order, its expansion followed by one space, and then
the newline: a space stands between the last argument and the newline. -/
theorem echo_output_args (sh : ShellState) (name a : List Char) (rest : List (List Char)) :
    echo_output sh (name :: a :: rest)
      = ((a :: rest).map (echo_arg sh)).flatten ++ ['\n']
    ∧ (∀ arg, echo_arg sh arg
        = (match arg with
            | '$' :: var => (match getenv sh var with
                | some value => value
                | none => '$' :: var)
            | _ => arg) ++ [' ']) := by
  refine ⟨rfl, ?_⟩
  intro arg
  unfold echo_arg
  split
  · split <;> simp
  · rfl

/-- C24 at [echo, Hello, World!]: `cmd_echo` returns 1 and prints the
argument, one space and the newline; what it prints is not the argument
followed by the newline. -/
theorem cmd_echo_trailing_space :
    cmd_echo (ShellState.initial [] []) ["echo".toList, "Hello, World!".toList]
      = { outcome := .ret 1,
          trace := [.body .echo ["echo".toList, "Hello, World!".toList],
                    .print "Hello, World! \n".toList],
          shell := ShellState.initial [] [] }
    ∧ echo_output (ShellState.initial [] []) ["echo".toList, "Hello, World!".toList]
      ≠ "Hello, World!\n".toList
    ∧ echo_output (ShellState.initial [] [("HOME".toList, "/root".toList)])
        ["echo".toList, "a".toList, "$HOME".toList, "$X".toList]
      = "a /root $X \n".toList := by
  decide


/-! ### C29: the job ids stored in the registry -/

/-- One operation keeps the order of the stored ids and their bounds, while
the counter is below the largest `int` at each `add_job` call. -/
theorem RegistryOp.run_ordered (op : RegistryOp) (sh : ShellState)
    (h0 : 0 < sh.next_job_id)
    (hw : op.is_add = true → sh.next_job_id < 2147483647)
    (hp : (sh.job_list.map Job.job_id).Pairwise (fun a b => b < a))
    (hb : ∀ j ∈ sh.job_list, 0 < j.job_id ∧ j.job_id < sh.next_job_id) :
    0 < (op.run sh).1.next_job_id
    ∧ (op.run sh).1.next_job_id ≤ sh.next_job_id + (if op.is_add = true then 1 else 0)
    ∧ ((op.run sh).1.job_list.map Job.job_id).Pairwise (fun a b => b < a)
    ∧ ∀ j ∈ (op.run sh).1.job_list, 0 < j.job_id ∧ j.job_id < (op.run sh).1.next_job_id := by
  cases op with
  | add_job pid command malloc_ok strdup_ok =>
    have hw1 : wrap_int (sh.next_job_id + 1) = sh.next_job_id + 1 := by
      have := hw rfl
      exact wrap_int_fits _ (by omega) (by omega)
    simp only [RegistryOp.run, RegistryOp.is_add, if_true]
    rcases add_job_cases (Sys.example.with_alloc malloc_ok strdup_ok) pid command sh with
      ⟨_, h1⟩ | ⟨_, _, h1⟩ | ⟨_, _, h1⟩
    · rw [h1]; exact ⟨h0, by simp only []; omega, hp, hb⟩
    · rw [h1, hw1]
      refine ⟨by simp only []; omega, by simp only []; omega, hp, ?_⟩
      intro j hj
      have := hb j hj
      simp only []
      omega
    · rw [h1, hw1]
      refine ⟨by simp only []; omega, by simp only []; omega, ?_, ?_⟩
      · simp only [List.map_cons, List.pairwise_cons]
        refine ⟨?_, hp⟩
        intro b hb2
        obtain ⟨j, hj, rfl⟩ := List.mem_map.mp hb2
        exact (hb j hj).2
      · intro j hj
        simp only [List.mem_cons] at hj
        rcases hj with rfl | hj
        · simp only []; omega
        · have := hb j hj
          simp only []
          omega
  | remove_job pid =>
    simp only [RegistryOp.run, Shell.remove_job]
    have hs := remove_from_sublist pid sh.job_list
    refine ⟨h0, by simp [RegistryOp.is_add], hp.sublist (hs.map _), ?_⟩
    intro j hj
    exact hb j (hs.subset hj)
  | cleanup_shell =>
    simp only [RegistryOp.run, Shell.cleanup_shell]
    exact ⟨h0, by simp [RegistryOp.is_add], by simp, by simp⟩

theorem run_ops_ordered (ops : List RegistryOp) (sh : ShellState)
    (h0 : 0 < sh.next_job_id)
    (hw : sh.next_job_id + (ops.countP RegistryOp.is_add : Nat) ≤ 2147483647)
    (hp : (sh.job_list.map Job.job_id).Pairwise (fun a b => b < a))
    (hb : ∀ j ∈ sh.job_list, 0 < j.job_id ∧ j.job_id < sh.next_job_id) :
    ((run_ops sh ops).1.job_list.map Job.job_id).Pairwise (fun a b => b < a)
    ∧ ∀ j ∈ (run_ops sh ops).1.job_list,
        0 < j.job_id ∧ j.job_id < (run_ops sh ops).1.next_job_id := by
  induction ops generalizing sh with
  | nil => exact ⟨hp, hb⟩
  | cons op ops ih =>
    rw [countP_is_add_cons] at hw
    push_cast at hw
    have hw1 : op.is_add = true → sh.next_job_id < 2147483647 := by
      intro ha
      rw [if_pos ha] at hw
      omega
    obtain ⟨h1, h2, h3, h4⟩ := RegistryOp.run_ordered op sh h0 hw1 hp hb
    refine ih (op.run sh).1 h1 ?_ h3 h4
    split_ifs at hw h2 <;> omega

/-- C29 fails where the `int` counter wraps.  After a job was launched and
reaped 2147483646 times and launched once more, the list holds the id
2147483647 and the counter is -2147483648, so the stored id is not smaller
than the counter; a second job launched then gets the id -2147483648, which
is not positive and stands at the head, before the larger id 2147483647. -/
theorem registry_ids_wrap :
    ((run_ops (ShellState.initial [] [])
        (launch_and_reap 10 "a".toList 2147483646
          ++ [.add_job 10 "a".toList true true])).1.job_list.map Job.job_id = [2147483647]
      ∧ (run_ops (ShellState.initial [] [])
        (launch_and_reap 10 "a".toList 2147483646
          ++ [.add_job 10 "a".toList true true])).1.next_job_id = -2147483648)
    ∧ ((run_ops (ShellState.initial [] [])
        (launch_and_reap 10 "a".toList 2147483646
          ++ [.add_job 10 "a".toList true true,
              .add_job 11 "b".toList true true])).1.job_list.map Job.job_id
        = [-2147483648, 2147483647]
      ∧ (run_ops (ShellState.initial [] [])
        (launch_and_reap 10 "a".toList 2147483646
          ++ [.add_job 10 "a".toList true true,
              .add_job 11 "b".toList true true])).1.next_job_id = -2147483647) := by
  rw [run_ops_append, run_ops_append]
  simp only []
  rw [launch_and_reap_run 10 "a".toList 2147483646 (ShellState.initial [] []) rfl
    (by decide) (by decide)]
  decide

/-- C29 as amended: in every registry reached from the empty one by
`add_job`, `remove_job` and `cleanup_shell` calls of which fewer than
2^31 - 1 are `add_job` calls, the stored job ids are strictly decreasing from
the head of the list to its tail, hence no two are equal; each is positive
and smaller than `next_job_id`.  `cleanup_shell` leaves the list empty and
does not change `next_job_id`. -/
theorem registry_ids_ordered (cwd : List Char) (environ : List (List Char × List Char))
    (ops : List RegistryOp) (hw : ops.countP RegistryOp.is_add < 2147483647) :
    ((run_ops (ShellState.initial cwd environ) ops).1.job_list.map Job.job_id).Pairwise
        (fun a b => b < a)
    ∧ ((run_ops (ShellState.initial cwd environ) ops).1.job_list.map Job.job_id).Nodup
    ∧ (∀ j ∈ (run_ops (ShellState.initial cwd environ) ops).1.job_list,
        0 < j.job_id
        ∧ j.job_id < (run_ops (ShellState.initial cwd environ) ops).1.next_job_id)
    ∧ (∀ sh : ShellState, (cleanup_shell sh).job_list = []
        ∧ (cleanup_shell sh).next_job_id = sh.next_job_id)
    ∧ (∀ sh : ShellState, (RegistryOp.cleanup_shell.run sh).1 = cleanup_shell sh) := by
  obtain ⟨hp, hb⟩ := run_ops_ordered ops (ShellState.initial cwd environ)
    (by simp [ShellState.initial]) (by simp only [ShellState.initial]; omega)
    (by simp [ShellState.initial]) (by simp [ShellState.initial])
  exact ⟨hp, hp.imp (fun h => (ne_of_lt h).symm), hb, fun _ => ⟨rfl, rfl⟩, fun _ => rfl⟩

/-- C29 as amended, after adding three jobs, removing the one with pid 11 and
adding a fourth: the stored ids are 4, 3, 1 and the counter is 5. -/
theorem registry_ids_ordered_witness :
    ([RegistryOp.add_job 10 "a".toList true true, .add_job 11 "b".toList true true,
         .add_job 12 "c".toList true true, .remove_job 11,
         .add_job 13 "d".toList true true].countP RegistryOp.is_add < 2147483647)
    ∧ ((run_ops (ShellState.initial [] [])
        [.add_job 10 "a".toList true true, .add_job 11 "b".toList true true,
         .add_job 12 "c".toList true true, .remove_job 11,
         .add_job 13 "d".toList true true]).1.job_list.map Job.job_id = [4, 3, 1]
      ∧ (run_ops (ShellState.initial [] [])
        [.add_job 10 "a".toList true true, .add_job 11 "b".toList true true,
         .add_job 12 "c".toList true true, .remove_job 11,
         .add_job 13 "d".toList true true]).1.next_job_id = 5)
    ∧ ((run_ops (ShellState.initial [] [])
        [.add_job 10 "a".toList true true, .add_job 11 "b".toList true true,
         .add_job 12 "c".toList true true, .remove_job 11,
         .add_job 13 "d".toList true true]).1.job_list.map Job.job_id).Pairwise
        (fun a b => b < a) :=
  ⟨by decide, by decide,
   (registry_ids_ordered [] []
      [.add_job 10 "a".toList true true, .add_job 11 "b".toList true true,
       .add_job 12 "c".toList true true, .remove_job 11,
       .add_job 13 "d".toList true true] (by decide)).1⟩


/-! ### C30: `parse_command` terminates -/

theorem add_token_suffix (st : ParseState) (tok ptr : List Char) :
    (add_token st tok ptr).ptr <:+ ptr := by
  unfold add_token
  split
  · exact List.suffix_refl _
  · split_ifs
    · exact List.suffix_refl _
    · exact List.suffix_cons _ _
    · exact List.suffix_refl _

theorem scan_quoted_suffix (st : ParseState) (q : Char) (rest : List Char) :
    (scan_quoted st q rest).ptr <:+ rest := by
  unfold scan_quoted
  split
  · exact (add_token_suffix _ _ _).trans List.nil_suffix
  · next _ after h =>
    have h1 : after <:+ rest :=
      (List.suffix_cons _ _).trans (h ▸ List.dropWhile_suffix _)
    exact (add_token_suffix _ _ _).trans h1

/-- A pass of the loop leaves the cursor inside the string: the new cursor is
an end piece of the old one. -/
theorem parse_iter_suffix (st : ParseState) : (parse_iter st).ptr <:+ st.ptr := by
  unfold parse_iter
  split
  · exact List.nil_suffix
  · next c rest hd =>
    have hrest : rest <:+ st.ptr := (List.suffix_cons _ _).trans (hd ▸ List.dropWhile_suffix _)
    have hc : c :: rest <:+ st.ptr := hd ▸ List.dropWhile_suffix _
    split_ifs
    · exact ((List.dropWhile_suffix _).trans (List.dropWhile_suffix _)).trans hrest
    · exact ((List.dropWhile_suffix _).trans (List.dropWhile_suffix _)).trans hrest
    · exact (scan_quoted_suffix _ _ _).trans hrest
    · exact (scan_quoted_suffix _ _ _).trans hrest
    · exact (add_token_suffix _ _ _).trans ((List.dropWhile_suffix _).trans hc)

theorem add_token_count (st : ParseState) (tok ptr : List Char) :
    (add_token st tok ptr).tokens.length + (add_token st tok ptr).ptr.length
      ≤ st.tokens.length + 1 + ptr.length := by
  unfold add_token
  split
  · simp
  · split_ifs <;> simp

theorem scan_quoted_count (st : ParseState) (q : Char) (rest : List Char) :
    (scan_quoted st q rest).tokens.length + (scan_quoted st q rest).ptr.length
      ≤ st.tokens.length + 1 + rest.length := by
  unfold scan_quoted
  split
  · exact le_trans (add_token_count _ _ _) (by simp)
  · next _ after h =>
    have h1 := dropWhile_cons_length h
    exact le_trans (add_token_count _ _ _) (by omega)

/-- A pass of the loop stores at most as many tokens as it consumes
characters. -/
theorem parse_iter_count (st : ParseState) :
    (parse_iter st).tokens.length + (parse_iter st).ptr.length
      ≤ st.tokens.length + st.ptr.length := by
  unfold parse_iter
  split
  · simp
  · next c rest hd =>
    have hrest := dropWhile_cons_length hd
    have hb := dropWhile_head_not hd
    split_ifs with h1 h2 h3 h4
    · have := length_dropWhile_le is_word_char (rest.dropWhile is_blank)
      have := length_dropWhile_le is_blank rest
      simp only []
      omega
    · have := length_dropWhile_le is_word_char (rest.dropWhile is_blank)
      have := length_dropWhile_le is_blank rest
      simp only []
      omega
    · have := scan_quoted_count st SQ rest
      omega
    · have := scan_quoted_count st DQ rest
      omega
    · have hw : is_word_char c = true := by
        simp only [is_redir, is_blank, is_word_char, Bool.or_eq_true, beq_iff_eq, not_or,
          Bool.and_eq_true, bne_iff_ne, ne_eq] at h1 hb ⊢
        simp only [Bool.or_eq_false_iff, beq_eq_false_iff_ne, ne_eq] at hb
        exact ⟨⟨⟨hb.1, hb.2⟩, h1.1⟩, h1.2⟩
      have h5 := add_token_count st ((c :: rest).takeWhile is_word_char)
        ((c :: rest).dropWhile is_word_char)
      rw [List.dropWhile_cons_of_pos hw] at h5 ⊢
      have := length_dropWhile_le is_word_char rest
      omega

theorem parse_run_count (n : Nat) (st : ParseState) (hn : st.ptr.length ≤ n) :
    (parse_run st).tokens.length ≤ st.tokens.length + st.ptr.length := by
  induction n generalizing st with
  | zero =>
    have h : st.ptr = [] := List.length_eq_zero.mp (Nat.le_zero.mp hn)
    rw [parse_run_nil st h]
    omega
  | succ n ih =>
    by_cases h : st.ptr = []
    · rw [parse_run_nil st h]
      omega
    · rw [parse_run_step st h]
      have hlt := parse_iter_lt st h
      have := ih (parse_iter st) (by omega)
      have := parse_iter_count st
      omega

/-- The loop ends: after some number of passes, at most the number of
characters left, the cursor is on the NUL, and not before. -/
theorem parse_run_passes (n : Nat) (st : ParseState) (hn : st.ptr.length ≤ n) :
    ∃ k, k ≤ n ∧ (parse_iter^[k] st).ptr = []
      ∧ (∀ i, i < k → (parse_iter^[i] st).ptr ≠ [])
      ∧ parse_run st = parse_iter^[k] st := by
  induction n generalizing st with
  | zero =>
    have h : st.ptr = [] := List.length_eq_zero.mp (Nat.le_zero.mp hn)
    exact ⟨0, le_rfl, h, fun i hi => absurd hi (Nat.not_lt_zero i), parse_run_nil st h⟩
  | succ n ih =>
    by_cases h : st.ptr = []
    · exact ⟨0, Nat.zero_le _, h, fun i hi => absurd hi (Nat.not_lt_zero i),
        parse_run_nil st h⟩
    · have hlt := parse_iter_lt st h
      obtain ⟨k, hk, h1, h2, h3⟩ := ih (parse_iter st) (by omega)
      refine ⟨k + 1, by omega, ?_, ?_, ?_⟩
      · rw [Function.iterate_succ_apply]; exact h1
      · intro i hi
        cases i with
        | zero => exact h
        | succ i =>
          rw [Function.iterate_succ_apply]
          exact h2 i (by omega)
      · rw [Function.iterate_succ_apply, ← h3, parse_run_step st h]

theorem parse_iterate_suffix (k : Nat) (st : ParseState) :
    (parse_iter^[k] st).ptr <:+ st.ptr := by
  induction k generalizing st with
  | zero => exact List.suffix_refl _
  | succ k ih =>
    rw [Function.iterate_succ_apply]
    exact (ih (parse_iter st)).trans (parse_iter_suffix st)


/-- C30: `parse_command` terminates on every string.  Every pass of its
scanning loop that starts with the cursor before the NUL moves the cursor
strictly forward and leaves it inside the string; after at most as many
passes as the string has characters the cursor is on the NUL, the loop ends
there (and not before), and the result is the state of that moment, whatever
larger bound is put on the number of passes.  The number of argv tokens is at
most the length of the string. -/
theorem parse_command_terminates (command : List Char) :
    (∀ st : ParseState, st.ptr ≠ [] →
        (parse_iter st).ptr.length < st.ptr.length ∧ (parse_iter st).ptr <:+ st.ptr)
    ∧ (∃ k, k ≤ command.length
        ∧ (parse_iter^[k] (parse_init command)).ptr = []
        ∧ (∀ i, i < k → (parse_iter^[i] (parse_init command)).ptr ≠ [])
        ∧ parse_command command
          = { argv := (parse_iter^[k] (parse_init command)).tokens,
              input_file := (parse_iter^[k] (parse_init command)).input_file,
              output_file := (parse_iter^[k] (parse_init command)).output_file })
    ∧ (∀ fuel, command.length < fuel →
        parse_loop fuel (parse_init command)
          = parse_loop (command.length + 1) (parse_init command))
    ∧ (∀ k, (parse_iter^[k] (parse_init command)).ptr <:+ command)
    ∧ (parse_command command).argv.length ≤ command.length := by
  refine ⟨fun st h => ⟨parse_iter_lt st h, parse_iter_suffix st⟩, ?_, ?_, ?_, ?_⟩
  · obtain ⟨k, hk, h1, h2, h3⟩ :=
      parse_run_passes command.length (parse_init command) le_rfl
    exact ⟨k, hk, h1, h2, by rw [parse_command_eq, h3]⟩
  · intro fuel hf
    exact parse_loop_fuel fuel (command.length + 1) (parse_init command) hf
      (Nat.lt_succ_self _)
  · intro k
    exact parse_iterate_suffix k (parse_init command)
  · rw [parse_command_eq]
    have := parse_run_count command.length (parse_init command) le_rfl
    simpa [parse_init] using this

/-- C30 at `a b c`: three tokens from five characters, found after three
passes of the loop. -/
theorem parse_command_terminates_witness :
    (parse_command "a b c".toList).argv.length ≤ 5
    ∧ (parse_command "a b c".toList).argv = ["a".toList, "b".toList, "c".toList]
    ∧ (parse_iter^[3] (parse_init "a b c".toList)).ptr = []
    ∧ (parse_iter^[2] (parse_init "a b c".toList)).ptr = "c".toList :=
  ⟨(parse_command_terminates "a b c".toList).2.2.2.2, by decide, by decide, by decide⟩


/-! ### C27: the foreground wait of `execute_external_command` -/

/-- Outside the hypothesis of `foreground_wait`: when the first `waitpid` fails
with `EINTR` and the content of the uninitialised `status` reads as exited,
`continue` reaches the loop test, the test reads `status`, and the loop ends
after that one call. -/
theorem wait_foreground_stale_status :
    wait_calls (execute_external_command
        { Sys.example with status0 := .exited, waits := [.eintr, .reported .exited] }
        (ShellState.initial [] []) ["sleep".toList, "5".toList] false "sleep 5".toList
        none none).trace = [(100, .eintr)]
    ∧ wait_calls (execute_external_command
        { Sys.example with status0 := .other, waits := [.eintr, .reported .exited] }
        (ShellState.initial [] []) ["sleep".toList, "5".toList] false "sleep 5".toList
        none none).trace = [(100, .eintr), (100, .reported .exited)] := by
  decide

/-! ### The shape of the waits of a pipeline -/

/-- The wait loop for one pid calls `waitpid` on that pid only, once per
answer it uses, and uses at least one answer when it ends. -/
theorem wait_stage_shape (pid : Int) (status : WStatus) (answers : List WaitAnswer) :
    ∃ used, (wait_stage pid status answers).1 = used.map (Event.waitpid pid false)
      ∧ used <+: answers
      ∧ ∀ st rest, (wait_stage pid status answers).2 = some (st, rest) →
          used ≠ [] ∧ answers = used ++ rest := by
  induction answers generalizing status with
  | nil => exact ⟨[], rfl, List.prefix_refl _, fun _ _ h => by simp [wait_stage] at h⟩
  | cons a rest ih =>
    cases a with
    | eintr =>
      by_cases he : status.ended = true
      · refine ⟨[.eintr], by simp [wait_stage, he], by simp, ?_⟩
        intro st r h
        simp only [wait_stage, he, if_true, Option.some.injEq, Prod.mk.injEq] at h
        exact ⟨by simp, by simp [h.2]⟩
      · obtain ⟨used, h1, h2, h3⟩ := ih status
        refine ⟨.eintr :: used, by simp [wait_stage, he, h1], by simpa using h2, ?_⟩
        intro st r h
        simp only [wait_stage, he] at h
        obtain ⟨_, h4⟩ := h3 st r h
        exact ⟨by simp, by simp [h4]⟩
    | error =>
      refine ⟨[.error], by simp [wait_stage], by simp, ?_⟩
      intro st r h
      simp only [wait_stage, Option.some.injEq, Prod.mk.injEq] at h
      exact ⟨by simp, by simp [h.2]⟩
    | reported s =>
      by_cases he : s.ended = true
      · refine ⟨[.reported s], by simp [wait_stage, he], by simp, ?_⟩
        intro st r h
        simp only [wait_stage, he, if_true, Option.some.injEq, Prod.mk.injEq] at h
        exact ⟨by simp, by simp [h.2]⟩
      · obtain ⟨used, h1, h2, h3⟩ := ih s
        refine ⟨.reported s :: used, by simp [wait_stage, he, h1], by simpa using h2, ?_⟩
        intro st r h
        simp only [wait_stage, he] at h
        obtain ⟨_, h4⟩ := h3 st r h
        exact ⟨by simp, by simp [h4]⟩

/-- The waits of a pipeline are made on the recorded pids in launch order:
what is done is one block of `waitpid` calls per pid, each block on its own
pid, and when every wait ends no block is empty. -/
theorem wait_all_order (pids : List Int) (status : WStatus) (answers : List WaitAnswer) :
    ∃ blocks : List (List WaitAnswer), blocks.length ≤ pids.length
      ∧ (wait_all pids status answers).1
        = (List.zipWith (fun pid block => block.map (Event.waitpid pid false))
            pids blocks).flatten
      ∧ blocks.flatten <+: answers
      ∧ ((wait_all pids status answers).2 = true →
          blocks.length = pids.length ∧ ∀ b ∈ blocks, b ≠ []) := by
  induction pids generalizing status answers with
  | nil => exact ⟨[], le_rfl, rfl, List.nil_prefix, fun _ => ⟨rfl, by simp⟩⟩
  | cons pid pids ih =>
    obtain ⟨used, h1, h2, h3⟩ := wait_stage_shape pid status answers
    rcases hw : wait_stage pid status answers with ⟨t, _ | ⟨st, rest⟩⟩
    · rw [hw] at h1
      dsimp only at h1
      refine ⟨[used], by simp, ?_, by simpa using h2, ?_⟩
      · simp only [wait_all, hw]
        simp [h1]
      · simp [wait_all, hw]
    · rw [hw] at h1 h3
      dsimp only at h1
      obtain ⟨hne, happ⟩ := h3 st rest rfl
      obtain ⟨blocks, b1, b2, b3, b4⟩ := ih st rest
      refine ⟨used :: blocks, by simpa using b1, ?_, ?_, ?_⟩
      · simp only [wait_all, hw]
        simp [h1, b2]
      · rw [happ]
        simpa using (List.prefix_append_right_inj used).mpr b3
      · intro hall
        simp only [wait_all, hw] at hall
        obtain ⟨c1, c2⟩ := b4 hall
        refine ⟨by simp [c1], ?_⟩
        intro b hb
        rcases List.mem_cons.mp hb with rfl | hb
        · exact hne
        · exact c2 b hb

/-! ### C26: the waits of `execute_piped_commands` -/

/-- Outside the hypothesis of `pipeline_waits`: when the wait on the first
child reports its exit and the wait on the second then fails with `EINTR`,
`continue` reaches the loop test, `status` still holds the exit of the first
child, and the loop for the second pid ends after that one call. -/
theorem wait_all_stale_status :
    wait_calls (execute_command
        { Sys.example with waits := [.reported .exited, .eintr, .reported .exited] }
        (ShellState.initial [] []) "ls | wc".toList).trace
      = [(100, .reported .exited), (101, .eintr)]
    ∧ wait_calls (execute_command
        { Sys.example with waits := [.eintr, .reported .exited, .reported .exited] }
        (ShellState.initial [] []) "ls | wc".toList).trace
      = [(100, .eintr), (100, .reported .exited), (101, .reported .exited)] := by
  decide

/-! ### C28: the foreground slot -/

theorem fg_after_keeps (fg : Int) (t : List Event) (h : t.all keeps_fg = true) :
    fg_after fg t = fg := by
  induction t with
  | nil => rfl
  | cons e rest ih =>
    rw [List.all_cons, Bool.and_eq_true] at h
    cases e <;> simp_all [fg_after, keeps_fg]

theorem fg_after_append_keeps (fg : Int) (a b : List Event) (h : a.all keeps_fg = true) :
    fg_after fg (a ++ b) = fg_after fg b := by
  induction a with
  | nil => rfl
  | cons e rest ih =>
    rw [List.all_cons, Bool.and_eq_true] at h
    cases e <;> simp_all [fg_after, keeps_fg]

theorem fg_only_in_wait_keeps (a b : List Event) (h : a.all keeps_fg = true) :
    fg_only_in_wait 0 (a ++ b) = fg_only_in_wait 0 b := by
  induction a with
  | nil => rfl
  | cons e rest ih =>
    rw [List.all_cons, Bool.and_eq_true] at h
    cases e <;> simp_all [fg_only_in_wait, keeps_fg]

theorem restore_fd_keeps (saved fd result : Int) :
    (restore_fd saved fd result).all keeps_fg = true := by
  unfold restore_fd
  split_ifs <;> rfl

theorem redirect_input_keeps (sys : Sys) (input_file : Option (List Char)) :
    (redirect_input sys input_file).1.all keeps_fg = true := by
  unfold redirect_input
  split
  · rfl
  · split_ifs <;> rfl

theorem redirect_output_keeps (sys : Sys) (output_file : Option (List Char)) (saved : Int) :
    (redirect_output sys output_file saved).1.all keeps_fg = true := by
  unfold redirect_output
  split
  · rfl
  · split_ifs
    · simp [keeps_fg, restore_fd_keeps]
    · simp [keeps_fg, restore_fd_keeps]
    · rfl

theorem add_job_fg (sys : Sys) (pid : Int) (command : List Char) (sh : ShellState) :
    (add_job sys pid command sh).2.foreground_pid = sh.foreground_pid := by
  rcases add_job_cases sys pid command sh with ⟨_, h⟩ | ⟨_, _, h⟩ | ⟨_, _, h⟩ <;> rw [h]

theorem run_echo_keeps (sys : Sys) (sh : ShellState) (args : List (List Char))
    (background : Bool) (s1 s2 : Int) :
    (run_echo sys sh args background s1 s2).trace.all keeps_fg = true
    ∧ (run_echo sys sh args background s1 s2).shell.foreground_pid = sh.foreground_pid := by
  unfold run_echo
  simp only []
  split_ifs <;> (try split) <;>
    first
    | exact ⟨rfl, rfl⟩
    | exact ⟨rfl, add_job_fg _ _ _ _⟩
    | exact ⟨by simp [keeps_fg, cmd_echo, restore_fd_keeps], rfl⟩

theorem run_body_keeps (sys : Sys) (sh : ShellState) (args : List (List Char))
    (name : List Char) (background : Bool) (s1 s2 : Int) :
    (run_body sys sh args name background s1 s2).trace.all keeps_fg = true
    ∧ (run_body sys sh args name background s1 s2).shell.foreground_pid
        = sh.foreground_pid := by
  unfold run_body
  split_ifs
  · unfold cmd_cd; simp only []; split_ifs <;> (try split) <;> exact ⟨rfl, rfl⟩
  · exact ⟨rfl, rfl⟩
  · exact ⟨rfl, rfl⟩
  · unfold cmd_searchconfig; split <;> exact ⟨rfl, rfl⟩
  · exact run_echo_keeps _ _ _ _ _ _
  · exact ⟨rfl, rfl⟩
  · unfold cmd_start_monitor; split_ifs <;> exact ⟨rfl, rfl⟩
  · unfold cmd_stop_monitor; split_ifs <;> exact ⟨rfl, rfl⟩
  · unfold cmd_status_monitor; split_ifs <;> (try split) <;> exact ⟨rfl, rfl⟩
  · exact ⟨rfl, rfl⟩

/-- A built-in never writes `foreground_pid`. -/
theorem execute_internal_command_keeps (sys : Sys) (sh : ShellState)
    (args : List (List Char)) (input_file output_file : Option (List Char))
    (background : Bool) :
    (execute_internal_command sys sh args input_file output_file background).trace.all
        keeps_fg = true
    ∧ (execute_internal_command sys sh args input_file output_file
        background).shell.foreground_pid = sh.foreground_pid := by
  unfold execute_internal_command
  cases args with
  | nil => exact ⟨rfl, rfl⟩
  | cons name rest =>
    simp only []
    cases hint : is_internal name
    · exact ⟨rfl, rfl⟩
    · simp only [Bool.not_true, Bool.false_eq_true, if_false]
      have h1 := redirect_input_keeps sys input_file
      rcases hi : redirect_input sys input_file with ⟨t1, _ | s1⟩
      · rw [hi] at h1
        exact ⟨h1, rfl⟩
      · rw [hi] at h1
        simp only []
        have h2 := redirect_output_keeps sys output_file s1
        rcases ho : redirect_output sys output_file s1 with ⟨t2, _ | s2⟩
        · rw [ho] at h2
          exact ⟨by simp only [List.all_append, Bool.and_eq_true]; exact ⟨h1, h2⟩, rfl⟩
        · rw [ho] at h2
          simp only []
          obtain ⟨h3, h4⟩ := run_body_keeps sys sh (name :: rest) name background s1 s2
          have h5 := restore_fd_keeps s1 0 sys.dup2_restore_in
          have h6 := restore_fd_keeps s2 1 sys.dup2_restore_out
          dsimp only at h1 h2
          split
          · refine ⟨?_, h4⟩
            simp only [List.all_append, Bool.and_eq_true]
            refine ⟨⟨⟨h1, h2⟩, h3⟩, ?_⟩
            split_ifs
            · rfl
            · simp only [List.all_append, Bool.and_eq_true]; exact ⟨h5, h6⟩
          · refine ⟨?_, h4⟩
            simp only [List.all_append, Bool.and_eq_true]
            exact ⟨⟨h1, h2⟩, h3⟩


theorem fg_only_in_wait_of_keeps (t : List Event) (h : t.all keeps_fg = true) :
    fg_only_in_wait 0 t = true := by
  have := fg_only_in_wait_keeps t [] h
  rw [List.append_nil] at this
  rw [this]
  rfl

theorem child_redirect_keeps (sys : Sys) (input_file output_file : Option (List Char)) :
    (child_redirect sys input_file output_file).1.all keeps_fg = true := by
  unfold child_redirect
  cases input_file <;> cases output_file <;> simp only [] <;> split_ifs <;>
    simp_all [keeps_fg]

theorem wait_foreground_events (pid : Int) (status : WStatus) (answers : List WaitAnswer) :
    ∀ e ∈ (wait_foreground pid status answers).1,
      (∃ a, e = Event.waitpid pid true a) ∨ e = Event.print (stopped_message pid) := by
  induction answers generalizing status with
  | nil => intro e he; simp [wait_foreground] at he
  | cons a rest ih =>
    intro e he
    cases a with
    | eintr =>
      simp only [wait_foreground] at he
      split_ifs at he
      · simp only [List.mem_singleton] at he; exact Or.inl ⟨_, he⟩
      · rcases List.mem_cons.mp he with rfl | he
        · exact Or.inl ⟨_, rfl⟩
        · exact ih status e he
    | error =>
      simp only [wait_foreground, List.mem_singleton] at he; exact Or.inl ⟨_, he⟩
    | reported st =>
      simp only [wait_foreground] at he
      split_ifs at he
      · simp only [List.mem_cons, List.mem_singleton, List.not_mem_nil, or_false] at he
        rcases he with rfl | rfl
        · exact Or.inl ⟨_, rfl⟩
        · exact Or.inr rfl
      · simp only [List.mem_singleton] at he; exact Or.inl ⟨_, he⟩
      · rcases List.mem_cons.mp he with rfl | he
        · exact Or.inl ⟨_, rfl⟩
        · exact ih st e he

/-- While the slot holds `pid`, `waitpid` calls with `WUNTRACED` on `pid` are
what the slot allows, and they do not write it. -/
theorem fg_waits (pid : Int) (w tail : List Event)
    (h : ∀ e ∈ w, (∃ a, e = Event.waitpid pid true a)
      ∨ e = Event.print (stopped_message pid)) :
    fg_only_in_wait pid (w ++ tail) = fg_only_in_wait pid tail
    ∧ fg_after pid (w ++ tail) = fg_after pid tail := by
  induction w with
  | nil => exact ⟨rfl, rfl⟩
  | cons e rest ih =>
    have := ih (fun x hx => h x (List.mem_cons_of_mem _ hx))
    rcases h e (List.mem_cons_self _ _) with ⟨a, rfl⟩ | rfl
    · simp [fg_only_in_wait, fg_after, this]
    · simp [fg_only_in_wait, fg_after, this]

/-- `execute_external_command` and the slot: the slot is written only in the
foreground branch, to the child's pid before the wait loop and to 0 after it;
in between only `waitpid` calls on that pid are made. -/
theorem execute_external_command_fg (sys : Sys) (sh : ShellState) (args : List (List Char))
    (background : Bool) (command : List Char) (input_file output_file : Option (List Char)) :
    fg_only_in_wait 0 (execute_external_command sys sh args background command input_file
        output_file).trace = true
    ∧ (execute_external_command sys sh args background command input_file
        output_file).shell.foreground_pid
      = fg_after sh.foreground_pid (execute_external_command sys sh args background command
          input_file output_file).trace := by
  unfold execute_external_command
  simp only []
  by_cases h1 : sys.fork < 0
  · rw [if_pos h1]; exact ⟨rfl, rfl⟩
  rw [if_neg h1]
  by_cases h2 : sys.fork = 0
  · rw [if_pos h2]
    have hc := child_redirect_keeps sys input_file output_file
    split_ifs <;> (try split) <;>
      (refine ⟨fg_only_in_wait_of_keeps _ ?_, (fg_after_keeps _ _ ?_).symm⟩ <;>
        simp [keeps_fg, hc])
  rw [if_neg h2]
  cases background with
  | true =>
    simp only [if_true]
    split_ifs
    · exact ⟨rfl, add_job_fg _ _ _ _⟩
    · split
      · exact ⟨rfl, add_job_fg _ _ _ _⟩
      · exact ⟨by simp [fg_only_in_wait], add_job_fg _ _ _ _⟩
  | false =>
    simp only [Bool.false_eq_true, if_false]
    have hw := wait_foreground_events sys.fork sys.status0 sys.waits
    split_ifs
    · have h3 := fg_waits sys.fork _ [Event.set_foreground_pid 0] hw
      simp [fg_only_in_wait, fg_after, h3.1, h3.2]
    · have h3 := fg_waits sys.fork _ [] hw
      rw [List.append_nil] at h3
      simp [fg_only_in_wait, fg_after, h3.1, h3.2]


theorem pipe_child_keeps (sys : Sys) (sh : ShellState) (commands : List (List Char))
    (n i : Nat) (in_fd : Int) (fd : Int × Int) :
    (pipe_child sys sh commands n i in_fd fd).trace.all keeps_fg = true := by
  have hc := fun a b => child_redirect_keeps sys a b
  unfold pipe_child
  simp only []
  split_ifs <;> (try split) <;> (try split) <;> (try split_ifs) <;> simp [keeps_fg, hc]

theorem launch_loop_keeps (sys : Sys) (sh : ShellState) (commands : List (List Char))
    (n k i : Nat) (in_fd : Int) (pids : List Int) :
    (launch_loop sys sh commands n k i in_fd pids).trace.all keeps_fg = true := by
  induction k generalizing i in_fd pids with
  | zero => rfl
  | succ k ih =>
    unfold launch_loop
    simp only []
    by_cases hlast : i + 1 < n
    · simp only [hlast, if_true]
      cases hp : sys.pipe_at i with
      | none => rfl
      | some fd =>
        simp only []
        split_ifs
        · rfl
        · simp [keeps_fg, pipe_child_keeps]
        · simp [keeps_fg, ih]
        · simp [keeps_fg, ih]
    · simp only [hlast, if_false]
      split_ifs
      · rfl
      · simp [keeps_fg, pipe_child_keeps]
      · simp [keeps_fg, ih]
      · simp [keeps_fg, ih]

theorem wait_all_keeps (pids : List Int) (status : WStatus) (answers : List WaitAnswer) :
    (wait_all pids status answers).1.all keeps_fg = true := by
  induction pids generalizing status answers with
  | nil => rfl
  | cons pid pids ih =>
    obtain ⟨used, h1, _, _⟩ := wait_stage_shape pid status answers
    have hk : (wait_stage pid status answers).1.all keeps_fg = true := by
      rw [h1]
      simp [keeps_fg]
    rcases hw : wait_stage pid status answers with ⟨t, _ | ⟨st, rest⟩⟩
    · rw [hw] at hk
      simpa [wait_all, hw] using hk
    · rw [hw] at hk
      simp only [wait_all, hw, List.all_append, Bool.and_eq_true]
      exact ⟨hk, ih st rest⟩

/-- `execute_piped_commands` never writes `foreground_pid`: no event of its
trace is such a write, and the globals it returns are the ones it was given. -/
theorem execute_piped_commands_keeps (sys : Sys) (sh : ShellState)
    (commands : List (List Char)) (n : Nat) :
    (execute_piped_commands sys sh commands n).trace.all keeps_fg = true
    ∧ (execute_piped_commands sys sh commands n).shell = sh := by
  unfold execute_piped_commands
  have hl := launch_loop_keeps sys sh commands n n 0 0 []
  split_ifs
  · exact ⟨rfl, rfl⟩
  · simp only []
    split
    · exact ⟨hl, rfl⟩
    · have hw := wait_all_keeps
        (launch_loop sys sh commands n n 0 0 []).pids sys.status0 sys.waits
      split_ifs <;>
        exact ⟨by simp only [List.all_append, Bool.and_eq_true]; exact ⟨hl, hw⟩, rfl⟩

theorem dispatch_fg (sys : Sys) (sh : ShellState) (args : List (List Char))
    (background : Bool) (command : List Char) (input_file output_file : Option (List Char)) :
    fg_only_in_wait 0 (dispatch sys sh args background command input_file
        output_file).trace = true
    ∧ (dispatch sys sh args background command input_file output_file).shell.foreground_pid
      = fg_after sh.foreground_pid (dispatch sys sh args background command input_file
          output_file).trace := by
  obtain ⟨hk, hf⟩ := execute_internal_command_keeps sys sh args input_file output_file
    background
  have hself : fg_only_in_wait 0 (execute_internal_command sys sh args input_file output_file
        background).trace = true
      ∧ (execute_internal_command sys sh args input_file output_file
        background).shell.foreground_pid
      = fg_after sh.foreground_pid (execute_internal_command sys sh args input_file
          output_file background).trace :=
    ⟨fg_only_in_wait_of_keeps _ hk, by rw [fg_after_keeps _ _ hk, hf]⟩
  unfold dispatch
  simp only []
  split
  · split_ifs
    · exact hself
    · obtain ⟨e1, e2⟩ := execute_external_command_fg sys
        (execute_internal_command sys sh args input_file output_file background).shell
        args background command input_file output_file
      simp only []
      rw [fg_only_in_wait_keeps _ _ hk, fg_after_append_keeps _ _ _ hk, ← hf]
      exact ⟨e1, e2⟩
  · exact hself

/-- `execute_command` and the slot, for every way the call ends. -/
theorem execute_command_fg (sys : Sys) (sh : ShellState) (line : List Char) :
    fg_only_in_wait 0 (execute_command sys sh line).trace = true
    ∧ (execute_command sys sh line).shell.foreground_pid
      = fg_after sh.foreground_pid (execute_command sys sh line).trace := by
  unfold execute_command
  split_ifs
  · obtain ⟨h1, h2⟩ := execute_piped_commands_keeps sys sh (split_by_pipes line).tokens
      (split_by_pipes line).num_commands
    simp only []
    exact ⟨fg_only_in_wait_of_keeps _ h1, by rw [fg_after_keeps _ _ h1, h2]⟩
  · unfold execute_single_command
    simp only []
    split
    · exact ⟨rfl, rfl⟩
    · exact dispatch_fg _ _ _ _ _ _ _


theorem execute_external_command_ret_fg (sys : Sys) (sh : ShellState)
    (args : List (List Char)) (background : Bool) (command : List Char)
    (input_file output_file : Option (List Char)) (h0 : sh.foreground_pid = 0) (v : Int)
    (hr : (execute_external_command sys sh args background command input_file
            output_file).outcome = .ret v) :
    (execute_external_command sys sh args background command input_file
        output_file).shell.foreground_pid = 0 := by
  unfold execute_external_command at hr ⊢
  simp only [] at hr ⊢
  by_cases h1 : sys.fork < 0
  · rw [if_pos h1]; exact h0
  rw [if_neg h1] at hr ⊢
  by_cases h2 : sys.fork = 0
  · rw [if_pos h2] at hr
    split_ifs at hr <;> (try split at hr) <;> cases hr
  rw [if_neg h2] at hr ⊢
  cases background with
  | true =>
    simp only [if_true]
    have := add_job_fg sys sys.fork command sh
    split_ifs
    · simpa [h0] using this
    · split <;> simpa [h0] using this
  | false =>
    simp only [Bool.false_eq_true, if_false] at hr ⊢
    split_ifs at hr ⊢
    rfl

/-- The foreground branch of `execute_external_command` in the parent: the
slot is set to the child's pid, `waitpid` calls on that pid follow, and when
the loop ends the slot is set to 0 before the return. -/
theorem execute_external_command_foreground_trace (sys : Sys) (sh : ShellState)
    (args : List (List Char)) (command : List Char)
    (input_file output_file : Option (List Char)) (hfork : 0 < sys.fork) :
    (∀ e ∈ (wait_foreground sys.fork sys.status0 sys.waits).1,
        (∃ a, e = Event.waitpid sys.fork true a)
          ∨ e = Event.print (stopped_message sys.fork))
    ∧ (((execute_external_command sys sh args false command input_file
            output_file).outcome = .ret 1
        ∧ (execute_external_command sys sh args false command input_file output_file).trace
          = [.fork sys.fork, .set_foreground_pid sys.fork]
              ++ (wait_foreground sys.fork sys.status0 sys.waits).1
              ++ [.set_foreground_pid 0])
      ∨ ((execute_external_command sys sh args false command input_file
            output_file).outcome = .blocked
        ∧ (execute_external_command sys sh args false command input_file output_file).trace
          = [.fork sys.fork, .set_foreground_pid sys.fork]
              ++ (wait_foreground sys.fork sys.status0 sys.waits).1)) := by
  refine ⟨wait_foreground_events _ _ _, ?_⟩
  have h1 : ¬ sys.fork < 0 := by omega
  have h2 : ¬ sys.fork = 0 := by omega
  unfold execute_external_command
  simp only [h1, h2, if_false, Bool.false_eq_true]
  split_ifs
  · exact Or.inl ⟨rfl, rfl⟩
  · exact Or.inr ⟨rfl, rfl⟩

theorem dispatch_ret_fg (sys : Sys) (sh : ShellState) (args : List (List Char))
    (background : Bool) (command : List Char) (input_file output_file : Option (List Char))
    (h0 : sh.foreground_pid = 0) (v : Int)
    (hv : (dispatch sys sh args background command input_file output_file).outcome
            = .ret v) :
    (dispatch sys sh args background command input_file output_file).shell.foreground_pid
      = 0 := by
  have hf := (execute_internal_command_keeps sys sh args input_file output_file
    background).2
  unfold dispatch at hv ⊢
  simp only [] at hv ⊢
  cases ho : (execute_internal_command sys sh args input_file output_file
      background).outcome with
  | ret status =>
    rw [ho] at hv
    simp only [] at hv ⊢
    by_cases hs : status ≠ -1
    · rw [if_pos hs, hf]; exact h0
    · rw [if_neg hs] at hv ⊢
      exact execute_external_command_ret_fg sys _ _ _ _ _ _ (by rw [hf]; exact h0) v hv
  | child_end => simp only []; rw [hf]; exact h0
  | shell_exit c => simp only []; rw [hf]; exact h0
  | fault => simp only []; rw [hf]; exact h0
  | blocked => simp only []; rw [hf]; exact h0

theorem execute_single_command_ret_fg (sys : Sys) (sh : ShellState) (line : List Char)
    (h0 : sh.foreground_pid = 0) (v : Int)
    (hv : (execute_single_command sys sh line).outcome = .ret v) :
    (execute_single_command sys sh line).shell.foreground_pid = 0 := by
  unfold execute_single_command at hv ⊢
  simp only [] at hv ⊢
  cases hargv : (parse_command line).argv with
  | nil => exact h0
  | cons a rest =>
    rw [hargv] at hv
    simp only [] at hv ⊢
    exact dispatch_ret_fg sys sh _ _ _ _ _ h0 v hv

/-- C28: from `foreground_pid = 0`, whenever `execute_command` returns (a
built-in, an external command in the foreground or in the background, a
failed fork, a failed wait, a stop, a pipeline) `foreground_pid` is 0 again.
Along the whole call the slot is non-zero only during the steps of the
foreground wait loop of `execute_external_command` on the child just forked,
whose pid it then holds: the `waitpid` calls on that pid and the message the
loop prints when the child is reported stopped.  What the call leaves in the
slot is what its writes left there; and `execute_piped_commands` never writes
the slot. -/
theorem foreground_slot (sys : Sys) (sh : ShellState) (line : List Char)
    (h0 : sh.foreground_pid = 0) :
    (∀ v, (execute_command sys sh line).outcome = .ret v →
        (execute_command sys sh line).shell.foreground_pid = 0)
    ∧ fg_only_in_wait 0 (execute_command sys sh line).trace = true
    ∧ (execute_command sys sh line).shell.foreground_pid
        = fg_after 0 (execute_command sys sh line).trace
    ∧ (∀ commands n,
        (execute_piped_commands sys sh commands n).trace.all keeps_fg = true
        ∧ (execute_piped_commands sys sh commands n).shell = sh) := by
  obtain ⟨h1, h2⟩ := execute_command_fg sys sh line
  rw [h0] at h2
  refine ⟨?_, h1, h2, fun commands n => execute_piped_commands_keeps sys sh commands n⟩
  intro v hv
  unfold execute_command at hv ⊢
  split_ifs at hv ⊢
  · rw [(execute_piped_commands_keeps sys sh _ _).2]
    exact h0
  · exact execute_single_command_ret_fg sys sh line h0 v hv

/-- C28 at `sleep 5` in the foreground, the child being reported as stopped:
the slot holds 100 during the wait and 0 at the return. -/
theorem foreground_slot_witness :
    (ShellState.initial [] []).foreground_pid = 0
    ∧ (execute_command { Sys.example with waits := [.eintr, .reported .stopped] }
        (ShellState.initial [] []) "sleep 5".toList)
      = { outcome := .ret 1,
          trace := [.fork 100, .set_foreground_pid 100, .waitpid 100 true .eintr,
                    .waitpid 100 true (.reported .stopped),
                    .print "\nProcess 100 detained\n".toList, .set_foreground_pid 0],
          shell := ShellState.initial [] [] }
    ∧ (execute_command { Sys.example with waits := [.eintr, .reported .stopped] }
        (ShellState.initial [] []) "sleep 5".toList).shell.foreground_pid = 0 :=
  ⟨rfl, by decide,
    (foreground_slot { Sys.example with waits := [.eintr, .reported .stopped] }
      (ShellState.initial [] []) "sleep 5".toList rfl).1 1 (by decide)⟩


/-! ### C25: the descriptors of the shell in the launch loop -/

/-- A pass of the launch loop in the parent, for a stage that is not the
last: the pipe is created, the child forked, the read end of the pipe before
and the write end of the new pipe are closed, and the loop goes on with the
read end of the new pipe. -/
theorem launch_loop_pass (sys : Sys) (sh : ShellState) (commands : List (List Char))
    (n k i : Nat) (in_fd : Int) (pids : List Int) (fd : Int × Int)
    (hi : i + 1 < n) (hp : sys.pipe_at i = some fd) (hf : 0 < sys.fork_at i) :
    launch_loop sys sh commands n (k + 1) i in_fd pids
      = { outcome := (launch_loop sys sh commands n k (i + 1) fd.1
                        (pids ++ [sys.fork_at i])).outcome,
          trace := .pipe (some fd) :: .fork (sys.fork_at i)
            :: ((if in_fd ≠ 0 then [.close in_fd] else [])
                ++ .close fd.2 :: (launch_loop sys sh commands n k (i + 1) fd.1
                        (pids ++ [sys.fork_at i])).trace),
          pids := (launch_loop sys sh commands n k (i + 1) fd.1
                        (pids ++ [sys.fork_at i])).pids } := by
  have h1 : ¬ sys.fork_at i = -1 := by omega
  have h2 : ¬ sys.fork_at i = 0 := by omega
  rw [launch_loop]
  simp [hi, hp, h1, h2]

/-- The pass for the last stage in the parent: no pipe is created, the child
is forked and the read end of the pipe before is closed. -/
theorem launch_loop_last (sys : Sys) (sh : ShellState) (commands : List (List Char))
    (n k i : Nat) (in_fd : Int) (pids : List Int)
    (hi : ¬ i + 1 < n) (hf : 0 < sys.fork_at i) :
    launch_loop sys sh commands n (k + 1) i in_fd pids
      = { outcome := (launch_loop sys sh commands n k (i + 1) 0
                        (pids ++ [sys.fork_at i])).outcome,
          trace := .fork (sys.fork_at i)
            :: ((if in_fd ≠ 0 then [.close in_fd] else [])
                ++ (launch_loop sys sh commands n k (i + 1) 0
                        (pids ++ [sys.fork_at i])).trace),
          pids := (launch_loop sys sh commands n k (i + 1) 0
                        (pids ++ [sys.fork_at i])).pids } := by
  have h1 : ¬ sys.fork_at i = -1 := by omega
  have h2 : ¬ sys.fork_at i = 0 := by omega
  rw [launch_loop]
  simp [hi, h1, h2]


theorem pipe_ok_some (sys : Sys) (i : Nat) (h : sys.pipe_ok i = true) :
    ∃ fd, sys.pipe_at i = some fd ∧ fd.1 ≠ 0 ∧ fd.1 ≠ 1 ∧ fd.2 ≠ 0 ∧ fd.2 ≠ 1 := by
  unfold Sys.pipe_ok at h
  cases hp : sys.pipe_at i with
  | none => rw [hp] at h; cases h
  | some fd =>
    rw [hp] at h
    simp only [decide_eq_true_eq] at h
    exact ⟨fd, rfl, h⟩

theorem forks_of_append (a b : List Event) : forks_of (a ++ b) = forks_of a ++ forks_of b := by
  induction a with
  | nil => rfl
  | cons e rest ih => cases e <;> simp [forks_of, ih]

theorem pipes_of_append (a b : List Event) : pipes_of (a ++ b) = pipes_of a ++ pipes_of b := by
  induction a with
  | nil => rfl
  | cons e rest ih => cases e <;> simp [pipes_of, ih]

theorem closes_of_append (a b : List Event) :
    closes_of (a ++ b) = closes_of a ++ closes_of b := by
  induction a with
  | nil => rfl
  | cons e rest ih => cases e <;> simp [closes_of, ih]

theorem close_if_lists (c : Prop) [Decidable c] (x : Int) :
    forks_of (if c then [Event.close x] else []) = []
    ∧ pipes_of (if c then [Event.close x] else []) = []
    ∧ closes_of (if c then [Event.close x] else []) = (if c then [x] else []) := by
  split_ifs <;> exact ⟨rfl, rfl, rfl⟩

/-- The launch loop when every `pipe` and `fork` call succeeds and the shell
is followed: what it does from pass `i` on, with `k` passes to go. -/
theorem launch_loop_parent (sys : Sys) (sh : ShellState) (commands : List (List Char))
    (n : Nat) (hpipe : ∀ j, j + 1 < n → sys.pipe_ok j = true)
    (hfork : ∀ j, j < n → 0 < sys.fork_at j) :
    ∀ (k i : Nat) (in_fd : Int) (pids : List Int), i + k = n →
      (launch_loop sys sh commands n k i in_fd pids).outcome = none
      ∧ (launch_loop sys sh commands n k i in_fd pids).pids
          = pids ++ (List.range' i k).map sys.fork_at
      ∧ forks_of (launch_loop sys sh commands n k i in_fd pids).trace
          = (List.range' i k).map sys.fork_at
      ∧ pipes_of (launch_loop sys sh commands n k i in_fd pids).trace
          = (List.range' i (k - 1)).map sys.pipe_at
      ∧ closes_of (launch_loop sys sh commands n k i in_fd pids).trace
          = (if in_fd ≠ 0 ∧ 0 < k then [in_fd] else [])
              ++ (List.range' i (k - 1)).flatMap (pipe_fds sys) := by
  intro k
  induction k with
  | zero =>
    intro i in_fd pids _
    simp [launch_loop, forks_of, pipes_of, closes_of]
  | succ k ih =>
    intro i in_fd pids hik
    have hf := hfork i (by omega)
    have hc := close_if_lists (in_fd ≠ 0) in_fd
    by_cases hi : i + 1 < n
    · obtain ⟨fd, hp, h0, _, _, _⟩ := pipe_ok_some sys i (hpipe i hi)
      obtain ⟨k', rfl⟩ : ∃ k', k = k' + 1 := ⟨k - 1, by omega⟩
      obtain ⟨i1, i2, i3, i4, i5⟩ := ih (i + 1) fd.1 (pids ++ [sys.fork_at i]) (by omega)
      rw [launch_loop_pass sys sh commands n (k' + 1) i in_fd pids fd hi hp hf]
      refine ⟨i1, ?_, ?_, ?_, ?_⟩
      · simp only [i2, List.range'_succ, List.map_cons, List.append_assoc,
          List.singleton_append]
      · simp only [forks_of, forks_of_append, hc.1, i3, List.nil_append]
        simp [List.range'_succ]
      · simp only [pipes_of, pipes_of_append, hc.2.1, i4, List.nil_append]
        simp [List.range'_succ, hp]
      · simp only [closes_of, closes_of_append, hc.2.2, i5]
        simp [List.range'_succ, pipe_fds, hp, h0]
    · have hk : k = 0 := by omega
      subst hk
      rw [launch_loop_last sys sh commands n 0 i in_fd pids hi hf]
      by_cases hin : in_fd = 0
      · simp [launch_loop, forks_of, pipes_of, closes_of, hin]
      · simp [launch_loop, forks_of, pipes_of, closes_of, hin]


theorem fd_after_cons (t : FdTable) (e : Event) (rest : List Event) :
    fd_after t (e :: rest) = fd_after (fd_step t e) rest := rfl

theorem fd_after_close_if (t : FdTable) (c : Prop) [Decidable c] (x : Int) :
    fd_after t (if c then [Event.close x] else []) = (if c then t.set x none else t) := by
  split_ifs <;> rfl

/-- The descriptor table of the shell over the launch loop, when every `pipe`
and `fork` call succeeds with pipe descriptors other than 0 and 1: if on
entry to pass `i` the only pipe end the shell holds is `in_fd`, then at the
end of the loop it holds none, and its descriptors 0 and 1 are as before. -/
theorem launch_loop_parent_table (sys : Sys) (sh : ShellState)
    (commands : List (List Char)) (n : Nat)
    (hpipe : ∀ j, j + 1 < n → sys.pipe_ok j = true)
    (hfork : ∀ j, j < n → 0 < sys.fork_at j) :
    ∀ (k i : Nat) (in_fd : Int) (pids : List Int) (T : FdTable), i + k = n →
      (0 < k ∨ in_fd = 0) → in_fd ≠ 1 →
      (∀ x, T.holds_pipe x = true → x = in_fd ∧ in_fd ≠ 0) →
      (∀ x, (fd_after T (launch_loop sys sh commands n k i in_fd pids).trace).holds_pipe x
          = false)
      ∧ fd_after T (launch_loop sys sh commands n k i in_fd pids).trace 0 = T 0
      ∧ fd_after T (launch_loop sys sh commands n k i in_fd pids).trace 1 = T 1 := by
  intro k
  induction k with
  | zero =>
    intro i in_fd pids T _ hk _ hinv
    have h0 : in_fd = 0 := by
      rcases hk with hk | hk
      · omega
      · exact hk
    refine ⟨?_, rfl, rfl⟩
    intro x
    show T.holds_pipe x = false
    cases hx : T.holds_pipe x with
    | false => rfl
    | true => exact absurd h0 (hinv x hx).2
  | succ k ih =>
    intro i in_fd pids T hik _ hin1 hinv
    have hf := hfork i (by omega)
    by_cases hi : i + 1 < n
    · obtain ⟨fd, hp, r0, r1, w0, w1⟩ := pipe_ok_some sys i (hpipe i hi)
      rw [launch_loop_pass sys sh commands n k i in_fd pids fd hi hp hf]
      simp only [fd_after_cons, fd_after_append, fd_after_close_if, fd_step]
      have hstep := ih (i + 1) fd.1 (pids ++ [sys.fork_at i])
        ((if in_fd ≠ 0 then
            ((T.set fd.1 (some (.pipe_end true fd))).set fd.2
              (some (.pipe_end false fd))).set in_fd none
          else (T.set fd.1 (some (.pipe_end true fd))).set fd.2
              (some (.pipe_end false fd))).set fd.2 none)
        (by omega) (Or.inl (by omega)) r1 ?_
      · obtain ⟨s1, s2, s3⟩ := hstep
        refine ⟨s1, ?_, ?_⟩
        · rw [s2]
          by_cases hin : in_fd = 0
          · simp [FdTable.set, hin, Ne.symm w0, Ne.symm r0]
          · simp [FdTable.set, hin, Ne.symm w0, Ne.symm r0, Ne.symm hin]
        · rw [s3]
          by_cases hin : in_fd = 0
          · simp [FdTable.set, hin, Ne.symm w1, Ne.symm r1]
          · simp [FdTable.set, hin, Ne.symm w1, Ne.symm r1, Ne.symm hin1]
      · intro x hx
        refine ⟨?_, r0⟩
        by_contra hxr
        have hT : T.holds_pipe x = true := by
          by_cases hxw : x = fd.2
          · simp [FdTable.holds_pipe, FdTable.set, hxw] at hx
          · by_cases hin : in_fd = 0
            · simpa [FdTable.holds_pipe, FdTable.set, hxw, hxr, hin] using hx
            · by_cases hxi : x = in_fd
              · simp [FdTable.holds_pipe, FdTable.set, hxw, hin, hxi] at hx
              · simpa [FdTable.holds_pipe, FdTable.set, hxw, hxr, hin, hxi] using hx
        have hxi := (hinv x hT).1
        have hin := (hinv x hT).2
        subst hxi
        by_cases hxw : x = fd.2
        · simp [FdTable.holds_pipe, FdTable.set, hxw] at hx
        · simp [FdTable.holds_pipe, FdTable.set, hxw, hin] at hx
    · have hk : k = 0 := by omega
      subst hk
      rw [launch_loop_last sys sh commands n 0 i in_fd pids hi hf]
      simp only [fd_after_cons, fd_after_append, fd_after_close_if, fd_step, launch_loop]
      refine ⟨?_, ?_, ?_⟩
      · intro x
        show (if in_fd ≠ 0 then T.set in_fd none else T).holds_pipe x = false
        cases hx : (if in_fd ≠ 0 then T.set in_fd none else T).holds_pipe x with
        | false => rfl
        | true =>
          exfalso
          by_cases hin : in_fd = 0
          · simp only [hin, ne_eq, not_true_eq_false, if_false] at hx
            exact (hinv x hx).2 hin
          · by_cases hxi : x = in_fd
            · simp [FdTable.holds_pipe, FdTable.set, hin, hxi] at hx
            · have : T.holds_pipe x = true := by
                simpa [FdTable.holds_pipe, FdTable.set, hin, hxi] using hx
              exact hxi (hinv x this).1
      · show (if in_fd ≠ 0 then T.set in_fd none else T) 0 = T 0
        by_cases hin : in_fd = 0
        · simp [hin]
        · simp [FdTable.set, hin, Ne.symm hin]
      · show (if in_fd ≠ 0 then T.set in_fd none else T) 1 = T 1
        by_cases hin : in_fd = 0
        · simp [hin]
        · simp [FdTable.set, hin, Ne.symm hin1]


/-- C25: for a stage count N ≥ 1, when every `pipe` call succeeds with
descriptors other than 0 and 1 and every `fork` call succeeds (the shell is
followed), the launch loop of `execute_piped_commands` ends in the shell
after it created exactly N - 1 pipes and forked exactly N children, in stage
order, whose pids it recorded.  The descriptors it closed are exactly the two
ends of each pipe it created, each once (write end of pipe i in pass i, read
end of pipe i in pass i + 1); 0 and 1 are never closed; and when the loop
ends no descriptor of the shell refers to a pipe end, while 0 and 1 refer to
what they referred to before. -/
theorem launch_loop_descriptors (sys : Sys) (sh : ShellState) (commands : List (List Char))
    (n : Nat) (hn : 1 ≤ n) (hpipe : ∀ j, j + 1 < n → sys.pipe_ok j = true)
    (hfork : ∀ j, j < n → 0 < sys.fork_at j) :
    (launch_loop sys sh commands n n 0 0 []).outcome = none
    ∧ pipes_of (launch_loop sys sh commands n n 0 0 []).trace
        = (List.range (n - 1)).map sys.pipe_at
    ∧ (pipes_of (launch_loop sys sh commands n n 0 0 []).trace).length = n - 1
    ∧ forks_of (launch_loop sys sh commands n n 0 0 []).trace
        = (List.range n).map sys.fork_at
    ∧ (forks_of (launch_loop sys sh commands n n 0 0 []).trace).length = n
    ∧ (launch_loop sys sh commands n n 0 0 []).pids = (List.range n).map sys.fork_at
    ∧ closes_of (launch_loop sys sh commands n n 0 0 []).trace
        = (List.range (n - 1)).flatMap (pipe_fds sys)
    ∧ (0 : Int) ∉ closes_of (launch_loop sys sh commands n n 0 0 []).trace
    ∧ (1 : Int) ∉ closes_of (launch_loop sys sh commands n n 0 0 []).trace
    ∧ (∀ T : FdTable, (∀ x, T.holds_pipe x = false) →
        (∀ x, (fd_after T (launch_loop sys sh commands n n 0 0 []).trace).holds_pipe x
            = false)
        ∧ fd_after T (launch_loop sys sh commands n n 0 0 []).trace 0 = T 0
        ∧ fd_after T (launch_loop sys sh commands n n 0 0 []).trace 1 = T 1)
    ∧ (sys.malloc_pids = true →
        (execute_piped_commands sys sh commands n).trace
          = (launch_loop sys sh commands n n 0 0 []).trace
            ++ (wait_all ((List.range n).map sys.fork_at) sys.status0 sys.waits).1) := by
  obtain ⟨h1, h2, h3, h4, h5⟩ :=
    launch_loop_parent sys sh commands n hpipe hfork n 0 0 [] (by omega)
  simp only [ne_eq, not_true_eq_false, false_and, if_false, List.nil_append,
    ← List.range_eq_range'] at h2 h3 h4 h5
  have hmem : ∀ x ∈ (List.range (n - 1)).flatMap (pipe_fds sys), x ≠ 0 ∧ x ≠ 1 := by
    intro x hx
    obtain ⟨j, hj, hxj⟩ := List.mem_flatMap.mp hx
    obtain ⟨fd, hp, r0, r1, w0, w1⟩ :=
      pipe_ok_some sys j (hpipe j (by have := List.mem_range.mp hj; omega))
    simp only [pipe_fds, hp, List.mem_cons, List.mem_singleton, List.not_mem_nil,
      or_false] at hxj
    rcases hxj with rfl | rfl
    · exact ⟨w0, w1⟩
    · exact ⟨r0, r1⟩
  refine ⟨h1, h4, by rw [h4]; simp, h3, by rw [h3]; simp, h2, h5, ?_, ?_, ?_, ?_⟩
  · rw [h5]; exact fun h => (hmem 0 h).1 rfl
  · rw [h5]; exact fun h => (hmem 1 h).2 rfl
  · intro T hT
    exact launch_loop_parent_table sys sh commands n hpipe hfork n 0 0 [] T (by omega)
      (Or.inr rfl) (by decide) (fun x hx => by rw [hT x] at hx; cases hx)
  · intro hm
    unfold execute_piped_commands
    simp only [hm, Bool.not_true, Bool.false_eq_true, if_false, h1, h2]
    split_ifs <;> rfl

/-- C25 at three stages with the pipes (7, 8) and (9, 10) and the children
100, 101, 102: two pipes, three forks, the closes 8, 7, 10, 9, and no pipe end
left in the shell. -/
theorem launch_loop_descriptors_witness :
    (launch_loop Sys.example (ShellState.initial [] [])
        ["a".toList, "b".toList, "c".toList] 3 3 0 0 []).trace
      = [.pipe (some (7, 8)), .fork 100, .close 8, .pipe (some (9, 10)), .fork 101,
         .close 7, .close 10, .fork 102, .close 9]
    ∧ closes_of (launch_loop Sys.example (ShellState.initial [] [])
        ["a".toList, "b".toList, "c".toList] 3 3 0 0 []).trace = [8, 7, 10, 9]
    ∧ ∀ x, (fd_after FdTable.start (launch_loop Sys.example (ShellState.initial [] [])
        ["a".toList, "b".toList, "c".toList] 3 3 0 0 []).trace).holds_pipe x = false :=
  ⟨by decide, by decide,
    ((launch_loop_descriptors Sys.example (ShellState.initial [] [])
      ["a".toList, "b".toList, "c".toList] 3 (by decide)
      (fun j hj => by
        have hj2 : j = 0 ∨ j = 1 := by omega
        rcases hj2 with rfl | rfl <;> rfl)
      (fun j hj => by
        have hj3 : j = 0 ∨ j = 1 ∨ j = 2 := by omega
        rcases hj3 with rfl | rfl | rfl <;> decide)).2.2.2.2.2.2.2.2.2.1
      FdTable.start (fun x => by
        unfold FdTable.holds_pipe FdTable.start
        split_ifs <;> rfl)).1⟩


/-! ### C21: the descriptors of a pipeline child at `execvp` -/

theorem child_redirect_ok (sys : Sys) (input_file output_file : Option (List Char))
    (h : sys.child_calls_ok = true) :
    child_redirect sys input_file output_file
      = (child_input_events sys input_file ++ child_output_events sys output_file, true) := by
  simp only [Sys.child_calls_ok, decide_eq_true_eq] at h
  obtain ⟨_, _, a1, _, _, a2, b1, _, _, b2⟩ := h
  cases input_file <;> cases output_file <;>
    simp [child_redirect, child_input_events, child_output_events, a1, a2, b1, b2]

/-- The trace of the child forked for stage `i` when its calls succeed. -/
theorem pipe_child_trace (sys : Sys) (sh : ShellState) (commands : List (List Char))
    (n i : Nat) (in_fd : Int) (fd : Int × Int) (command : List Char)
    (hcalls : sys.child_calls_ok = true) (hcmd : commands[i]? = some command)
    (hargv : (parse_command command).argv ≠ []) :
    pipe_child sys sh commands n i in_fd fd
      = { outcome := .child_end,
          trace := [.fork 0, .signals_default]
            ++ (if in_fd ≠ 0 then [.dup2 in_fd 0 sys.dup2_pipe_in, .close in_fd] else [])
            ++ (if i + 1 < n then [.dup2 fd.2 1 sys.dup2_pipe_out, .close fd.2, .close fd.1]
                else [])
            ++ (child_input_events sys (parse_command command).input_file
                ++ child_output_events sys (parse_command command).output_file)
            ++ exec_events sys (parse_command command).argv,
          shell := sh } := by
  have hr := child_redirect_ok sys (parse_command command).input_file
    (parse_command command).output_file hcalls
  simp only [Sys.child_calls_ok, decide_eq_true_eq] at hcalls
  obtain ⟨d1, d2, _⟩ := hcalls
  unfold pipe_child
  simp only [d1, d2, and_false, if_false, hcmd]
  cases ha : (parse_command command).argv with
  | nil => exact absurd ha hargv
  | cons a rest =>
    simp only [hr, Bool.not_true, Bool.false_eq_true, if_false, exec_events]

/-- The pass of the launch loop in which the process followed is the child. -/
theorem launch_loop_child (sys : Sys) (sh : ShellState) (commands : List (List Char))
    (n k i : Nat) (in_fd : Int) (pids : List Int) (hf : sys.fork_at i = 0) :
    (∀ fd, i + 1 < n → sys.pipe_at i = some fd →
      launch_loop sys sh commands n (k + 1) i in_fd pids
        = { outcome := some (pipe_child sys sh commands n i in_fd fd).outcome,
            trace := .pipe (some fd) :: (pipe_child sys sh commands n i in_fd fd).trace,
            pids := pids })
    ∧ (¬ i + 1 < n →
      launch_loop sys sh commands n (k + 1) i in_fd pids
        = { outcome := some (pipe_child sys sh commands n i in_fd (0, 1)).outcome,
            trace := (pipe_child sys sh commands n i in_fd (0, 1)).trace,
            pids := pids }) := by
  refine ⟨?_, ?_⟩
  · intro fd hi hp
    rw [launch_loop]
    simp [hi, hp, hf]
  · intro hi
    rw [launch_loop]
    simp [hi, hf]


/-- The per-stage redirections of a pipeline child, on a table in which no
descriptor besides 0 and 1 refers to a pipe end: a target is put on 0 or on 1
and nothing else changes what 0 and 1 refer to; still no other descriptor
refers to a pipe end. -/
theorem child_redirect_table (sys : Sys) (hcalls : sys.child_calls_ok = true)
    (input_file output_file : Option (List Char)) (TA : FdTable)
    (hA : ∀ x, x ≠ 0 → x ≠ 1 → TA.holds_pipe x = false) :
    fd_after TA (child_input_events sys input_file ++ child_output_events sys output_file) 0
      = (match input_file with
          | some file => some (.target file false)
          | none => TA 0)
    ∧ fd_after TA (child_input_events sys input_file
          ++ child_output_events sys output_file) 1
      = (match output_file with
          | some file => some (.target file true)
          | none => TA 1)
    ∧ ∀ x, x ≠ 0 → x ≠ 1 →
        (fd_after TA (child_input_events sys input_file
          ++ child_output_events sys output_file)).holds_pipe x = false := by
  simp only [Sys.child_calls_ok, decide_eq_true_eq] at hcalls
  obtain ⟨_, _, a1, a00, a01, a2, b1, b00, b01, b2⟩ := hcalls
  have a00' := Ne.symm a00
  have a01' := Ne.symm a01
  have b00' := Ne.symm b00
  have b01' := Ne.symm b01
  cases input_file <;> cases output_file <;>
    simp only [child_input_events, child_output_events, List.nil_append, List.append_nil,
      List.cons_append, fd_after_cons, fd_step, a1, a2, b1, b2, if_false] <;>
    refine ⟨?_, ?_, ?_⟩ <;>
    (try (intro x hx0 hx1; have hAx := hA x hx0 hx1)) <;>
    simp_all [fd_after, FdTable.set, FdTable.holds_pipe] <;>
    (try split_ifs) <;> simp_all [OpenFile.is_pipe_end]


/-- The two `dup2` steps of a pipeline child onto the pipe ends, on the table
`T1` it inherits: afterwards 0 refers to what `in_fd` referred to (for a stage
other than the first), 1 refers to what the write end of the new pipe
referred to (for a stage other than the last), and no descriptor besides 0
and 1 refers to a pipe end. -/
theorem pipe_child_dups_table (sys : Sys) (n i : Nat) (in_fd : Int) (fd : Int × Int)
    (T1 : FdTable) (hd1 : sys.dup2_pipe_in ≠ -1) (hd2 : sys.dup2_pipe_out ≠ -1)
    (hin1 : in_fd ≠ 1)
    (hfd : i + 1 < n → fd.1 ≠ 0 ∧ fd.1 ≠ 1 ∧ fd.2 ≠ 0 ∧ fd.2 ≠ 1 ∧ fd.2 ≠ in_fd)
    (hinv : ∀ x, T1.holds_pipe x = true →
      (x = in_fd ∧ in_fd ≠ 0) ∨ (i + 1 < n ∧ (x = fd.1 ∨ x = fd.2))) :
    fd_after T1 ([.fork 0, .signals_default]
        ++ (if in_fd ≠ 0 then [.dup2 in_fd 0 sys.dup2_pipe_in, .close in_fd] else [])
        ++ (if i + 1 < n then [.dup2 fd.2 1 sys.dup2_pipe_out, .close fd.2, .close fd.1]
            else [])) 0
      = (if in_fd ≠ 0 then T1 in_fd else T1 0)
    ∧ fd_after T1 ([.fork 0, .signals_default]
        ++ (if in_fd ≠ 0 then [.dup2 in_fd 0 sys.dup2_pipe_in, .close in_fd] else [])
        ++ (if i + 1 < n then [.dup2 fd.2 1 sys.dup2_pipe_out, .close fd.2, .close fd.1]
            else [])) 1
      = (if i + 1 < n then T1 fd.2 else T1 1)
    ∧ ∀ x, x ≠ 0 → x ≠ 1 →
        (fd_after T1 ([.fork 0, .signals_default]
          ++ (if in_fd ≠ 0 then [.dup2 in_fd 0 sys.dup2_pipe_in, .close in_fd] else [])
          ++ (if i + 1 < n then [.dup2 fd.2 1 sys.dup2_pipe_out, .close fd.2, .close fd.1]
              else []))).holds_pipe x = false := by
  by_cases hi : i + 1 < n
  · obtain ⟨r0, r1, w0, w1, wi⟩ := hfd hi
    have r0' := Ne.symm r0
    have r1' := Ne.symm r1
    have w0' := Ne.symm w0
    have w1' := Ne.symm w1
    have hin1' := Ne.symm hin1
    by_cases hin : in_fd = 0
    · subst hin
      simp only [ne_eq, not_true_eq_false, if_false, hi, if_true, List.append_nil,
        List.cons_append, List.nil_append, fd_after_cons, fd_step, hd2]
      refine ⟨?_, ?_, ?_⟩
      · simp [fd_after, FdTable.set, r0', w0']
      · simp [fd_after, FdTable.set, r1', w1']
      · intro x hx0 hx1
        cases hx : T1.holds_pipe x with
        | false =>
          simp only [FdTable.holds_pipe] at hx ⊢
          simp only [fd_after, List.foldl, FdTable.set, hx0, hx1, if_false]
          split_ifs <;> simp_all
        | true =>
          rcases hinv x hx with ⟨_, h⟩ | ⟨_, rfl | rfl⟩
          · exact absurd rfl h
          · simp [fd_after, FdTable.set, FdTable.holds_pipe]
          · simp [fd_after, FdTable.set, FdTable.holds_pipe]
    · have hin' := Ne.symm hin
      simp only [ne_eq, hin, not_false_eq_true, if_true, hi, List.cons_append,
        List.nil_append, fd_after_cons, fd_step, hd1, hd2, if_false]
      refine ⟨?_, ?_, ?_⟩
      · simp [fd_after, FdTable.set, r0', w0', hin']
      · simp [fd_after, FdTable.set, r1', w1', hin1', wi, w0]
      · intro x hx0 hx1
        cases hx : T1.holds_pipe x with
        | false =>
          simp only [FdTable.holds_pipe] at hx ⊢
          simp only [fd_after, List.foldl, FdTable.set, hx0, hx1, if_false]
          split_ifs <;> simp_all
        | true =>
          rcases hinv x hx with ⟨rfl, _⟩ | ⟨_, rfl | rfl⟩
          · simp [fd_after, FdTable.set, FdTable.holds_pipe, hx1]
          · simp [fd_after, FdTable.set, FdTable.holds_pipe]
          · simp [fd_after, FdTable.set, FdTable.holds_pipe]
  · have hin1' := Ne.symm hin1
    by_cases hin : in_fd = 0
    · subst hin
      simp only [ne_eq, not_true_eq_false, if_false, hi, List.append_nil,
        fd_after_cons, fd_step]
      refine ⟨rfl, rfl, ?_⟩
      intro x hx0 hx1
      cases hx : T1.holds_pipe x with
      | false => exact hx
      | true =>
        rcases hinv x hx with ⟨_, h⟩ | ⟨h, _⟩
        · exact absurd rfl h
        · exact absurd h hi
    · have hin' := Ne.symm hin
      simp only [ne_eq, hin, not_false_eq_true, if_true, hi, if_false, List.cons_append,
        List.nil_append, List.append_nil, fd_after_cons, fd_step, hd1]
      refine ⟨?_, ?_, ?_⟩
      · simp [fd_after, FdTable.set, hin']
      · simp [fd_after, FdTable.set, hin1']
      · intro x hx0 hx1
        cases hx : T1.holds_pipe x with
        | false =>
          simp only [FdTable.holds_pipe] at hx ⊢
          simp only [fd_after, List.foldl, FdTable.set, hx0, hx1, if_false]
          split_ifs <;> simp_all
        | true =>
          rcases hinv x hx with ⟨rfl, _⟩ | ⟨h, _⟩
          · simp [fd_after, FdTable.set, FdTable.holds_pipe]
          · exact absurd h hi


theorem pipe_fresh_some (sys : Sys) (i : Nat) (h : sys.pipe_fresh i = true) :
    ∃ fd, sys.pipe_at i = some fd ∧ fd.1 ≠ 0 ∧ fd.1 ≠ 1 ∧ fd.2 ≠ 0 ∧ fd.2 ≠ 1 ∧ fd.1 ≠ fd.2
      ∧ (0 < i → ∃ before, sys.pipe_at (i - 1) = some before
          ∧ fd.1 ≠ before.1 ∧ fd.2 ≠ before.1) := by
  unfold Sys.pipe_fresh at h
  cases hp : sys.pipe_at i with
  | none => rw [hp] at h; cases h
  | some fd =>
    rw [hp] at h
    simp only [Bool.and_eq_true, decide_eq_true_eq] at h
    obtain ⟨⟨r0, r1, w0, w1, rw⟩, h2⟩ := h
    refine ⟨fd, rfl, r0, r1, w0, w1, rw, ?_⟩
    intro hi
    cases i with
    | zero => omega
    | succ i =>
      simp only [Nat.add_sub_cancel] at h2 ⊢
      cases hb : sys.pipe_at i with
      | none => rw [hb] at h2; simp at h2
      | some before =>
        rw [hb] at h2
        simp only [decide_eq_true_eq] at h2
        exact ⟨before, rfl, h2⟩

/-- One pass of the shell keeps the shape of its table: after the pass the
only pipe end it holds is the read end of the pipe just created, and 0 and 1
refer to what they referred to before. -/
theorem parent_pass_table (T : FdTable) (in_fd : Int) (fd : Int × Int)
    (r0 : fd.1 ≠ 0) (r1 : fd.1 ≠ 1) (w0 : fd.2 ≠ 0) (w1 : fd.2 ≠ 1) (hrw : fd.1 ≠ fd.2)
    (hri : fd.1 ≠ in_fd) (hin1 : in_fd ≠ 1)
    (hinv : ∀ x, T.holds_pipe x = true → x = in_fd ∧ in_fd ≠ 0) :
    (∀ x, ((if in_fd ≠ 0 then
              ((T.set fd.1 (some (.pipe_end true fd))).set fd.2
                (some (.pipe_end false fd))).set in_fd none
            else (T.set fd.1 (some (.pipe_end true fd))).set fd.2
                (some (.pipe_end false fd))).set fd.2 none).holds_pipe x = true →
        x = fd.1 ∧ fd.1 ≠ 0)
    ∧ ((if in_fd ≠ 0 then
              ((T.set fd.1 (some (.pipe_end true fd))).set fd.2
                (some (.pipe_end false fd))).set in_fd none
            else (T.set fd.1 (some (.pipe_end true fd))).set fd.2
                (some (.pipe_end false fd))).set fd.2 none) fd.1
        = some (.pipe_end true fd)
    ∧ ((if in_fd ≠ 0 then
              ((T.set fd.1 (some (.pipe_end true fd))).set fd.2
                (some (.pipe_end false fd))).set in_fd none
            else (T.set fd.1 (some (.pipe_end true fd))).set fd.2
                (some (.pipe_end false fd))).set fd.2 none) 0 = T 0
    ∧ ((if in_fd ≠ 0 then
              ((T.set fd.1 (some (.pipe_end true fd))).set fd.2
                (some (.pipe_end false fd))).set in_fd none
            else (T.set fd.1 (some (.pipe_end true fd))).set fd.2
                (some (.pipe_end false fd))).set fd.2 none) 1 = T 1 := by
  refine ⟨?_, ?_, ?_, ?_⟩
  · intro x hx
    refine ⟨?_, r0⟩
    by_contra hxr
    have hT : T.holds_pipe x = true := by
      by_cases hxw : x = fd.2
      · simp [FdTable.holds_pipe, FdTable.set, hxw] at hx
      · by_cases hin : in_fd = 0
        · simpa [FdTable.holds_pipe, FdTable.set, hxw, hxr, hin] using hx
        · by_cases hxi : x = in_fd
          · simp [FdTable.holds_pipe, FdTable.set, hxw, hin, hxi] at hx
          · simpa [FdTable.holds_pipe, FdTable.set, hxw, hxr, hin, hxi] using hx
    have hxi := (hinv x hT).1
    have hin := (hinv x hT).2
    subst hxi
    by_cases hxw : x = fd.2
    · simp [FdTable.holds_pipe, FdTable.set, hxw] at hx
    · simp [FdTable.holds_pipe, FdTable.set, hxw, hin] at hx
  · by_cases hin : in_fd = 0
    · simp [FdTable.set, hin, hrw]
    · simp [FdTable.set, hin, hrw, hri]
  · by_cases hin : in_fd = 0
    · simp [FdTable.set, hin, Ne.symm w0, Ne.symm r0]
    · simp [FdTable.set, hin, Ne.symm w0, Ne.symm r0, Ne.symm hin]
  · by_cases hin : in_fd = 0
    · simp [FdTable.set, hin, Ne.symm w1, Ne.symm r1]
    · simp [FdTable.set, hin, Ne.symm w1, Ne.symm r1, Ne.symm hin1]


/-- The process that is the shell up to pass `i` of the launch loop and the
child from the `fork` of pass `i` on, followed from pass `j ≤ i` with the
table `T`: it reaches `execvp`, and at that moment its descriptors 0 and 1
refer to the stage's own targets or else to the pipe ends (or to what the
shell had there), and no other descriptor refers to a pipe end. -/
theorem launch_loop_to_child (sys : Sys) (sh : ShellState) (commands : List (List Char))
    (n i : Nat) (command : List Char) (hi : i < n) (hcmd : commands[i]? = some command)
    (hargv : (parse_command command).argv ≠ [])
    (hfresh : ∀ j, j ≤ i → j + 1 < n → sys.pipe_fresh j = true)
    (hparent : ∀ j, j < i → 0 < sys.fork_at j) (hchild : sys.fork_at i = 0)
    (hcalls : sys.child_calls_ok = true) (a b : Option OpenFile) :
    ∀ (k j : Nat) (in_fd : Int) (pids : List Int) (T : FdTable), j + k = n → j ≤ i →
      (∀ x, T.holds_pipe x = true → x = in_fd ∧ in_fd ≠ 0) → in_fd ≠ 1 →
      (j = 0 → in_fd = 0) →
      (0 < j → ∃ before, sys.pipe_at (j - 1) = some before ∧ in_fd = before.1 ∧ in_fd ≠ 0
          ∧ T in_fd = some (.pipe_end true before)) →
      T 0 = a → T 1 = b →
      (launch_loop sys sh commands n k j in_fd pids).outcome = some .child_end
      ∧ ∃ pre, (launch_loop sys sh commands n k j in_fd pids).trace
            = pre ++ exec_events sys (parse_command command).argv
          ∧ fd_after T pre 0
            = (match (parse_command command).input_file with
                | some file => some (.target file false)
                | none =>
                  if i = 0 then a else (sys.pipe_at (i - 1)).map (OpenFile.pipe_end true))
          ∧ fd_after T pre 1
            = (match (parse_command command).output_file with
                | some file => some (.target file true)
                | none =>
                  if i + 1 < n then (sys.pipe_at i).map (OpenFile.pipe_end false) else b)
          ∧ ∀ x, x ≠ 0 → x ≠ 1 → (fd_after T pre).holds_pipe x = false := by
  have hc := hcalls
  simp only [Sys.child_calls_ok, decide_eq_true_eq] at hc
  obtain ⟨hd1, hd2, _⟩ := hc
  intro k
  induction k with
  | zero => intro j _ _ _ hjk hji; omega
  | succ k ih =>
    intro j in_fd pids T hjk hji hinv hin1 hj0 hjpos h0 h1
    rcases Nat.lt_or_eq_of_le hji with hlt | rfl
    · -- a pass of the shell
      obtain ⟨fd, hp, r0, r1, w0, w1, hrw, hprev⟩ :=
        pipe_fresh_some sys j (hfresh j hji (by omega))
      have hri : fd.1 ≠ in_fd := by
        rcases Nat.eq_zero_or_pos j with hz | hpos
        · rw [hj0 hz]; exact r0
        · obtain ⟨before, hb, e1, _⟩ := hjpos hpos
          obtain ⟨before2, hb2, e2, _⟩ := hprev hpos
          rw [hb] at hb2
          cases hb2
          rw [e1]; exact e2
      obtain ⟨p1, p2, p3, p4⟩ := parent_pass_table T in_fd fd r0 r1 w0 w1 hrw hri hin1 hinv
      rw [launch_loop_pass sys sh commands n k j in_fd pids fd (by omega) hp
        (hparent j hlt)]
      obtain ⟨o, pre, htr, c0, c1, c2⟩ := ih (j + 1) fd.1 (pids ++ [sys.fork_at j])
        ((if in_fd ≠ 0 then
            ((T.set fd.1 (some (.pipe_end true fd))).set fd.2
              (some (.pipe_end false fd))).set in_fd none
          else (T.set fd.1 (some (.pipe_end true fd))).set fd.2
              (some (.pipe_end false fd))).set fd.2 none)
        (by omega) (by omega) p1 r1 (by omega)
        (fun _ => ⟨fd, by simpa using hp, rfl, r0, p2⟩) (p3.trans h0) (p4.trans h1)
      refine ⟨o, .pipe (some fd) :: .fork (sys.fork_at j)
        :: ((if in_fd ≠ 0 then [.close in_fd] else []) ++ .close fd.2 :: pre), ?_, ?_, ?_, ?_⟩
      · simp only [htr, List.cons_append, List.append_assoc]
      · simp only [fd_after_cons, fd_after_append, fd_after_close_if, fd_step]
        exact c0
      · simp only [fd_after_cons, fd_after_append, fd_after_close_if, fd_step]
        exact c1
      · simp only [fd_after_cons, fd_after_append, fd_after_close_if, fd_step]
        exact c2
    · -- the pass in which the child is forked
      by_cases hlast : j + 1 < n
      · obtain ⟨fd, hp, r0, r1, w0, w1, hrw, hprev⟩ :=
          pipe_fresh_some sys j (hfresh j le_rfl hlast)
        have hwi : fd.2 ≠ in_fd ∧ fd.1 ≠ in_fd := by
          rcases Nat.eq_zero_or_pos j with hz | hpos
          · rw [hj0 hz]; exact ⟨w0, r0⟩
          · obtain ⟨before, hb, e1, _⟩ := hjpos hpos
            obtain ⟨before2, hb2, e2, e3⟩ := hprev hpos
            rw [hb] at hb2
            cases hb2
            rw [e1]; exact ⟨e3, e2⟩
        rw [(launch_loop_child sys sh commands n k j in_fd pids hchild).1 fd hlast hp,
          pipe_child_trace sys sh commands n j in_fd fd command hcalls hcmd hargv]
        have hT1 : ∀ x, ((T.set fd.1 (some (.pipe_end true fd))).set fd.2
              (some (.pipe_end false fd))).holds_pipe x = true →
            (x = in_fd ∧ in_fd ≠ 0) ∨ (j + 1 < n ∧ (x = fd.1 ∨ x = fd.2)) := by
          intro x hx
          by_cases hxw : x = fd.2
          · exact Or.inr ⟨hlast, Or.inr hxw⟩
          · by_cases hxr : x = fd.1
            · exact Or.inr ⟨hlast, Or.inl hxr⟩
            · exact Or.inl (hinv x (by
                simpa [FdTable.holds_pipe, FdTable.set, hxw, hxr] using hx))
        obtain ⟨a0, a1, a2⟩ := pipe_child_dups_table sys n j in_fd fd
          ((T.set fd.1 (some (.pipe_end true fd))).set fd.2 (some (.pipe_end false fd)))
          hd1 hd2 hin1 (fun _ => ⟨r0, r1, w0, w1, hwi.1⟩) hT1
        obtain ⟨b0, b1, b2⟩ := child_redirect_table sys hcalls
          (parse_command command).input_file (parse_command command).output_file _ a2
        refine ⟨rfl, (.pipe (some fd) :: ([.fork 0, .signals_default]
            ++ (if in_fd ≠ 0 then [.dup2 in_fd 0 sys.dup2_pipe_in, .close in_fd] else [])
            ++ (if j + 1 < n then [.dup2 fd.2 1 sys.dup2_pipe_out, .close fd.2, .close fd.1]
                else [])
            ++ (child_input_events sys (parse_command command).input_file
                ++ child_output_events sys (parse_command command).output_file)) :
              List Event),
          by simp only [List.cons_append, List.append_assoc], ?_, ?_, ?_⟩
        · rw [fd_after_cons, fd_after_append]
          simp only [fd_step]
          rw [b0]
          cases (parse_command command).input_file with
          | some file => rfl
          | none =>
            simp only []
            rw [a0]
            rcases Nat.eq_zero_or_pos j with hz | hpos
            · have hin := hj0 hz
              simp [hin, hz, FdTable.set, Ne.symm w0, Ne.symm r0, ← h0]
            · obtain ⟨before, hb, e1, e2, e3⟩ := hjpos hpos
              have hj : j ≠ 0 := by omega
              simp [e2, hj, hb, FdTable.set, Ne.symm hwi.1, Ne.symm hwi.2, e3]
        · rw [fd_after_cons, fd_after_append]
          simp only [fd_step]
          rw [b1]
          cases (parse_command command).output_file with
          | some file => rfl
          | none =>
            simp only []
            rw [a1]
            simp [hlast, hp, FdTable.set]
        · rw [fd_after_cons, fd_after_append]
          simp only [fd_step]
          exact b2
      · have hT1 : ∀ x, T.holds_pipe x = true →
            (x = in_fd ∧ in_fd ≠ 0) ∨ (j + 1 < n ∧ (x = (0 : Int) ∨ x = (1 : Int))) :=
          fun x hx => Or.inl (hinv x hx)
        rw [(launch_loop_child sys sh commands n k j in_fd pids hchild).2 hlast,
          pipe_child_trace sys sh commands n j in_fd (0, 1) command hcalls hcmd hargv]
        obtain ⟨a0, a1, a2⟩ := pipe_child_dups_table sys n j in_fd (0, 1) T
          hd1 hd2 hin1 (fun h => absurd h hlast) hT1
        obtain ⟨b0, b1, b2⟩ := child_redirect_table sys hcalls
          (parse_command command).input_file (parse_command command).output_file _ a2
        refine ⟨rfl, ([.fork 0, .signals_default]
            ++ (if in_fd ≠ 0 then [.dup2 in_fd 0 sys.dup2_pipe_in, .close in_fd] else [])
            ++ (if j + 1 < n then [.dup2 (0, 1).2 1 sys.dup2_pipe_out, .close (0, 1).2,
                .close (0, 1).1] else [])
            ++ (child_input_events sys (parse_command command).input_file
                ++ child_output_events sys (parse_command command).output_file) :
              List Event),
          by simp only [List.cons_append, List.append_assoc], ?_, ?_, ?_⟩
        · rw [fd_after_append, b0]
          cases (parse_command command).input_file with
          | some file => rfl
          | none =>
            simp only []
            rw [a0]
            rcases Nat.eq_zero_or_pos j with hz | hpos
            · have hin := hj0 hz
              simp [hin, hz, ← h0]
            · obtain ⟨before, hb, e1, e2, e3⟩ := hjpos hpos
              have hj : j ≠ 0 := by omega
              simp [e2, hj, hb, e3]
        · rw [fd_after_append, b1]
          cases (parse_command command).output_file with
          | some file => rfl
          | none =>
            simp only []
            rw [a1]
            simp [hlast, ← h1]
        · rw [fd_after_append]
          exact b2


/-- C21: in an N-stage pipeline, follow the process that is the shell up to
pass `i` of the launch loop and the child forked for stage `i` from then on,
when the `pipe` calls hand out new descriptors and the calls of the child
succeed.  The child reaches `execvp` with the argv of its own stage, and at
that moment descriptor 0 refers to the file named by the stage's `<` if it
has one, otherwise to the read end of pipe `i - 1` (to what the shell had on
0 for `i = 0`); descriptor 1 refers to the file named by the stage's `>` if
it has one, otherwise to the write end of pipe `i` (to what the shell had on
1 for `i = N - 1`); and no other descriptor refers to a pipe end.  So without
a redirection stage `i` reads from the pipe that stage `i - 1` writes to. -/
theorem pipeline_child_descriptors (sys : Sys) (sh : ShellState)
    (commands : List (List Char)) (n i : Nat) (command : List Char) (T : FdTable)
    (hi : i < n) (hcmd : commands[i]? = some command)
    (hargv : (parse_command command).argv ≠ [])
    (hfresh : ∀ j, j ≤ i → j + 1 < n → sys.pipe_fresh j = true)
    (hparent : ∀ j, j < i → 0 < sys.fork_at j) (hchild : sys.fork_at i = 0)
    (hcalls : sys.child_calls_ok = true) (hT : ∀ x, T.holds_pipe x = false) :
    (launch_loop sys sh commands n n 0 0 []).outcome = some .child_end
    ∧ (∃ pre, (launch_loop sys sh commands n n 0 0 []).trace
          = pre ++ exec_events sys (parse_command command).argv
        ∧ fd_after T pre 0
          = (match (parse_command command).input_file with
              | some file => some (.target file false)
              | none =>
                if i = 0 then T 0 else (sys.pipe_at (i - 1)).map (OpenFile.pipe_end true))
        ∧ fd_after T pre 1
          = (match (parse_command command).output_file with
              | some file => some (.target file true)
              | none =>
                if i + 1 < n then (sys.pipe_at i).map (OpenFile.pipe_end false) else T 1)
        ∧ ∀ x, x ≠ 0 → x ≠ 1 → (fd_after T pre).holds_pipe x = false)
    ∧ (sys.malloc_pids = true →
        execute_piped_commands sys sh commands n
          = { outcome := .child_end, trace := (launch_loop sys sh commands n n 0 0 []).trace,
              shell := sh }) := by
  obtain ⟨h1, h2⟩ := launch_loop_to_child sys sh commands n i command hi hcmd hargv hfresh
    hparent hchild hcalls (T 0) (T 1) n 0 0 [] T (by omega) (Nat.zero_le _)
    (fun x hx => by rw [hT x] at hx; cases hx) (by decide) (fun _ => rfl)
    (fun h => absurd h (Nat.lt_irrefl 0)) rfl rfl
  refine ⟨h1, h2, ?_⟩
  intro hm
  unfold execute_piped_commands
  simp only [hm, Bool.not_true, Bool.false_eq_true, if_false, h1]

/-- C21 at `cat file | grep Hello`, pipe (7, 8): the child for `grep` calls
`execvp` with 0 on the read end of the pipe and nothing else of the pipe
open; the child for `cat` has 1 on the write end of the same pipe. -/
theorem pipeline_child_descriptors_witness :
    (launch_loop { Sys.example with fork_at := fun i => if i = 1 then 0 else 100 + (i : Int) }
        (ShellState.initial [] []) ["cat file".toList, "grep Hello".toList] 2 2 0 0 []).trace
      = [.pipe (some (7, 8)), .fork 100, .close 8, .fork 0, .signals_default, .dup2 7 0 0,
         .close 7, .exec true ["grep".toList, "Hello".toList] true]
    ∧ fd_after FdTable.start
        [.pipe (some (7, 8)), .fork 100, .close 8, .fork 0, .signals_default, .dup2 7 0 0,
         .close 7] 0 = some (.pipe_end true (7, 8))
    ∧ fd_after FdTable.start
        (launch_loop { Sys.example with fork_at := fun i => if i = 0 then 0 else 100 + (i : Int) }
          (ShellState.initial [] []) ["cat file".toList, "grep Hello".toList] 2 2 0 0 []).trace 1
      = some (.pipe_end false (7, 8))
    ∧ (launch_loop { Sys.example with fork_at := fun i => if i = 1 then 0 else 100 + (i : Int) }
        (ShellState.initial [] []) ["cat file".toList, "grep Hello".toList] 2 2 0 0
        []).outcome = some .child_end :=
  ⟨by decide, by decide, by decide,
    (pipeline_child_descriptors
      { Sys.example with fork_at := fun i => if i = 1 then 0 else 100 + (i : Int) }
      (ShellState.initial [] []) ["cat file".toList, "grep Hello".toList] 2 1
      "grep Hello".toList FdTable.start (by decide) rfl (by decide)
      (fun j _ hj => by
        have hj0 : j = 0 := by omega
        subst hj0
        rfl)
      (fun j hj => by
        have hj0 : j = 0 := by omega
        subst hj0
        decide)
      rfl (by decide)
      (fun x => by
        unfold FdTable.holds_pipe FdTable.start
        split_ifs <;> rfl)).1⟩

end Shell
